import Mathlib

/-!
# bible-cli: the shell engine, embedded and verified

A shallow embedding of `internal/shell/engine.go` and `internal/ui/console.go`.

Modelling conventions.

* A Go `string` is a Lean `String`; its characters stand for the runes of the Go
  string, and positions count characters where the code counts bytes.  On ASCII text
  (`isAscii`) the two coincide and `ToLower` is Go's `strings.ToLower`; outside ASCII
  the code can slice at another place than the model (`doGrep` can even panic), so
  every result that depends on a position or on `ToLower` of corpus text is stated
  for ASCII text.  `EqualFold` also folds the two characters outside ASCII that Go
  folds onto an ASCII letter (the long s and the Kelvin sign), so it is Go's
  `strings.EqualFold` as soon as one of the two strings is ASCII.
* A Go `map[string]V` is an association list `List (String × V)`.  The order of the
  list is the order in which a `range` loop visits the map.  Go leaves that order
  unspecified and draws it again for every loop, whereas a list has one order.  The
  two `range` loops that stop at the first match (`getBook`, `enterBook`) depend on
  the order only when two keys of a testament match the same name; a result that
  would depend on it is stated under a hypothesis that excludes such keys
  (`foldDistinctBooks`, `bookUnambiguous`), and a result without such a hypothesis
  holds for every list, hence for the runs of the code in which every loop visits
  the map in one and the same order.
  A key is looked up by its first occurrence (the keys of a Go map are distinct).
* Printing is modelled by a list of output events (`Out`), one per `Printf`/`Println`.
* A runtime panic (index or slice bound out of range, `rand.Intn(0)`, assignment to
  an entry of a nil map) is the value `none` of the output component.
* The numbers that `rand.Intn` returns are arguments of `doRandom`.
-/

namespace BibleCli

/-! ## The Go string library, as far as the engine uses it -/

/-- Go's `unicode.IsSpace`. -/
def isSpace (c : Char) : Bool :=
  let n := c.toNat
  n == 0x20 || (0x09 ≤ n && n ≤ 0x0D) || n == 0x85 || n == 0xA0 || n == 0x1680 ||
  (0x2000 ≤ n && n ≤ 0x200A) || n == 0x2028 || n == 0x2029 || n == 0x202F ||
  n == 0x205F || n == 0x3000

/-- Go's `strings.ToLower`, exact on ASCII text: the letters `A`..`Z` are mapped, every
other character is kept (Go also maps the upper-case letters outside ASCII). -/
def ToLower (s : String) : String := ⟨s.data.map Char.toLower⟩

/-- The representative of a character under Go's simple case folding, as far as ASCII
is concerned: the long s (U+017F) folds onto `s`, the Kelvin sign (U+212A) onto `k`,
and `A`..`Z` onto `a`..`z`.  No other character folds onto an ASCII character. -/
def foldChar (c : Char) : Char :=
  if c = Char.ofNat 0x17F then 's'
  else if c = Char.ofNat 0x212A then 'k'
  else c.toLower

/-- Go's `strings.EqualFold`: equality under simple case folding, rune by rune.  Exact
as soon as one of the two strings is ASCII (of two strings outside ASCII, Go also
equates those that differ by the case of a letter outside ASCII). -/
def EqualFold (s t : String) : Bool := s.data.map foldChar == t.data.map foldChar

/-- Go's `strings.HasPrefix`. -/
def HasPrefix (s p : String) : Bool := p.data.isPrefixOf s.data

/-- Go's `strings.TrimPrefix`. -/
def TrimPrefix (s p : String) : String :=
  if HasPrefix s p then ⟨s.data.drop p.data.length⟩ else s

/-- Worker of `ReplaceAll`: `skip` counts the characters of a matched occurrence of
`old` that are still to be dropped. -/
def replaceAux (old new : List Char) : Nat → List Char → List Char
  | _, [] => []
  | k + 1, _ :: cs => replaceAux old new k cs
  | 0, c :: cs =>
    if old.isPrefixOf (c :: cs) then new ++ replaceAux old new (old.length - 1) cs
    else c :: replaceAux old new 0 cs

/-- Go's `strings.ReplaceAll(s, old, new)` for a non-empty `old` (the engine never
passes an empty one): non-overlapping occurrences, left to right. -/
def ReplaceAll (s old new : String) : String := ⟨replaceAux old.data new.data 0 s.data⟩

/-- Worker of `Split`: `cur` is the current piece, reversed. -/
def splitAux (sep : List Char) : Nat → List Char → List Char → List String
  | _, [], cur => [⟨cur.reverse⟩]
  | k + 1, _ :: cs, cur => splitAux sep k cs cur
  | 0, c :: cs, cur =>
    if sep.isPrefixOf (c :: cs) then ⟨cur.reverse⟩ :: splitAux sep (sep.length - 1) cs []
    else splitAux sep 0 cs (c :: cur)

/-- Go's `strings.Split(s, sep)` for a non-empty `sep` (also the sequence that
`strings.SplitSeq` yields). -/
def Split (s sep : String) : List String := splitAux sep.data 0 s.data []

/-- Worker of `Fields`: `cur` is the current field, reversed. -/
def fieldsAux : List Char → List Char → List String
  | [], cur => if cur.isEmpty then [] else [⟨cur.reverse⟩]
  | c :: cs, cur =>
    if isSpace c then
      (if cur.isEmpty then fieldsAux cs [] else ⟨cur.reverse⟩ :: fieldsAux cs [])
    else fieldsAux cs (c :: cur)

/-- Go's `strings.Fields`. -/
def Fields (s : String) : List String := fieldsAux s.data []

/-- Go's `strings.TrimSpace`. -/
def TrimSpace (s : String) : String :=
  ⟨((s.data.dropWhile isSpace).reverse.dropWhile isSpace).reverse⟩

/-- Go's `strings.Join`. -/
def Join : List String → String → String
  | [], _ => ""
  | [a], _ => a
  | a :: b :: rest, sep => a ++ sep ++ Join (b :: rest) sep

/-- Worker of `Contains`. -/
def containsAux (sub : List Char) : List Char → Bool
  | [] => sub.isEmpty
  | c :: cs => sub.isPrefixOf (c :: cs) || containsAux sub cs

/-- Go's `strings.Contains`. -/
def Contains (s sub : String) : Bool := containsAux sub.data s.data

/-- Worker of `Index`: `i` is the index of the first character of the list. -/
def indexAux (sub : List Char) : List Char → Nat → Option Nat
  | [], i => if sub.isEmpty then some i else none
  | c :: cs, i => if sub.isPrefixOf (c :: cs) then some i else indexAux sub cs (i + 1)

/-- Go's `strings.Index`: the index of the first occurrence; `none` stands for -1. -/
def Index (s sub : String) : Option Nat := indexAux sub.data s.data 0

/-- The slice expression `s[i:j]`; `none` is the panic of a bound out of range. -/
def slice (s : String) (i j : Nat) : Option String :=
  if i ≤ j ∧ j ≤ s.data.length then some ⟨(s.data.take j).drop i⟩ else none

/-- Value of a run of decimal digits, most significant first; `none` on any other
character. -/
def digitsValue : List Char → Nat → Option Nat
  | [], acc => some acc
  | c :: cs, acc =>
    if 48 ≤ c.toNat ∧ c.toNat ≤ 57 then digitsValue cs (10 * acc + (c.toNat - 48)) else none

/-- Go's `strconv.Atoi` on a 64-bit platform: an optional sign, at least one decimal
digit, and a value in the range of `int`; `none` stands for a non-nil error. -/
def Atoi (s : String) : Option Int :=
  match s.data with
  | [] => none
  | c :: cs =>
    if c = '-' then
      (if cs.isEmpty then none else
        (digitsValue cs 0).bind fun n => if n ≤ 2 ^ 63 then some (-(n : Int)) else none)
    else if c = '+' then
      (if cs.isEmpty then none else
        (digitsValue cs 0).bind fun n => if n < 2 ^ 63 then some (n : Int) else none)
    else
      (digitsValue (c :: cs) 0).bind fun n => if n < 2 ^ 63 then some (n : Int) else none

/-- Go's `strconv.Itoa`. -/
def Itoa (i : Int) : String :=
  match i with
  | Int.ofNat n => Nat.repr n
  | Int.negSucc n => "-" ++ Nat.repr (n + 1)

/-- Go's `<` on strings: lexicographic order of the characters. -/
def strLess : List Char → List Char → Bool
  | [], [] => false
  | [], _ :: _ => true
  | _ :: _, [] => false
  | a :: as, b :: bs =>
    if a.toNat < b.toNat then true
    else if b.toNat < a.toNat then false
    else strLess as bs

/-! ## Go maps -/

/-- Go's `m[k]` with the comma-ok form: `none` when the key is absent. -/
def mapGet {V : Type} (m : List (String × V)) (k : String) : Option V :=
  match m with
  | [] => none
  | (k', v) :: rest => if k' = k then some v else mapGet rest k

/-- Go's `m[k] = v`. -/
def mapSet {V : Type} (m : List (String × V)) (k : String) (v : V) : List (String × V) :=
  match m with
  | [] => [(k, v)]
  | (k', v') :: rest => if k' = k then (k, v) :: rest else (k', v') :: mapSet rest k v

/-! ## internal/ui/console.go -/

/-- The `less` closure that `GetSortedKeys` hands to `sort.Slice`. -/
def keyLess (a b : String) : Bool :=
  match Atoi a, Atoi b with
  | some n1, some n2 => decide (n1 < n2)
  | _, _ => strLess a.data b.data

/-- Inner loop of Go's insertion sort: the new element moves left while it is less than
its left neighbour.  The sorted part is given reversed (nearest neighbour first). -/
def sinkLeft (less : String → String → Bool) (x : String) : List String → List String
  | [] => [x]
  | y :: ys => if less x y then y :: sinkLeft less x ys else x :: y :: ys

/-- Go's `sort.Slice`, which on slices of at most 12 elements is exactly this insertion
sort (`insertionSortLessFunc`); on longer slices Go switches to pattern-defeating
quicksort, which yields the same result whenever `less` is a strict weak order without
ties. -/
def sortSlice (less : String → String → Bool) (keys : List String) : List String :=
  (keys.foldl (fun sorted x => sinkLeft less x sorted) []).reverse

/-- `GetSortedKeys` of console.go. -/
def GetSortedKeys {V : Type} (m : List (String × V)) : List String :=
  sortSlice keyLess (m.map Prod.fst)

/-! ## internal/model/types.go -/

/-- `model.Chapter`: verse number to verse text. -/
abbrev Chapter := List (String × String)

/-- `model.Book`: chapter number to chapter. -/
abbrev Book := List (String × Chapter)

/-- `model.Testament`: book name to book. -/
abbrev Testament := List (String × Book)

/-- `model.Bible`. -/
structure Bible where
  OT : Testament
  NT : Testament
  deriving DecidableEq, Repr

/-! ## internal/shell/engine.go -/

/-- `Engine` of engine.go.  `PrevPath` is a list as well: the code only ever looks at
its length and its contents, so a nil slice and an empty slice are the same value.
For the map `Bookmarks` the difference matters: a nil map reads as the empty map, but
an assignment to one of its entries panics.  `BookmarksNil` records that the map is
nil, which is what `loadBookmarks` leaves when the bookmark file holds the JSON value
`null` (`json.Unmarshal` sets the map to nil); `Bookmarks` is then empty. -/
structure Engine where
  DB : Bible
  Path : List String
  PrevPath : List String
  BookIndex : List (String × String)
  Bookmarks : List (String × String)
  BookmarksNil : Bool
  deriving DecidableEq, Repr

/-- What the engine prints, one constructor per message. -/
inductive Out where
  /-- `No history.` -/
  | noHistory
  /-- `Path element '%s' not found.` -/
  | pathElementNotFound (part : String)
  /-- `Path '%s' not found.` -/
  | pathNotFound (arg : String)
  /-- `Error: Select a book first.` -/
  | selectBookFirst
  /-- `renderTestament`: the header and one `DIR` line per book. -/
  | bookListing (keys : List String)
  /-- `renderBook`: the header and one `DIR` line per chapter. -/
  | chapterListing (keys : List String)
  /-- `renderChapter`: the header with the chapter number and one line per verse. -/
  | verseListing (cNum : String) (verses : List (String × String))
  /-- `Chapter %s not found.` -/
  | chapterNotFound (chapNum : String)
  /-- `Reading %s %s:%s` -/
  | reading (bName chapNum verseArgs : String)
  /-- `Invalid range: %s` -/
  | invalidRange (seg : String)
  /-- `%3d: %v` -/
  | verse (i : Int) (text : String)
  /-- `(End of chapter)` -/
  | endOfChapter
  /-- `Verse %s not found.` -/
  | verseNotFound (seg : String)
  /-- The empty line that ends a reading. -/
  | blank
  /-- `Marked '%s' at %s` -/
  | marked (name pathStr : String)
  /-- `Bookmark '%s' not found.` -/
  | bookmarkNotFound (name : String)
  /-- `── Bible Root ──` and the two testament lines. -/
  | rootListing
  /-- `Usage: mark <name>` -/
  | usageMark
  /-- `Usage: grep <word>` -/
  | usageGrep
  /-- `Command '%s' not found.` -/
  | commandNotFound (cmd : String)
  /-- `Searching for '%s'...` -/
  | searching (query : String)
  /-- `[%s %s:%s] %s`: a match of the search; the verse text is given in the three pieces
  around which the colour codes are printed (before the first occurrence of the query,
  the occurrence, after it). -/
  | grepHit (bName cName vKey : String) (before hit after : String)
  /-- `No matches.` -/
  | noMatches
  /-- `Found %d matches.` -/
  | foundMatches (count : Nat)
  /-- `[Random] %s %s:%s` and the text of the verse. -/
  | randomVerse (bKey cKey vKey text : String)
  /-- Output of a command whose text the embedding does not describe
  (`marks`, `manna`, `help`, `clear`). -/
  | other (cmd : String)
  deriving DecidableEq, Repr

/-- `GetPathString`. -/
def GetPathString (e : Engine) : String := "/" ++ Join e.Path "/"

/-- The loop `for i := 1; i <= len(cleanKey); i++` of `buildIndex`: every prefix that
is not yet a key is mapped to `fullPath`. -/
def claimPrefixes (fullPath : String) (cleanKey : String)
    (idx : List (String × String)) : List (String × String) :=
  (List.range cleanKey.data.length).foldl
    (fun m i =>
      let pre : String := ⟨cleanKey.data.take (i + 1)⟩
      if (mapGet m pre).isSome then m else mapSet m pre fullPath)
    idx

/-- Body of the loop over the sorted book names in `indexTestament`. -/
def indexBook (tName : String) (idx : List (String × String)) (name : String) :
    List (String × String) :=
  let lower := ToLower name
  let fullPath := "/" ++ tName ++ "/" ++ name
  let cleanKey := ReplaceAll lower " " ""
  let m0 := claimPrefixes fullPath cleanKey idx
  let m1 := if cleanKey = "matthew" then mapSet m0 "mt" fullPath else m0
  let m2 := if cleanKey = "mark" then mapSet m1 "mk" fullPath else m1
  let m3 := if cleanKey = "luke" then mapSet m2 "lk" fullPath else m2
  let m4 := if cleanKey = "john" then mapSet m3 "jn" fullPath else m3
  if cleanKey = "philippians" then mapSet m4 "php" fullPath else m4

/-- The closure `indexTestament` of `buildIndex`. -/
def indexTestament (tName : String) (tMap : Testament) (idx : List (String × String)) :
    List (String × String) :=
  (GetSortedKeys tMap).foldl (indexBook tName) (mapSet idx (ToLower tName) ("/" ++ tName))

/-- `buildIndex`, started on the empty index that `New` allocates. -/
def buildIndex (db : Bible) : List (String × String) :=
  indexTestament "NT" db.NT (indexTestament "OT" db.OT [])

/-- `New`; `bookmarks` is the map that `loadBookmarks` reads from the bookmark file
(empty when there is no file or it does not hold a JSON object).  The start state for
a bookmark file that holds `null` is `NewNil`. -/
def New (db : Bible) (bookmarks : List (String × String)) : Engine :=
  { DB := db, Path := [], PrevPath := [], BookIndex := buildIndex db, Bookmarks := bookmarks,
    BookmarksNil := false }

/-- `New` when the bookmark file holds the JSON value `null`: `loadBookmarks` leaves the
map `Bookmarks` nil. -/
def NewNil (db : Bible) : Engine :=
  { DB := db, Path := [], PrevPath := [], BookIndex := buildIndex db, Bookmarks := [],
    BookmarksNil := true }

/-- `getBook`; `none` stands for the nil map returned when no key matches.  The loop
returns at the first key that matches, in the order of the list; the result does not
depend on that order when at most one key of the testament matches `bName`. -/
def getBook (e : Engine) (tName bName : String) : Option Book :=
  let tMap := if tName = "OT" then e.DB.OT else e.DB.NT
  (tMap.find? fun kv => EqualFold kv.1 bName).map Prod.snd

/-- `saveHistory`. -/
def saveHistory (e : Engine) : Engine := { e with PrevPath := e.Path }

/-- `enterTestament`. -/
def enterTestament (e : Engine) (target : String) : Engine × Bool :=
  let clean := ToLower target
  if clean = "ot" then ({ e with Path := e.Path ++ ["OT"] }, true)
  else if clean = "nt" then ({ e with Path := e.Path ++ ["NT"] }, true)
  else (e, false)

/-- `enterBook`; `e.Path[0]` is in range at its only call site.  The loop stops at the
first key that matches, in the order of the list; the result does not depend on that
order when at most one key of the testament matches the target. -/
def enterBook (e : Engine) (target : String) : Engine × Bool :=
  let cleanTarget := ToLower (ReplaceAll target " " "")
  let tMap := if e.Path.getD 0 "" = "OT" then e.DB.OT else e.DB.NT
  match tMap.find? fun kv => EqualFold (ReplaceAll kv.1 " " "") cleanTarget with
  | some kv => ({ e with Path := e.Path ++ [kv.1] }, true)
  | none => (e, false)

/-- `enterChapter`; `e.Path[0]` and `e.Path[1]` are in range at its only call site. -/
def enterChapter (e : Engine) (target : String) : Engine × Bool :=
  match getBook e (e.Path.getD 0 "") (e.Path.getD 1 "") with
  | none => (e, false)
  | some book =>
    if (mapGet book target).isSome then ({ e with Path := e.Path ++ [target] }, true)
    else (e, false)

/-- `tryLocalStep`. -/
def tryLocalStep (e : Engine) (target : String) : Engine × Bool :=
  match e.Path.length with
  | 0 => enterTestament e target
  | 1 => enterBook e target
  | 2 => enterChapter e target
  | _ => (e, false)

/-- `tryTeleport`. -/
def tryTeleport (e : Engine) (target : String) : Engine × Bool :=
  let cleanTarget := ToLower (ReplaceAll target " " "")
  match mapGet e.BookIndex cleanTarget with
  | some targetPath => ({ e with Path := Split (TrimPrefix targetPath "/") "/" }, true)
  | none => (e, false)

/-- The loop over the components of an absolute path in `doCD`. -/
def walkParts (e : Engine) : List String → Engine × List Out
  | [] => (e, [])
  | part :: rest =>
    if part = "" then walkParts e rest
    else
      match tryLocalStep e part with
      | (e1, true) => walkParts e1 rest
      | (e1, false) => (e1, [Out.pathElementNotFound part])

/-- `doCD`. -/
def doCD (e : Engine) (arg : String) : Engine × List Out :=
  if arg = "" ∨ arg = "/" then ({ e with Path := [] }, [])
  else if arg = "-" then
    (if e.PrevPath.length = 0 then (e, [Out.noHistory])
     else ({ e with Path := e.PrevPath, PrevPath := e.Path }, []))
  else if arg = ".." then
    (if e.Path.length > 0 then ({ e with Path := e.Path.take (e.Path.length - 1) }, [])
     else (e, []))
  else
    let e1 := saveHistory e
    if HasPrefix arg "/" then
      walkParts { e1 with Path := [] } (Split (TrimPrefix arg "/") "/")
    else
      match tryLocalStep e1 arg with
      | (e2, true) => (e2, [])
      | (e2, false) =>
        match tryTeleport e2 arg with
        | (e3, true) => (e3, [])
        | (e3, false) => (e3, [Out.pathNotFound arg])

/-- `renderBook`. -/
def renderBook (bk : Book) : Out := Out.chapterListing (GetSortedKeys bk)

/-- `renderTestament`. -/
def renderTestament (t : Testament) : Out := Out.bookListing (GetSortedKeys t)

/-- `renderChapter`. -/
def renderChapter (cNum : String) (ch : Chapter) : Out :=
  Out.verseListing cNum ((GetSortedKeys ch).map fun k => (k, (mapGet ch k).getD ""))

/-- The increment `i++` on a 64-bit `int`. -/
def incInt (i : Int) : Int := if i + 1 < 2 ^ 63 then i + 1 else -(2 ^ 63)

/-- The loop `for i := start; i <= end; i++` of `doCat`.  Every pass that does not
break finds one more key of the chapter, so the body runs at most `len(chapter) + 1`
times: that number is the initial `fuel`, and more fuel changes nothing
(`rangeLoop_fuel`). -/
def rangeLoop (chapter : Chapter) : Nat → Int → Int → List Out
  | 0, _, _ => []
  | fuel + 1, i, stop =>
    if i ≤ stop then
      match mapGet chapter (Itoa i) with
      | some text => Out.verse i text :: rangeLoop chapter fuel (incInt i) stop
      | none => [Out.endOfChapter]
    else []

/-- Body of the loop over the comma-separated segments in `doCat`; `none` is the
panic of an index out of range in `rangeParts`. -/
def catSegment (chapter : Chapter) (rawSeg : String) : Option (List Out) :=
  let seg := TrimSpace rawSeg
  if seg = "" then some []
  else if Contains seg "-" then
    let rangeParts := Split seg "-"
    match rangeParts.get? 0, rangeParts.get? 1 with
    | some p0, some p1 =>
      match Atoi p0, Atoi p1 with
      | some start, some stop => some (rangeLoop chapter (chapter.length + 1) start stop)
      | _, _ => some [Out.invalidRange seg]
    | _, _ => none
  else
    match mapGet chapter seg with
    | some text => some [Out.verse ((Atoi seg).getD 0) text]
    | none => some [Out.verseNotFound seg]

/-- The loop over the comma-separated segments in `doCat`. -/
def catSegments (chapter : Chapter) : List String → Option (List Out)
  | [] => some []
  | rawSeg :: rest =>
    match catSegment chapter rawSeg with
    | none => none
    | some o1 =>
      match catSegments chapter rest with
      | none => none
      | some o2 => some (o1 ++ o2)

/-- The tail of `doCat`, from the chapter lookup on. -/
def catChapter (bName : String) (book : Book) (chapNum verseArgs : String) :
    Option (List Out) :=
  match mapGet book chapNum with
  | none => some [Out.chapterNotFound chapNum]
  | some chapter =>
    if verseArgs = "" then some [renderChapter chapNum chapter]
    else
      match catSegments chapter (Split verseArgs ",") with
      | none => none
      | some o => some (Out.reading bName chapNum verseArgs :: o ++ [Out.blank])

/-- `doCat`; it never changes the engine.  The result `none` is a runtime panic:
`tokens[0]` on an empty token list, or an index out of range in `rangeParts`. -/
def doCat (e : Engine) (arg : String) : Option (List Out) :=
  if e.Path.length < 2 then some [Out.selectBookFirst]
  else
    let tName := e.Path.getD 0 ""
    let bName := e.Path.getD 1 ""
    match getBook e tName bName with
    | none => some []
    | some book =>
      if arg = "" ∧ e.Path.length = 2 then some [renderBook book]
      else if e.Path.length = 3 ∧ arg = "" then
        some [renderChapter (e.Path.getD 2 "") ((mapGet book (e.Path.getD 2 "")).getD [])]
      else if e.Path.length = 2 then
        let tokens := Fields (ReplaceAll arg ":" " ")
        match tokens.get? 0 with
        | none => none
        | some chapNum =>
          let verseArgs := if tokens.length > 1 then tokens.getD 1 "" else ""
          catChapter bName book chapNum verseArgs
      else catChapter bName book (e.Path.getD 2 "") arg

/-- The state of the greedy book matcher of `handleSmartCat`. -/
structure BookMatch where
  bestMatchPath : String
  argsAfterMatch : List String
  tokensConsumed : Nat
  deriving DecidableEq, Repr

/-- The loop `for i, part := range parts` of `handleSmartCat`: `i` is the index of the
first token of the list, `currentKey` the key accumulated so far.  The tokens after
the current one are `parts[i+1:]`, empty when there are none. -/
def greedyLoop (idx : List (String × String)) :
    List String → Nat → String → BookMatch → BookMatch
  | [], _, _, m => m
  | part :: rest, i, currentKey, m =>
    let key := currentKey ++ ToLower part
    match mapGet idx key with
    | some targetPath => greedyLoop idx rest (i + 1) key ⟨targetPath, rest, i + 1⟩
    | none => greedyLoop idx rest (i + 1) key m

/-- `handleSmartCat`.  The engine of the result is the state the call leaves (also
when the read panics); the second component is what `doCat` prints, `none` for a
panic. -/
def handleSmartCat (e : Engine) (args : String) : Engine × Option (List Out) :=
  if args = "" then (e, doCat e "")
  else
    let parts := Fields args
    let m := greedyLoop e.BookIndex parts 0 "" ⟨"", [], 0⟩
    let isLocalChapter : Bool :=
      if e.Path.length = 2 then
        match getBook e (e.Path.getD 0 "") (e.Path.getD 1 "") with
        | some book => (mapGet book (ToLower (parts.getD 0 ""))).isSome
        | none => false
      else false
    if m.bestMatchPath ≠ "" ∧ (m.tokensConsumed > 1 ∨ ¬ isLocalChapter) then
      let e1 := { e with Path := Split (TrimPrefix m.bestMatchPath "/") "/" }
      if m.argsAfterMatch.length > 0 then (e1, doCat e1 (Join m.argsAfterMatch " "))
      else (e1, doCat e1 "")
    else (e, doCat e args)

/-- `saveBookmark` (the write to the bookmark file is not part of the state).  The
assignment `e.Bookmarks[name] = pathStr` panics when the map is nil. -/
def saveBookmark (e : Engine) (name : String) : Engine × Option (List Out) :=
  let pathStr := "/" ++ Join e.Path "/"
  if e.BookmarksNil then (e, none)
  else ({ e with Bookmarks := mapSet e.Bookmarks name pathStr }, some [Out.marked name pathStr])

/-- `goToBookmark`. -/
def goToBookmark (e : Engine) (name : String) : Engine × List Out :=
  match mapGet e.Bookmarks name with
  | some target =>
    let e1 := saveHistory e
    let cleanTarget := TrimPrefix target "/"
    if cleanTarget = "" then ({ e1 with Path := [] }, [])
    else ({ e1 with Path := Split cleanTarget "/" }, [])
  | none => (e, [Out.bookmarkNotFound name])

/-- `doLS`. -/
def doLS (e : Engine) : List Out :=
  if e.Path.length = 0 then [Out.rootListing]
  else if e.Path.length = 1 then
    [renderTestament (if e.Path.getD 0 "" = "NT" then e.DB.NT else e.DB.OT)]
  else if e.Path.length = 2 then
    [renderBook ((getBook e (e.Path.getD 0 "") (e.Path.getD 1 "")).getD [])]
  else if e.Path.length = 3 then
    [renderChapter (e.Path.getD 2 "")
      ((mapGet ((getBook e (e.Path.getD 0 "") (e.Path.getD 1 "")).getD [])
        (e.Path.getD 2 "")).getD [])]
  else []

/-- The line that the closure `searchChapter` of `doGrep` prints for a matching verse;
`none` is the panic of a slice bound out of range (an index of -1 included).  The code
finds a byte offset in the lower-cased text and slices the original text there; the
model does so with character positions, which is the same for an ASCII text and an
ASCII query.  (For a text outside ASCII the lower-cased text can be longer in bytes
and the code can panic where the model returns a line: results on `doGrep` are stated
for ASCII texts.) -/
def grepLine (bName cName vKey text query : String) : Option Out :=
  match Index (ToLower text) query with
  | none => none
  | some idx =>
    match slice text 0 idx, slice text idx (idx + query.data.length),
        slice text (idx + query.data.length) text.data.length with
    | some before, some hit, some after => some (Out.grepHit bName cName vKey before hit after)
    | _, _, _ => none

/-- The loop over the sorted verse keys in the closure `searchChapter` of `doGrep`.
The counter `count` of the code is the number of lines printed. -/
def searchVerses (bName cName : String) (ch : Chapter) (query : String) :
    List String → Option (List Out)
  | [] => some []
  | vKey :: rest =>
    let text := (mapGet ch vKey).getD ""
    if Contains (ToLower text) query then
      match grepLine bName cName vKey text query with
      | none => none
      | some line =>
        match searchVerses bName cName ch query rest with
        | none => none
        | some lines => some (line :: lines)
    else searchVerses bName cName ch query rest

/-- The closure `searchChapter` of `doGrep`. -/
def searchChapter (bName cName : String) (ch : Chapter) (query : String) :
    Option (List Out) :=
  searchVerses bName cName ch query (GetSortedKeys ch)

/-- The loop `for cName, chapter := range book` of `doGrep`. -/
def searchChapters (bName query : String) : Book → Option (List Out)
  | [] => some []
  | (cName, chapter) :: rest =>
    match searchChapter bName cName chapter query with
    | none => none
    | some o1 =>
      match searchChapters bName query rest with
      | none => none
      | some o2 => some (o1 ++ o2)

/-- The closure `searchTestament` of `doGrep`. -/
def searchTestament (query : String) : Testament → Option (List Out)
  | [] => some []
  | (bName, book) :: rest =>
    match searchChapters bName query book with
    | none => none
    | some o1 =>
      match searchTestament query rest with
      | none => none
      | some o2 => some (o1 ++ o2)

/-- `doGrep`; `none` is a runtime panic.  The count that is printed is the number of
match lines. -/
def doGrep (e : Engine) (query0 : String) : Option (List Out) :=
  let query := ToLower (ReplaceAll query0 "\"" "")
  let hits : Option (List Out) :=
    if e.Path.length = 0 then
      match searchTestament query e.DB.OT with
      | none => none
      | some o1 =>
        match searchTestament query e.DB.NT with
        | none => none
        | some o2 => some (o1 ++ o2)
    else if e.Path.length = 1 then
      searchTestament query (if e.Path.getD 0 "" = "NT" then e.DB.NT else e.DB.OT)
    else if e.Path.length = 2 then
      searchChapters (e.Path.getD 1 "") query
        ((getBook e (e.Path.getD 0 "") (e.Path.getD 1 "")).getD [])
    else if e.Path.length = 3 then
      searchChapter (e.Path.getD 1 "") (e.Path.getD 2 "")
        ((mapGet ((getBook e (e.Path.getD 0 "") (e.Path.getD 1 "")).getD [])
          (e.Path.getD 2 "")).getD []) query
    else some []
  match hits with
  | none => none
  | some lines =>
    some (Out.searching query :: lines ++
      [if lines.length = 0 then Out.noMatches else Out.foundMatches lines.length])

/-- The element `keys[rand.Intn(len(keys))]`, for the random number `r`: `rand.Intn`
panics on the argument 0 and otherwise returns a number below its argument. -/
def pick (keys : List String) (r : Nat) : Option String :=
  if keys.length = 0 then none else keys.get? (r % keys.length)

/-- `doRandom`, with the numbers that the four calls of `rand.Intn` draw as arguments;
`none` is a runtime panic. -/
def doRandom (e : Engine) (r0 r1 r2 r3 : Nat) : Option (List Out) :=
  let tKey := ["OT", "NT"].getD (r0 % 2) ""
  let tMap := if tKey = "OT" then e.DB.OT else e.DB.NT
  match pick (GetSortedKeys tMap) r1 with
  | none => none
  | some bKey =>
    let bk := (mapGet tMap bKey).getD []
    match pick (GetSortedKeys bk) r2 with
    | none => none
    | some cKey =>
      let ch := (mapGet bk cKey).getD []
      match pick (GetSortedKeys ch) r3 with
      | none => none
      | some vKey => some [Out.randomVerse bKey cKey vKey ((mapGet ch vKey).getD "")]

/-- `isNumeric`: the first byte of the command is a decimal digit. -/
def isNumeric (s : String) : Bool :=
  match s.data with
  | [] => false
  | c :: _ => (Atoi (String.singleton c)).isSome

/-- The loop over the segments of a multi-reference read in `RunCommand`; it stops at
the first panic. -/
def catLoop (e : Engine) : List String → Engine × Option (List Out)
  | [] => (e, some [])
  | seg :: rest =>
    let cleanSeg := TrimSpace seg
    if cleanSeg = "" then catLoop e rest
    else
      match handleSmartCat e cleanSeg with
      | (e1, none) => (e1, none)
      | (e1, some o1) =>
        match catLoop e1 rest with
        | (e2, none) => (e2, none)
        | (e2, some o2) => (e2, some (o1 ++ o2))

/-- `RunCommand`.  The second component is `none` when the command panics
(`parts[0]` on an input without fields, or a panic of the read).  `exit` and `quit`
end the process and are modelled as leaving the state as it is.  Of `marks`, `manna`,
`help` and `clear` only the fact that they print is recorded; `manna` draws random
numbers, and what it prints, and when it panics, is described by `doRandom`. -/
def RunCommand (e : Engine) (input : String) : Engine × Option (List Out) :=
  if input = "" then (e, some [])
  else
    let parts := Fields input
    match parts with
    | [] => (e, none)
    | p0 :: restParts =>
      let cmd := ToLower p0
      let args := if parts.length > 1 then Join restParts " " else ""
      if cmd = "exit" ∨ cmd = "quit" then (e, some [])
      else if cmd = "ls" ∨ cmd = "ll" then (e, some (doLS e))
      else if cmd = "cd" then ((doCD e args).1, some (doCD e args).2)
      else if cmd = "cat" ∨ cmd = "read" then
        (if args = "" then (e, doCat e "")
         else
          let n1 := ReplaceAll args " + " " |BREAK| "
          let n2 := ReplaceAll n1 " and " " |BREAK| "
          let n3 := ReplaceAll n2 " AND " " |BREAK| "
          catLoop e (Split n3 "|BREAK|"))
      else if cmd = "grep" ∨ cmd = "search" then
        (if args = "" then (e, some [Out.usageGrep]) else (e, doGrep e args))
      else if cmd = "mark" then
        (if args = "" then (e, some [Out.usageMark])
         else saveBookmark e args)
      else if cmd = "goto" ∨ cmd = "jump" then
        ((goToBookmark e args).1, some (goToBookmark e args).2)
      else if cmd = "marks" ∨ cmd = "manna" ∨ cmd = "random" ∨ cmd = "help" ∨
          cmd = "clear" ∨ cmd = "cls" then (e, some [Out.other cmd])
      else if isNumeric cmd then handleSmartCat e input
      else (e, some [Out.commandNotFound cmd])

/-- Runs a session: the commands one after the other, as the read loop of `main` does,
up to the first panic. -/
def runAll (e : Engine) : List String → Engine × Bool
  | [] => (e, true)
  | input :: rest =>
    match RunCommand e input with
    | (e1, none) => (e1, false)
    | (e1, some _) => runAll e1 rest

/-- The corpus of `getMockDB` in engine_test.go. -/
def mockDB : Bible :=
  { OT := [("Genesis", [("1", [("1", "In the beginning...")])]),
           ("Exodus", [("1", [("1", "Now these are the names...")])])],
    NT := [("Matthew", [("1", [("1", "The book of the generation...")])]),
           ("John", [("3", [("16", "For God so loved...")])]),
           ("1 John", [("1", [("1", "That which was from the beginning...")])])] }

/-- A corpus in which John 3 holds the verses 16, 17, 18 and 20. -/
def johnDB : Bible :=
  { OT := [],
    NT := [("John", [("3", [("16", "v16"), ("17", "v17"), ("18", "v18"), ("20", "v20")])])] }

/-! ## Vocabulary of the properties -/

/-- The counter of the range loop after `k` increments. -/
def incIter : Nat → Int → Int
  | 0, i => i
  | k + 1, i => incInt (incIter k i)

/-- A list of keys ascending by integer value: of two keys, the earlier parses to an
integer not above the one the later parses to. -/
def numericAscending (l : List String) : Prop :=
  l.Pairwise fun a b => ∃ x y : Int, Atoi a = some x ∧ Atoi b = some y ∧ x ≤ y

/-- A list of keys ascending in the lexicographic order of Go's `<` on strings. -/
def lexAscending (l : List String) : Prop :=
  l.Pairwise fun a b => a = b ∨ strLess a.data b.data = true

/-- The normalized name of a book: lower case, spaces removed (`cleanKey`). -/
def normName (name : String) : String := ReplaceAll (ToLower name) " " ""

/-- The absolute path `/Testament/BookName` that `buildIndex` stores for a book. -/
def bookPath (tName name : String) : String := "/" ++ tName ++ "/" ++ name

/-- The key `p` is a non-empty prefix of the normalized name of the book `name`. -/
def claimsPrefix (name p : String) : Prop := p ≠ "" ∧ p.data <+: (normName name).data

instance claimsPrefixDecidable (name p : String) : Decidable (claimsPrefix name p) := by
  unfold claimsPrefix
  infer_instance

/-- The keys that `buildIndex` writes unconditionally: the testament names and the
manual aliases. -/
def hardKeys : List String := ["ot", "nt", "mt", "mk", "lk", "jn", "php"]

/-- The key made of the lowercased tokens, concatenated. -/
def concatLower : List String → String
  | [] => ""
  | t :: ts => ToLower t ++ concatLower ts

/-- The first `k` tokens of `parts` spell a key of the index. -/
def matchesAt (idx : List (String × String)) (parts : List String) (k : Nat) : Prop :=
  (mapGet idx (concatLower (parts.take k))).isSome

/-- A value that `buildIndex` can store: the path of a testament or of one of its
books. -/
def indexValue (db : Bible) (v : String) : Prop :=
  v = "/" ++ "OT" ∨ v = "/" ++ "NT" ∨
  (∃ n ∈ db.OT.map Prod.fst, v = "/" ++ "OT" ++ "/" ++ n) ∨
  (∃ n ∈ db.NT.map Prod.fst, v = "/" ++ "NT" ++ "/" ++ n)

/-- The engine reached from `e` by stepping into the components one after the other;
`none` when one of them does not resolve. -/
def stepAll (e : Engine) : List String → Option Engine
  | [] => some e
  | c :: cs => if (tryLocalStep e c).2 then stepAll (tryLocalStep e c).1 cs else none

/-- The string holds no `/`. -/
def noSlash (s : String) : Prop := '/' ∉ s.data

instance noSlashDecidable (s : String) : Decidable (noSlash s) := by
  unfold noSlash
  infer_instance

/-- Every book key and every chapter key of the corpus is free of `/`. -/
def slashFreeKeys (db : Bible) : Prop :=
  (∀ bk ∈ db.OT, noSlash bk.1 ∧ ∀ ch ∈ bk.2, noSlash ch.1) ∧
  (∀ bk ∈ db.NT, noSlash bk.1 ∧ ∀ ch ∈ bk.2, noSlash ch.1)

/-- A valid Location: at most three segments; the first is OT or NT, the second a book
key of that testament, the third a chapter key of the book that the engine looks up
under the first two (`getBook`, the case-insensitive lookup of the corpus). -/
def validLocation (e : Engine) : List String → Prop
  | [] => True
  | [t] => t = "OT" ∨ t = "NT"
  | [t, b] =>
    (t = "OT" ∨ t = "NT") ∧ b ∈ (if t = "OT" then e.DB.OT else e.DB.NT).map Prod.fst
  | [t, b, c] =>
    (t = "OT" ∨ t = "NT") ∧ b ∈ (if t = "OT" then e.DB.OT else e.DB.NT).map Prod.fst ∧
    ∃ book, getBook e t b = some book ∧ c ∈ book.map Prod.fst
  | _ :: _ :: _ :: _ :: _ => False

/-- The key `k` is the child that the token names at the Location of `e` (the step-in
rule of the navigator): at the root, OT or NT, named up to letter case; inside a
testament, a book key of it that equals the token up to letter case and spaces; inside
a book, the token itself, a chapter key of the book. -/
def childKey (e : Engine) (token k : String) : Prop :=
  match e.Path with
  | [] => (k = "OT" ∧ ToLower token = "ot") ∨ (k = "NT" ∧ ToLower token = "nt")
  | [t] =>
    k ∈ (if t = "OT" then e.DB.OT else e.DB.NT).map Prod.fst ∧
    EqualFold (ReplaceAll k " " "") (ToLower (ReplaceAll token " " "")) = true
  | [t, b] => k = token ∧ ∃ book, getBook e t b = some book ∧ k ∈ book.map Prod.fst
  | _ => False

/-- The manual overrides of `buildIndex`: alias key and the normalized book name that
sets it. -/
def aliasTable : List (String × String) :=
  [("mt", "matthew"), ("mk", "mark"), ("lk", "luke"), ("jn", "john"), ("php", "philippians")]

/-- The books of the corpus, as pairs of testament and book key, whose normalized name
is `w`. -/
def booksNamed (db : Bible) (w : String) : List (String × String) :=
  ((db.OT.map Prod.fst).filter fun n => normName n = w).map (fun n => ("OT", n)) ++
  ((db.NT.map Prod.fst).filter fun n => normName n = w).map (fun n => ("NT", n))

/-- The input line is a `mark` command for the bookmark `name`. -/
def marksName (input name : String) : Prop :=
  match Fields input with
  | [] => False
  | p0 :: rest => ToLower p0 = "mark" ∧ Join rest " " = name

instance marksNameDecidable (input name : String) : Decidable (marksName input name) := by
  unfold marksName
  cases Fields input <;> infer_instance

/-- The input line is a `goto` or `jump` command for the bookmark `name`. -/
def jumpsTo (input name : String) : Prop :=
  match Fields input with
  | [] => False
  | p0 :: rest => (ToLower p0 = "goto" ∨ ToLower p0 = "jump") ∧ Join rest " " = name

instance jumpsToDecidable (input name : String) : Decidable (jumpsTo input name) := by
  unfold jumpsTo
  cases Fields input <;> infer_instance

/-- A reference that the multi-reference splitter of `RunCommand` leaves whole: it is
not blank and holds no `+`, no word `and` or `AND`, and no `|BREAK|`. -/
def cleanRef (A : String) : Prop :=
  Fields A ≠ [] ∧ '+' ∉ A.data ∧ "and" ∉ Fields A ∧ "AND" ∉ Fields A ∧
  Contains A "|BREAK|" = false

instance cleanRefDecidable (A : String) : Decidable (cleanRef A) := by
  unfold cleanRef
  infer_instance

/-- A step after a result: the step runs in the state that the result holds, the outputs
follow each other, and a panic ends the run. -/
def seqRun (r : Engine × Option (List Out)) (next : Engine → Engine × Option (List Out)) :
    Engine × Option (List Out) :=
  match r.2 with
  | none => (r.1, none)
  | some o1 =>
    match (next r.1).2 with
    | none => ((next r.1).1, none)
    | some o2 => ((next r.1).1, some (o1 ++ o2))

/-- Two commands, one after the other. -/
def runTwo (e : Engine) (c1 c2 : String) : Engine × Option (List Out) :=
  seqRun (RunCommand e c1) (fun e1 => RunCommand e1 c2)

/-- The lines of the verses `a`, `a + 1`, ..., `a + n - 1` of the chapter, in this
order; a verse without an entry is given the empty text. -/
def versesOut (chapter : Chapter) (a : Int) : Nat → List Out
  | 0 => []
  | n + 1 => Out.verse a ((mapGet chapter (Itoa a)).getD "") :: versesOut chapter (a + 1) n

/-- A string of decimal digits, as the chapter numbers of the corpus are. -/
def isDigits (s : String) : Prop := ∀ c ∈ s.data, 48 ≤ c.toNat ∧ c.toNat ≤ 57

instance isDigitsDecidable (s : String) : Decidable (isDigits s) := by
  unfold isDigits
  infer_instance

/-- No other book takes the full normalized name of the book `B` of testament `T`: a
book of the corpus whose normalized name begins with (or is) the normalized name of
`B` is `B` in `T` itself. -/
def ownsFullName (db : Bible) (T B : String) : Prop :=
  (∀ B2 ∈ db.OT.map Prod.fst, (normName B).data <+: (normName B2).data → T = "OT" ∧ B2 = B) ∧
  (∀ B2 ∈ db.NT.map Prod.fst, (normName B).data <+: (normName B2).data → T = "NT" ∧ B2 = B)

instance ownsFullNameDecidable (db : Bible) (T B : String) :
    Decidable (ownsFullName db T B) := by
  unfold ownsFullName
  infer_instance

/-- Every book key and every chapter key of the corpus is non-empty. -/
def nonEmptyKeys (db : Bible) : Prop :=
  (∀ bk ∈ db.OT, bk.1 ≠ "" ∧ ∀ ch ∈ bk.2, ch.1 ≠ "") ∧
  (∀ bk ∈ db.NT, bk.1 ≠ "" ∧ ∀ ch ∈ bk.2, ch.1 ≠ "")

/-- Within each testament the books have pairwise distinct normalized names. -/
def distinctNormNames (db : Bible) : Prop :=
  (∀ a ∈ db.OT.map Prod.fst, ∀ b ∈ db.OT.map Prod.fst, normName a = normName b → a = b) ∧
  (∀ a ∈ db.NT.map Prod.fst, ∀ b ∈ db.NT.map Prod.fst, normName a = normName b → a = b)

/-- ASCII text: every character is below U+0080.  On such text a character is a byte
and `ToLower` is Go's `strings.ToLower`. -/
def isAscii (s : String) : Prop := ∀ c ∈ s.data, c.toNat < 128

instance isAsciiDecidable (s : String) : Decidable (isAscii s) := by
  unfold isAscii
  infer_instance

/-- Every book key of the corpus is ASCII text. -/
def asciiBookKeys (db : Bible) : Prop :=
  (∀ k ∈ db.OT.map Prod.fst, isAscii k) ∧ (∀ k ∈ db.NT.map Prod.fst, isAscii k)

/-- A corpus in which NT holds a book named `s` and a book named with the long s
(U+017F), which Go's case folding equates with `s` and Go's `ToLower` leaves alone; the
map is visited with `s` first. -/
def longSDB : Bible :=
  { OT := [],
    NT := [("s", [("1", [("1", "a")])]), ("\u017F", [("1", [("1", "b")])])] }

/-- The corpus `longSDB` with the map visited in the other order, the long s first. -/
def longSRevDB : Bible :=
  { OT := [],
    NT := [("\u017F", [("1", [("1", "b")])]), ("s", [("1", [("1", "a")])])] }

/-! ## Frame lemmas: what the navigation steps leave alone -/

theorem enterTestament_frame (e : Engine) (t : String) :
    (enterTestament e t).1.PrevPath = e.PrevPath ∧ (enterTestament e t).1.DB = e.DB ∧
    (enterTestament e t).1.BookIndex = e.BookIndex ∧
    (enterTestament e t).1.Bookmarks = e.Bookmarks := by
  unfold enterTestament
  dsimp only
  split_ifs <;> simp

theorem enterBook_frame (e : Engine) (t : String) :
    (enterBook e t).1.PrevPath = e.PrevPath ∧ (enterBook e t).1.DB = e.DB ∧
    (enterBook e t).1.BookIndex = e.BookIndex ∧
    (enterBook e t).1.Bookmarks = e.Bookmarks := by
  unfold enterBook
  dsimp only
  split <;> simp

theorem enterChapter_frame (e : Engine) (t : String) :
    (enterChapter e t).1.PrevPath = e.PrevPath ∧ (enterChapter e t).1.DB = e.DB ∧
    (enterChapter e t).1.BookIndex = e.BookIndex ∧
    (enterChapter e t).1.Bookmarks = e.Bookmarks := by
  unfold enterChapter
  split
  · simp
  · split_ifs <;> simp

theorem tryLocalStep_frame (e : Engine) (t : String) :
    (tryLocalStep e t).1.PrevPath = e.PrevPath ∧ (tryLocalStep e t).1.DB = e.DB ∧
    (tryLocalStep e t).1.BookIndex = e.BookIndex ∧
    (tryLocalStep e t).1.Bookmarks = e.Bookmarks := by
  unfold tryLocalStep
  split
  · exact enterTestament_frame e t
  · exact enterBook_frame e t
  · exact enterChapter_frame e t
  · simp

theorem tryTeleport_frame (e : Engine) (t : String) :
    (tryTeleport e t).1.PrevPath = e.PrevPath ∧ (tryTeleport e t).1.DB = e.DB ∧
    (tryTeleport e t).1.BookIndex = e.BookIndex ∧
    (tryTeleport e t).1.Bookmarks = e.Bookmarks := by
  unfold tryTeleport
  dsimp only
  split <;> simp

theorem walkParts_frame (parts : List String) (e : Engine) :
    (walkParts e parts).1.PrevPath = e.PrevPath ∧ (walkParts e parts).1.DB = e.DB ∧
    (walkParts e parts).1.BookIndex = e.BookIndex ∧
    (walkParts e parts).1.Bookmarks = e.Bookmarks := by
  induction parts generalizing e with
  | nil => simp [walkParts]
  | cons part rest ih =>
    unfold walkParts
    split_ifs with h
    · exact ih e
    · have hf := tryLocalStep_frame e part
      split
      next e1 heq =>
        rw [heq] at hf
        have := ih e1
        simp only at hf
        simp [this, hf]
      next e1 heq =>
        rw [heq] at hf
        simpa using hf

/-- After any `cd` whose argument is not empty, `/`, `-` or `..`, the previous
location is the location held before the command. -/
theorem doCD_prevPath (e : Engine) (arg : String) (h1 : arg ≠ "") (h2 : arg ≠ "/")
    (h3 : arg ≠ "-") (h4 : arg ≠ "..") : (doCD e arg).1.PrevPath = e.Path := by
  unfold doCD
  rw [if_neg (by simp [h1, h2]), if_neg h3, if_neg h4]
  simp only
  split_ifs with hp
  · rw [(walkParts_frame _ _).1]; rfl
  · have hl := tryLocalStep_frame (saveHistory e) arg
    split
    next e2 heq => rw [heq] at hl; simpa [saveHistory] using hl.1
    next e2 heq =>
      rw [heq] at hl
      have ht := tryTeleport_frame e2 arg
      split
      next e3 heq2 => rw [heq2] at ht; simp only at hl ht ⊢; rw [ht.1, hl.1]; rfl
      next e3 heq2 => rw [heq2] at ht; simp only at hl ht ⊢; rw [ht.1, hl.1]; rfl

/-! ## Sorting: the comparator and the insertion sort -/

theorem strLess_irrefl (a : List Char) : strLess a a = false := by
  induction a with
  | nil => rfl
  | cons c cs ih => simp [strLess, ih]

theorem strLess_asymm (a b : List Char) : strLess a b = true → strLess b a = false := by
  induction a generalizing b with
  | nil => cases b <;> simp [strLess]
  | cons c cs ih =>
    cases b with
    | nil => simp [strLess]
    | cons d ds =>
      simp only [strLess]
      split_ifs <;> first | omega | simp | exact ih ds

/-- Two strings neither of which is below the other are equal. -/
theorem strLess_total (a b : List Char) :
    strLess a b = false → strLess b a = false → a = b := by
  induction a generalizing b with
  | nil => cases b <;> simp [strLess]
  | cons c cs ih =>
    cases b with
    | nil => simp [strLess]
    | cons d ds =>
      simp only [strLess]
      by_cases h1 : c.toNat < d.toNat
      · simp [h1]
      · by_cases h2 : d.toNat < c.toNat
        · simp [h1, h2]
        · simp only [h1, h2, if_false]
          intro h5 h6
          have hcd : c = d := Char.ext (UInt32.ext (by
            have : c.toNat = d.toNat := by omega
            simpa [Char.toNat] using this))
          rw [hcd, ih ds h5 h6]

/-- "Not below" is transitive. -/
theorem strLess_negTrans (a b c : List Char) :
    strLess a b = false → strLess b c = false → strLess a c = false := by
  induction a generalizing b c with
  | nil =>
    cases b with
    | nil => intro _ h; exact h
    | cons d ds => simp [strLess]
  | cons x xs ih =>
    cases b with
    | nil =>
      cases c with
      | nil => simp [strLess]
      | cons z zs => simp [strLess]
    | cons y ys =>
      cases c with
      | nil => simp [strLess]
      | cons z zs =>
        simp only [strLess]
        split_ifs <;> first | omega | simp | exact ih ys zs

theorem mem_sinkLeft (less : String → String → Bool) (x z : String) (ys : List String) :
    z ∈ sinkLeft less x ys ↔ z = x ∨ z ∈ ys := by
  induction ys with
  | nil => simp [sinkLeft]
  | cons y ys ih =>
    unfold sinkLeft
    split_ifs
    · simp only [List.mem_cons, ih]; tauto
    · simp

theorem sinkLeft_perm (less : String → String → Bool) (x : String) (ys : List String) :
    (sinkLeft less x ys).Perm (x :: ys) := by
  induction ys with
  | nil => simp [sinkLeft]
  | cons y ys ih =>
    unfold sinkLeft
    split_ifs
    · exact (List.Perm.cons y ih).trans (List.Perm.swap x y ys)
    · exact List.Perm.refl _

theorem foldl_sinkLeft_perm (less : String → String → Bool) (keys acc : List String) :
    (keys.foldl (fun sorted x => sinkLeft less x sorted) acc).Perm (keys.reverse ++ acc) := by
  induction keys generalizing acc with
  | nil => simp
  | cons k ks ih =>
    simp only [List.foldl_cons, List.reverse_cons, List.append_assoc, List.singleton_append]
    refine (ih _).trans ?_
    exact List.Perm.append_left _ (sinkLeft_perm less k acc)

/-- The result of `sortSlice` is a rearrangement of its input, whatever `less` is. -/
theorem sortSlice_perm (less : String → String → Bool) (keys : List String) :
    (sortSlice less keys).Perm keys := by
  unfold sortSlice
  refine (List.reverse_perm _).trans ?_
  have := foldl_sinkLeft_perm less keys []
  simp only [List.append_nil] at this
  exact this.trans (List.reverse_perm _)

/-- One pass of the inner loop keeps the sorted part sorted, when `less` is asymmetric
and "not less" is transitive on the elements at hand (the set `S`). -/
theorem sinkLeft_pairwise (less : String → String → Bool) (S : String → Prop)
    (asym : ∀ a b, S a → S b → less a b = true → less b a = false)
    (ntrans : ∀ a b c, S a → S b → S c → less a b = false → less b c = false →
      less a c = false)
    (x : String) (ys : List String) (hx : S x) (hys : ∀ y ∈ ys, S y)
    (hp : ys.Pairwise (fun a b => less a b = false)) :
    (sinkLeft less x ys).Pairwise (fun a b => less a b = false) := by
  induction ys with
  | nil => simp [sinkLeft]
  | cons y ys ih =>
    have hy : S y := hys y (List.mem_cons_self _ _)
    have hys2 : ∀ z ∈ ys, S z := fun z hz => hys z (List.mem_cons_of_mem _ hz)
    rw [List.pairwise_cons] at hp
    unfold sinkLeft
    split_ifs with hl
    · rw [List.pairwise_cons]
      refine ⟨?_, ih hys2 hp.2⟩
      intro z hz
      rcases (mem_sinkLeft less x z ys).1 hz with rfl | hz
      · exact asym _ _ hx hy hl
      · exact hp.1 z hz
    · have hl2 : less x y = false := by simpa using hl
      rw [List.pairwise_cons]
      refine ⟨?_, List.pairwise_cons.2 hp⟩
      intro z hz
      rcases List.mem_cons.1 hz with rfl | hz
      · exact hl2
      · exact ntrans x y z hx hy (hys2 z hz) hl2 (hp.1 z hz)

theorem foldl_sinkLeft_pairwise (less : String → String → Bool) (S : String → Prop)
    (asym : ∀ a b, S a → S b → less a b = true → less b a = false)
    (ntrans : ∀ a b c, S a → S b → S c → less a b = false → less b c = false →
      less a c = false)
    (keys acc : List String) (hk : ∀ k ∈ keys, S k) (ha : ∀ k ∈ acc, S k)
    (hp : acc.Pairwise (fun a b => less a b = false)) :
    (keys.foldl (fun sorted x => sinkLeft less x sorted) acc).Pairwise
      (fun a b => less a b = false) := by
  induction keys generalizing acc with
  | nil => simpa using hp
  | cons k ks ih =>
    simp only [List.foldl_cons]
    apply ih
    · exact fun z hz => hk z (List.mem_cons_of_mem _ hz)
    · intro z hz
      rcases (mem_sinkLeft less k z acc).1 hz with rfl | hz
      · exact hk _ (List.mem_cons_self _ _)
      · exact ha z hz
    · exact sinkLeft_pairwise less S asym ntrans k acc (hk k (List.mem_cons_self _ _)) ha hp

/-- In the result of `sortSlice` no element is less than an earlier one, when `less` is
asymmetric and "not less" is transitive on the keys. -/
theorem sortSlice_pairwise (less : String → String → Bool) (keys : List String)
    (asym : ∀ a b, a ∈ keys → b ∈ keys → less a b = true → less b a = false)
    (ntrans : ∀ a b c, a ∈ keys → b ∈ keys → c ∈ keys → less a b = false →
      less b c = false → less a c = false) :
    (sortSlice less keys).Pairwise (fun a b => less b a = false) := by
  unfold sortSlice
  rw [List.pairwise_reverse]
  exact foldl_sinkLeft_pairwise less (fun k => k ∈ keys) asym ntrans keys []
    (fun k hk => hk) (by simp) List.Pairwise.nil

theorem keyLess_of_numeric (a b : String) (x y : Int) (ha : Atoi a = some x)
    (hb : Atoi b = some y) : keyLess a b = decide (x < y) := by
  simp [keyLess, ha, hb]

theorem keyLess_of_left_none (a b : String) (ha : Atoi a = none) :
    keyLess a b = strLess a.data b.data := by
  simp [keyLess, ha]

theorem keyLess_of_right_none (a b : String) (hb : Atoi b = none) :
    keyLess a b = strLess a.data b.data := by
  unfold keyLess
  rw [hb]
  cases Atoi a <;> rfl

theorem lexAscending_of_pairwise (l : List String)
    (h : l.Pairwise fun a b => strLess b.data a.data = false) : lexAscending l := by
  unfold lexAscending
  refine h.imp ?_
  intro a b hba
  cases hab : strLess a.data b.data with
  | true => exact Or.inr rfl
  | false =>
    left
    have := strLess_total a.data b.data hab hba
    cases a; cases b; simp_all

/-- Where the comparator of `GetSortedKeys` agrees with the lexicographic order on the
keys, the sorted keys ascend lexicographically. -/
theorem sortSlice_lex_of_agree (keys : List String)
    (h : ∀ a ∈ keys, ∀ b ∈ keys, keyLess a b = strLess a.data b.data) :
    lexAscending (sortSlice keyLess keys) := by
  apply lexAscending_of_pairwise
  have hp := sortSlice_pairwise keyLess keys
    (fun a b ha hb hab => by
      rw [h a ha b hb] at hab
      rw [h b hb a ha]
      exact strLess_asymm _ _ hab)
    (fun a b c ha hb hc hab hbc => by
      rw [h a ha b hb] at hab
      rw [h b hb c hc] at hbc
      rw [h a ha c hc]
      exact strLess_negTrans _ _ _ hab hbc)
  have hmem : ∀ k ∈ sortSlice keyLess keys, k ∈ keys :=
    fun k hk => (sortSlice_perm keyLess keys).mem_iff.1 hk
  refine hp.imp_of_mem ?_
  intro a b ha hb hba
  rw [← h b (hmem b hb) a (hmem a ha)]
  exact hba

/-- Where every key parses as an integer, the sorted keys ascend by value. -/
theorem sortSlice_numeric (keys : List String) (h : ∀ k ∈ keys, (Atoi k).isSome) :
    numericAscending (sortSlice keyLess keys) := by
  have val : ∀ k ∈ keys, ∃ x, Atoi k = some x := fun k hk =>
    Option.isSome_iff_exists.1 (h k hk)
  have hp := sortSlice_pairwise keyLess keys
    (fun a b ha hb hab => by
      obtain ⟨x, hx⟩ := val a ha
      obtain ⟨y, hy⟩ := val b hb
      rw [keyLess_of_numeric a b x y hx hy] at hab
      rw [keyLess_of_numeric b a y x hy hx]
      simp only [decide_eq_true_eq, decide_eq_false_iff_not] at hab ⊢
      omega)
    (fun a b c ha hb hc hab hbc => by
      obtain ⟨x, hx⟩ := val a ha
      obtain ⟨y, hy⟩ := val b hb
      obtain ⟨z, hz⟩ := val c hc
      rw [keyLess_of_numeric a b x y hx hy] at hab
      rw [keyLess_of_numeric b c y z hy hz] at hbc
      rw [keyLess_of_numeric a c x z hx hz]
      simp only [decide_eq_false_iff_not] at hab hbc ⊢
      omega)
  have hmem : ∀ k ∈ sortSlice keyLess keys, k ∈ keys :=
    fun k hk => (sortSlice_perm keyLess keys).mem_iff.1 hk
  unfold numericAscending
  refine hp.imp_of_mem ?_
  intro a b ha hb hba
  obtain ⟨x, hx⟩ := val a (hmem a ha)
  obtain ⟨y, hy⟩ := val b (hmem b hb)
  rw [keyLess_of_numeric b a y x hy hx] at hba
  simp only [decide_eq_false_iff_not] at hba
  exact ⟨x, y, hx, hy, by omega⟩

/-! ## Maps -/

theorem mapGet_mapSet {V : Type} (m : List (String × V)) (k k2 : String) (v : V) :
    mapGet (mapSet m k v) k2 = if k = k2 then some v else mapGet m k2 := by
  induction m with
  | nil => simp [mapSet, mapGet]
  | cons kv rest ih =>
    obtain ⟨k1, v1⟩ := kv
    unfold mapSet
    by_cases h1 : k1 = k
    · subst h1
      by_cases h2 : k1 = k2 <;> simp [mapGet, h2]
    · simp only [h1, if_false, mapGet, ih]
      by_cases h2 : k = k2
      · subst h2; simp [h1]
      · simp [h2]

theorem mapGet_mapSet_ne {V : Type} (m : List (String × V)) (k k2 : String) (v : V)
    (h : k ≠ k2) : mapGet (mapSet m k v) k2 = mapGet m k2 := by
  rw [mapGet_mapSet, if_neg h]

theorem mapGet_mem {V : Type} (m : List (String × V)) (k : String) (v : V)
    (h : mapGet m k = some v) : (k, v) ∈ m := by
  induction m with
  | nil => simp [mapGet] at h
  | cons kv rest ih =>
    obtain ⟨k1, v1⟩ := kv
    unfold mapGet at h
    split_ifs at h with h1
    · cases h; subst h1; exact List.mem_cons_self _ _
    · exact List.mem_cons_of_mem _ (ih h)

theorem mapGet_isSome_iff {V : Type} (m : List (String × V)) (k : String) :
    (mapGet m k).isSome = true ↔ k ∈ m.map Prod.fst := by
  induction m with
  | nil => simp [mapGet]
  | cons kv rest ih =>
    obtain ⟨k1, v1⟩ := kv
    unfold mapGet
    by_cases h1 : k1 = k
    · simp [h1]
    · simp only [h1, if_false, ih, List.map_cons, List.mem_cons]
      constructor
      · exact Or.inr
      · rintro (h | h)
        · exact absurd h.symm h1
        · exact h

theorem mem_mapSet {V : Type} (m : List (String × V)) (k : String) (v : V)
    (kv : String × V) (h : kv ∈ mapSet m k v) : kv = (k, v) ∨ kv ∈ m := by
  induction m with
  | nil => simpa [mapSet] using h
  | cons kv1 rest ih =>
    obtain ⟨k1, v1⟩ := kv1
    unfold mapSet at h
    split_ifs at h
    · rcases List.mem_cons.1 h with h | h
      · exact Or.inl h
      · exact Or.inr (List.mem_cons_of_mem _ h)
    · rcases List.mem_cons.1 h with h | h
      · exact Or.inr (h ▸ List.mem_cons_self _ _)
      · rcases ih h with h | h
        · exact Or.inl h
        · exact Or.inr (List.mem_cons_of_mem _ h)

/-! ## The index: what `buildIndex` stores under a key -/

theorem claimPrefixes_fold (fullPath cleanKey : String) (idx : List (String × String))
    (n : Nat) (p : String) :
    mapGet ((List.range n).foldl
        (fun m i =>
          let pre : String := ⟨cleanKey.data.take (i + 1)⟩
          if (mapGet m pre).isSome then m else mapSet m pre fullPath) idx) p
      = if (mapGet idx p).isSome then mapGet idx p
        else if ∃ i, i < n ∧ p.data = cleanKey.data.take (i + 1) then some fullPath
        else none := by
  induction n with
  | zero => cases h : mapGet idx p <;> simp [h]
  | succ n ih =>
    rw [List.range_succ, List.foldl_append]
    simp only [List.foldl_cons, List.foldl_nil]
    generalize hm : (List.range n).foldl _ idx = m at ih ⊢
    by_cases hpre : p = (⟨cleanKey.data.take (n + 1)⟩ : String)
    · -- the key written in this pass
      by_cases hs : (mapGet m ⟨cleanKey.data.take (n + 1)⟩).isSome
      · rw [if_pos hs, ih]
        by_cases h0 : (mapGet idx p).isSome
        · simp [h0]
        · simp only [h0]
          rw [← hpre, ih] at hs
          simp only [h0] at hs
          have h1 : ∃ i, i < n ∧ p.data = cleanKey.data.take (i + 1) := by
            by_contra hc
            simp [hc] at hs
          have h2 : ∃ i, i < n + 1 ∧ p.data = cleanKey.data.take (i + 1) := by
            obtain ⟨i, hi, he⟩ := h1
            exact ⟨i, by omega, he⟩
          simp [h1, h2]
      · rw [if_neg hs, mapGet_mapSet, if_pos hpre.symm]
        rw [← hpre, ih] at hs
        by_cases h0 : (mapGet idx p).isSome
        · simp [h0] at hs
        · have h2 : ∃ i, i < n + 1 ∧ p.data = cleanKey.data.take (i + 1) :=
            ⟨n, by omega, by rw [hpre]⟩
          simp [h0, h2]
    · have hstep : mapGet (if (mapGet m ⟨cleanKey.data.take (n + 1)⟩).isSome then m
          else mapSet m ⟨cleanKey.data.take (n + 1)⟩ fullPath) p = mapGet m p := by
        split_ifs
        · rfl
        · exact mapGet_mapSet_ne _ _ _ _ (fun h => hpre h.symm)
      rw [hstep, ih]
      have hiff : (∃ i, i < n + 1 ∧ p.data = cleanKey.data.take (i + 1)) ↔
          (∃ i, i < n ∧ p.data = cleanKey.data.take (i + 1)) := by
        constructor
        · rintro ⟨i, hi, he⟩
          rcases Nat.lt_succ_iff_lt_or_eq.1 hi with h | h
          · exact ⟨i, h, he⟩
          · subst h
            exact absurd (String.ext he) hpre
        · rintro ⟨i, hi, he⟩
          exact ⟨i, by omega, he⟩
      simp only [hiff]

theorem prefix_iff_take (p ck : List Char) :
    (∃ i, i < ck.length ∧ p = ck.take (i + 1)) ↔ (p ≠ [] ∧ p <+: ck) := by
  constructor
  · rintro ⟨i, hi, rfl⟩
    refine ⟨?_, List.take_prefix _ _⟩
    cases ck with
    | nil => simp at hi
    | cons c cs => simp
  · rintro ⟨hne, hp⟩
    have hlen : p.length ≤ ck.length := hp.length_le
    have hpos : 0 < p.length := List.length_pos.2 hne
    refine ⟨p.length - 1, by omega, ?_⟩
    have : p.length - 1 + 1 = p.length := by omega
    rw [this]
    exact List.prefix_iff_eq_take.1 hp

/-- What the prefix loop leaves under a key: an older entry stays, and a key without
entry is claimed exactly when it is a non-empty prefix of the clean key. -/
theorem mapGet_claimPrefixes (fullPath cleanKey : String) (idx : List (String × String))
    (p : String) :
    mapGet (claimPrefixes fullPath cleanKey idx) p
      = if (mapGet idx p).isSome then mapGet idx p
        else if p ≠ "" ∧ p.data <+: cleanKey.data then some fullPath
        else none := by
  unfold claimPrefixes
  rw [claimPrefixes_fold]
  have h := prefix_iff_take p.data cleanKey.data
  have hne : p.data ≠ [] ↔ p ≠ "" := by
    constructor
    · intro h1 h2; apply h1; rw [h2]
    · intro h1 h2; apply h1; exact String.ext h2
  rw [hne] at h
  simp only [h]

/-- One book: a key outside the hard-coded ones keeps its entry, or is claimed when it
is free and a prefix of the normalized name. -/
theorem mapGet_indexBook (tName name : String) (idx : List (String × String)) (p : String)
    (hp : p ∉ hardKeys) :
    mapGet (indexBook tName idx name) p
      = if (mapGet idx p).isSome then mapGet idx p
        else if claimsPrefix name p then some (bookPath tName name)
        else none := by
  have h1 : "mt" ≠ p := fun h => hp (by rw [← h]; decide)
  have h2 : "mk" ≠ p := fun h => hp (by rw [← h]; decide)
  have h3 : "lk" ≠ p := fun h => hp (by rw [← h]; decide)
  have h4 : "jn" ≠ p := fun h => hp (by rw [← h]; decide)
  have h5 : "php" ≠ p := fun h => hp (by rw [← h]; decide)
  unfold indexBook
  simp only
  have e5 : ∀ m : List (String × String), mapGet
      (if ReplaceAll (ToLower name) " " "" = "philippians"
        then mapSet m "php" ("/" ++ tName ++ "/" ++ name) else m) p = mapGet m p := by
    intro m; split_ifs
    · exact mapGet_mapSet_ne _ _ _ _ h5
    · rfl
  have e4 : ∀ m : List (String × String), mapGet
      (if ReplaceAll (ToLower name) " " "" = "john"
        then mapSet m "jn" ("/" ++ tName ++ "/" ++ name) else m) p = mapGet m p := by
    intro m; split_ifs
    · exact mapGet_mapSet_ne _ _ _ _ h4
    · rfl
  have e3 : ∀ m : List (String × String), mapGet
      (if ReplaceAll (ToLower name) " " "" = "luke"
        then mapSet m "lk" ("/" ++ tName ++ "/" ++ name) else m) p = mapGet m p := by
    intro m; split_ifs
    · exact mapGet_mapSet_ne _ _ _ _ h3
    · rfl
  have e2 : ∀ m : List (String × String), mapGet
      (if ReplaceAll (ToLower name) " " "" = "mark"
        then mapSet m "mk" ("/" ++ tName ++ "/" ++ name) else m) p = mapGet m p := by
    intro m; split_ifs
    · exact mapGet_mapSet_ne _ _ _ _ h2
    · rfl
  have e1 : ∀ m : List (String × String), mapGet
      (if ReplaceAll (ToLower name) " " "" = "matthew"
        then mapSet m "mt" ("/" ++ tName ++ "/" ++ name) else m) p = mapGet m p := by
    intro m; split_ifs
    · exact mapGet_mapSet_ne _ _ _ _ h1
    · rfl
  rw [e5, e4, e3, e2, e1, mapGet_claimPrefixes]
  rfl

theorem foldl_indexBook_absent (tName : String) (p : String) (hp : p ∉ hardKeys)
    (names : List String) (idx : List (String × String)) (h0 : mapGet idx p = none)
    (hn : ∀ n ∈ names, ¬ claimsPrefix n p) :
    mapGet (names.foldl (indexBook tName) idx) p = none := by
  induction names generalizing idx with
  | nil => simpa using h0
  | cons n ns ih =>
    simp only [List.foldl_cons]
    apply ih
    · rw [mapGet_indexBook tName n idx p hp]
      simp [h0, hn n (List.mem_cons_self _ _)]
    · exact fun k hk => hn k (List.mem_cons_of_mem _ hk)

theorem foldl_indexBook_stable (tName : String) (p : String) (hp : p ∉ hardKeys)
    (names : List String) (idx : List (String × String)) (v : String)
    (h0 : mapGet idx p = some v) :
    mapGet (names.foldl (indexBook tName) idx) p = some v := by
  induction names generalizing idx with
  | nil => simpa using h0
  | cons n ns ih =>
    simp only [List.foldl_cons]
    apply ih
    rw [mapGet_indexBook tName n idx p hp]
    simp [h0]

theorem foldl_indexBook_claim (tName : String) (p : String) (hp : p ∉ hardKeys)
    (pre : List String) (B : String) (post : List String) (idx : List (String × String))
    (h0 : mapGet idx p = none) (hB : claimsPrefix B p)
    (hpre : ∀ n ∈ pre, ¬ claimsPrefix n p) :
    mapGet ((pre ++ B :: post).foldl (indexBook tName) idx) p
      = some (bookPath tName B) := by
  rw [List.foldl_append, List.foldl_cons]
  apply foldl_indexBook_stable tName p hp
  rw [mapGet_indexBook tName B _ p hp]
  rw [foldl_indexBook_absent tName p hp pre idx h0 hpre]
  simp [hB]

/-! ## The greedy book matcher -/

theorem greedyLoop_none (idx : List (String × String)) (rest : List String) (i : Nat)
    (key : String) (m : BookMatch)
    (h : ∀ j, 1 ≤ j → j ≤ rest.length →
      mapGet idx (key ++ concatLower (rest.take j)) = none) :
    greedyLoop idx rest i key m = m := by
  induction rest generalizing i key m with
  | nil => rfl
  | cons part rest ih =>
    unfold greedyLoop
    have h1 := h 1 (le_refl _) (by simp)
    simp only [List.take_succ_cons, List.take_zero, concatLower, String.append_empty] at h1
    simp only [h1]
    apply ih
    intro j hj1 hj2
    have := h (j + 1) (by omega) (by simp; omega)
    simpa [concatLower, String.append_assoc] using this

theorem greedyLoop_last (idx : List (String × String)) (rest : List String) (i : Nat)
    (key : String) (m : BookMatch) (k : Nat) (p : String) (hk1 : 1 ≤ k)
    (hk2 : k ≤ rest.length)
    (hk : mapGet idx (key ++ concatLower (rest.take k)) = some p)
    (h : ∀ j, k < j → j ≤ rest.length →
      mapGet idx (key ++ concatLower (rest.take j)) = none) :
    greedyLoop idx rest i key m = ⟨p, rest.drop k, i + k⟩ := by
  induction rest generalizing i key m k with
  | nil => simp at hk2; omega
  | cons part rest ih =>
    have later : ∀ j, 1 ≤ j → j ≤ rest.length → k ≤ j →
        mapGet idx (key ++ ToLower part ++ concatLower (rest.take j)) = none := by
      intro j _ hj2 hkj
      have := h (j + 1) (by omega) (by simp; omega)
      simpa [concatLower, String.append_assoc] using this
    unfold greedyLoop
    rcases Nat.eq_or_lt_of_le hk1 with hk1e | hk1l
    · -- the last match is the current token
      subst hk1e
      simp only [List.take_succ_cons, List.take_zero, concatLower,
        String.append_empty] at hk
      simp only [hk]
      rw [greedyLoop_none idx rest (i + 1) _ _ (fun j hj1 hj2 => later j hj1 hj2 hj1)]
      simp
    · -- the last match lies further right
      obtain ⟨k0, rfl⟩ : ∃ k0, k = k0 + 1 := ⟨k - 1, by omega⟩
      have hk0 : mapGet idx (key ++ ToLower part ++ concatLower (rest.take k0)) = some p := by
        simpa [concatLower, String.append_assoc] using hk
      have hlater : ∀ j, k0 < j → j ≤ rest.length →
          mapGet idx (key ++ ToLower part ++ concatLower (rest.take j)) = none :=
        fun j hj1 hj2 => later j (by omega) hj2 (by omega)
      have hk02 : k0 ≤ rest.length := by simpa using hk2
      have step : ∀ m2 : BookMatch,
          greedyLoop idx rest (i + 1) (key ++ ToLower part) m2
            = ⟨p, (part :: rest).drop (k0 + 1), i + (k0 + 1)⟩ := by
        intro m2
        rw [ih (i + 1) (key ++ ToLower part) m2 k0 (by omega) hk02 hk0 hlater]
        simp only [List.drop_succ_cons, BookMatch.mk.injEq, true_and]
        omega
      cases hc : mapGet idx (key ++ ToLower part) with
      | none => simp only [hc]; exact step m
      | some tp => simp only [hc]; exact step _

theorem claimPrefixes_values (P : String → Prop) (fullPath cleanKey : String)
    (idx : List (String × String)) (hf : P fullPath) (h : ∀ kv ∈ idx, P kv.2) :
    ∀ kv ∈ claimPrefixes fullPath cleanKey idx, P kv.2 := by
  unfold claimPrefixes
  generalize List.range cleanKey.data.length = is
  induction is generalizing idx with
  | nil => simpa using h
  | cons i is ih =>
    simp only [List.foldl_cons]
    apply ih
    split_ifs
    · exact h
    · intro kv hkv
      rcases mem_mapSet _ _ _ _ hkv with rfl | hm
      · exact hf
      · exact h kv hm

theorem mapSet_values (P : String → Prop) (idx : List (String × String)) (k v : String)
    (hv : P v) (h : ∀ kv ∈ idx, P kv.2) : ∀ kv ∈ mapSet idx k v, P kv.2 := by
  intro kv hkv
  rcases mem_mapSet _ _ _ _ hkv with rfl | hm
  · exact hv
  · exact h kv hm

theorem indexBook_values (P : String → Prop) (tName name : String)
    (idx : List (String × String)) (hf : P ("/" ++ tName ++ "/" ++ name))
    (h : ∀ kv ∈ idx, P kv.2) : ∀ kv ∈ indexBook tName idx name, P kv.2 := by
  unfold indexBook
  simp only
  have h0 := claimPrefixes_values P ("/" ++ tName ++ "/" ++ name)
    (ReplaceAll (ToLower name) " " "") idx hf h
  have step : ∀ (c : Prop) [Decidable c] (k : String) (m : List (String × String)),
      (∀ kv ∈ m, P kv.2) →
      ∀ kv ∈ (if c then mapSet m k ("/" ++ tName ++ "/" ++ name) else m), P kv.2 := by
    intro c _ k m hm
    split_ifs
    · exact mapSet_values P m k _ hf hm
    · exact hm
  exact step _ _ _ (step _ _ _ (step _ _ _ (step _ _ _ (step _ _ _ h0))))

theorem indexTestament_values (P : String → Prop) (tName : String) (tMap : Testament)
    (idx : List (String × String)) (ht : P ("/" ++ tName))
    (hb : ∀ n ∈ tMap.map Prod.fst, P ("/" ++ tName ++ "/" ++ n))
    (h : ∀ kv ∈ idx, P kv.2) : ∀ kv ∈ indexTestament tName tMap idx, P kv.2 := by
  unfold indexTestament
  have hmem : ∀ n ∈ GetSortedKeys tMap, n ∈ tMap.map Prod.fst := fun n hn =>
    (sortSlice_perm keyLess _).mem_iff.1 hn
  generalize GetSortedKeys tMap = names at hmem
  have h1 := mapSet_values P idx (ToLower tName) ("/" ++ tName) ht h
  generalize mapSet idx (ToLower tName) ("/" ++ tName) = idx1 at h1
  induction names generalizing idx1 with
  | nil => simpa using h1
  | cons n ns ih =>
    simp only [List.foldl_cons]
    apply ih
    · exact fun k hk => hmem k (List.mem_cons_of_mem _ hk)
    · exact indexBook_values P tName n idx1 (hb n (hmem n (List.mem_cons_self _ _))) h1

/-- Every value of the index is the path of a testament or of a book of the corpus. -/
theorem buildIndex_values (db : Bible) (k v : String)
    (h : mapGet (buildIndex db) k = some v) : indexValue db v := by
  have key : ∀ kv ∈ buildIndex db, indexValue db kv.2 := by
    unfold buildIndex
    apply indexTestament_values (indexValue db) "NT" db.NT
    · exact Or.inr (Or.inl rfl)
    · exact fun n hn => Or.inr (Or.inr (Or.inr ⟨n, hn, rfl⟩))
    · apply indexTestament_values (indexValue db) "OT" db.OT
      · exact Or.inl rfl
      · exact fun n hn => Or.inr (Or.inr (Or.inl ⟨n, hn, rfl⟩))
      · simp
  exact key (k, v) (mapGet_mem _ _ _ h)

theorem slash_append_ne_empty (s : String) : "/" ++ s ≠ "" := by
  intro h
  have := congrArg String.data h
  simp at this

theorem indexValue_ne_empty (db : Bible) (v : String) (h : indexValue db v) : v ≠ "" := by
  rcases h with rfl | rfl | ⟨n, _, rfl⟩ | ⟨n, _, rfl⟩
  · exact slash_append_ne_empty _
  · exact slash_append_ne_empty _
  · rw [String.append_assoc, String.append_assoc]; exact slash_append_ne_empty _
  · rw [String.append_assoc, String.append_assoc]; exact slash_append_ne_empty _

/-! ## The walk along an absolute path -/

theorem tryLocalStep_fail (e : Engine) (t : String) (h : (tryLocalStep e t).2 = false) :
    (tryLocalStep e t).1 = e := by
  unfold tryLocalStep at h ⊢
  split at h
  · unfold enterTestament at h ⊢
    dsimp only at h ⊢
    split_ifs at h ⊢
    all_goals simp_all
  · unfold enterBook at h ⊢
    dsimp only at h ⊢
    split at h
    all_goals simp_all
  · unfold enterChapter at h ⊢
    split at h
    · simp_all
    · split_ifs at h ⊢
      all_goals simp_all
  · rfl

theorem walkParts_filter (parts : List String) (e : Engine) :
    walkParts e parts = walkParts e (parts.filter fun c => c ≠ "") := by
  induction parts generalizing e with
  | nil => rfl
  | cons c cs ih =>
    by_cases hc : c = ""
    · subst hc
      rw [List.filter_cons_of_neg (by simp)]
      conv_lhs => unfold walkParts
      rw [if_pos rfl]
      exact ih e
    · rw [List.filter_cons_of_pos (by simpa using hc)]
      conv_lhs => unfold walkParts
      conv_rhs => unfold walkParts
      rw [if_neg hc, if_neg hc]
      split
      next e1 heq => exact ih e1
      next e1 heq => rfl

theorem walkParts_stops (ok : List String) (bad : String) (rest : List String)
    (e e1 : Engine) (hok : ∀ c ∈ ok, c ≠ "") (hbad : bad ≠ "")
    (hs : stepAll e ok = some e1) (hf : (tryLocalStep e1 bad).2 = false) :
    walkParts e (ok ++ bad :: rest) = (e1, [Out.pathElementNotFound bad]) := by
  induction ok generalizing e with
  | nil =>
    simp only [stepAll, Option.some.injEq] at hs
    subst hs
    simp only [List.nil_append]
    unfold walkParts
    rw [if_neg hbad]
    have h1 := tryLocalStep_fail e bad hf
    split
    next e2 heq => rw [heq] at hf; simp at hf
    next e2 heq => rw [heq] at h1; simp only at h1; rw [h1]
  | cons c cs ih =>
    unfold stepAll at hs
    split_ifs at hs with hc
    simp only [List.cons_append]
    unfold walkParts
    rw [if_neg (hok c (List.mem_cons_self _ _))]
    split
    next e2 heq =>
      rw [heq] at hs
      exact ih e2 (fun k hk => hok k (List.mem_cons_of_mem _ hk)) hs
    next e2 heq => rw [heq] at hc; simp at hc

/-! ## Path strings: joining and splitting on `/` -/

theorem splitAux_cons (sep : List Char) (c : Char) (cs cur : List Char) :
    splitAux sep 0 (c :: cs) cur
      = if sep.isPrefixOf (c :: cs) then ⟨cur.reverse⟩ :: splitAux sep (sep.length - 1) cs []
        else splitAux sep 0 cs (c :: cur) := by
  rw [splitAux]

theorem splitAux_slash_run (a rest cur : List Char) (h : '/' ∉ a) :
    splitAux ['/'] 0 (a ++ rest) cur = splitAux ['/'] 0 rest (a.reverse ++ cur) := by
  induction a generalizing cur with
  | nil => rfl
  | cons c a ih =>
    have hc : '/' ≠ c := fun hc => h (by rw [hc]; exact List.mem_cons_self _ _)
    have ha : '/' ∉ a := fun ha => h (List.mem_cons_of_mem _ ha)
    simp only [List.cons_append]
    have : (['/'].isPrefixOf (c :: (a ++ rest))) = false := by
      simp [List.isPrefixOf, hc]
    rw [splitAux_cons, this]
    simp only [Bool.false_eq_true, if_false]
    rw [ih (c :: cur) ha]
    simp

theorem splitAux_slash_cons (cs cur : List Char) :
    splitAux ['/'] 0 ('/' :: cs) cur = ⟨cur.reverse⟩ :: splitAux ['/'] 0 cs [] := by
  rw [splitAux_cons]
  simp [List.isPrefixOf]

/-- Splitting the joined segments on `/` gives the segments back, when there is at
least one segment and none holds a `/`. -/
theorem Split_Join (segs : List String) (hne : segs ≠ [])
    (h : ∀ s ∈ segs, noSlash s) : Split (Join segs "/") "/" = segs := by
  induction segs with
  | nil => exact absurd rfl hne
  | cons a rest ih =>
    have ha : '/' ∉ a.data := h a (List.mem_cons_self _ _)
    cases rest with
    | nil =>
      unfold Split
      simp only [Join]
      have := splitAux_slash_run a.data [] [] ha
      simp only [List.append_nil] at this
      rw [this]
      simp [splitAux]
    | cons b rest =>
      have ih2 := ih (by simp) (fun s hs => h s (List.mem_cons_of_mem _ hs))
      unfold Split at ih2 ⊢
      simp only [Join, String.data_append]
      rw [List.append_assoc, splitAux_slash_run a.data _ [] ha]
      simp only [List.singleton_append, List.append_nil]
      rw [splitAux_slash_cons, ih2]
      simp

theorem TrimPrefix_slash (s : String) : TrimPrefix ("/" ++ s) "/" = s := by
  unfold TrimPrefix HasPrefix
  simp [String.data_append, List.isPrefixOf]

theorem Join_cons_ne_empty (t : String) (rest : List String) (h : t ≠ "") :
    Join (t :: rest) "/" ≠ "" := by
  intro hj
  apply h
  cases rest with
  | nil => simpa [Join] using hj
  | cons b rest =>
    have := congrArg String.data hj
    simp [Join, String.data_append] at this

/-! ## Valid locations -/

theorem validLocation_congr (e e2 : Engine) (h : e2.DB = e.DB) (p : List String) :
    validLocation e2 p ↔ validLocation e p := by
  match p with
  | [] => simp [validLocation]
  | [t] => simp [validLocation]
  | [t, b] => simp [validLocation, h]
  | [t, b, c] => simp [validLocation, getBook, h]
  | _ :: _ :: _ :: _ :: _ => simp [validLocation]

theorem find_mem {α : Type} (f : α → Bool) (l : List α) (a : α) (h : l.find? f = some a) :
    a ∈ l := List.mem_of_find?_eq_some h

theorem validLocation_noSlash (e : Engine) (hk : slashFreeKeys e.DB) (p : List String)
    (h : validLocation e p) : ∀ s ∈ p, noSlash s := by
  have hT : ∀ t : String, t = "OT" ∨ t = "NT" → noSlash t := by
    rintro t (rfl | rfl) <;> decide
  have hB : ∀ t : String, ∀ bk ∈ (if t = "OT" then e.DB.OT else e.DB.NT),
      noSlash bk.1 ∧ ∀ ch ∈ bk.2, noSlash ch.1 := by
    intro t bk hbk
    split_ifs at hbk
    · exact hk.1 bk hbk
    · exact hk.2 bk hbk
  have hBk : ∀ t b : String, b ∈ (if t = "OT" then e.DB.OT else e.DB.NT).map Prod.fst →
      noSlash b := by
    intro t b hb
    obtain ⟨bk, hbk, rfl⟩ := List.mem_map.1 hb
    exact (hB t bk hbk).1
  match p, h with
  | [], _ => simp
  | [t], h =>
    intro s hs
    simp only [List.mem_singleton] at hs
    subst hs
    exact hT _ h
  | [t, b], h =>
    intro s hs
    simp only [List.mem_cons, List.mem_singleton, List.not_mem_nil, or_false] at hs
    rcases hs with rfl | rfl
    · exact hT _ h.1
    · exact hBk t _ h.2
  | [t, b, c], h =>
    intro s hs
    simp only [List.mem_cons, List.mem_singleton, List.not_mem_nil, or_false] at hs
    obtain ⟨h1, h2, book, hbook, hc⟩ := h
    rcases hs with rfl | rfl | rfl
    · exact hT _ h1
    · exact hBk t _ h2
    · unfold getBook at hbook
      simp only [Option.map_eq_some'] at hbook
      obtain ⟨bk, hfind, rfl⟩ := hbook
      obtain ⟨ch, hch, rfl⟩ := List.mem_map.1 hc
      exact (hB t bk (find_mem _ _ _ hfind)).2 ch hch

theorem splitAux_length_pos (sep : List Char) (cs : List Char) (k : Nat) (cur : List Char) :
    1 ≤ (splitAux sep k cs cur).length := by
  induction cs generalizing k cur with
  | nil => cases k <;> simp [splitAux]
  | cons c cs ih =>
    cases k with
    | zero =>
      rw [splitAux_cons]
      split_ifs
      · simp
      · exact ih 0 _
    | succ k =>
      rw [splitAux]
      exact ih k cur

theorem splitAux_dash_length (cs cur : List Char) (h : containsAux ['-'] cs = true) :
    2 ≤ (splitAux ['-'] 0 cs cur).length := by
  induction cs generalizing cur with
  | nil => simp [containsAux] at h
  | cons c cs ih =>
    rw [splitAux_cons]
    by_cases hc : '-' = c
    · have hpre : (['-'].isPrefixOf (c :: cs)) = true := by
        subst hc
        simp [List.isPrefixOf]
      rw [hpre, if_pos rfl, List.length_cons]
      have := splitAux_length_pos ['-'] cs (['-'].length - 1) []
      omega
    · have hf : (['-'].isPrefixOf (c :: cs)) = false := by simp [List.isPrefixOf, hc]
      rw [hf]
      simp only [Bool.false_eq_true, if_false]
      apply ih
      unfold containsAux at h
      rw [hf] at h
      simpa using h

/-- A segment that contains `-` splits into at least two range parts, so the reads of
`rangeParts[0]` and `rangeParts[1]` are in range: a segment never panics. -/
theorem catSegment_isSome (chapter : Chapter) (rawSeg : String) :
    (catSegment chapter rawSeg).isSome = true := by
  unfold catSegment
  dsimp only
  split_ifs with h1 h2
  · rfl
  · have hlen : 2 ≤ (Split (TrimSpace rawSeg) "-").length := splitAux_dash_length _ _ h2
    rcases hs : Split (TrimSpace rawSeg) "-" with _ | ⟨p0, _ | ⟨p1, rest⟩⟩
    · rw [hs] at hlen; simp at hlen
    · rw [hs] at hlen; simp at hlen
    · simp only [List.get?_cons_zero, List.get?_cons_succ]
      cases Atoi p0 <;> cases Atoi p1 <;> rfl
  · cases mapGet chapter (TrimSpace rawSeg) <;> rfl

theorem catSegments_isSome (chapter : Chapter) (segs : List String) :
    (catSegments chapter segs).isSome = true := by
  induction segs with
  | nil => rfl
  | cons s rest ih =>
    unfold catSegments
    have h1 := catSegment_isSome chapter s
    cases hs : catSegment chapter s with
    | none => rw [hs] at h1; simp at h1
    | some o1 =>
      simp only
      cases hr : catSegments chapter rest with
      | none => rw [hr] at ih; simp at ih
      | some o2 => rfl

theorem catChapter_isSome (bName : String) (book : Book) (chapNum verseArgs : String) :
    (catChapter bName book chapNum verseArgs).isSome = true := by
  unfold catChapter
  cases mapGet book chapNum with
  | none => rfl
  | some chapter =>
    simp only
    split_ifs
    · rfl
    · have h1 := catSegments_isSome chapter (Split verseArgs ",")
      cases hs : catSegments chapter (Split verseArgs ",") with
      | none => rw [hs] at h1; simp at h1
      | some o => rfl

/-- The read panics exactly when, at book depth with the book found, a non-empty
argument leaves no token once its colons are replaced by spaces. -/
theorem doCat_panics_iff (e : Engine) (arg : String) :
    doCat e arg = none ↔
      (e.Path.length = 2 ∧ (getBook e (e.Path.getD 0 "") (e.Path.getD 1 "")).isSome = true ∧
        arg ≠ "" ∧ Fields (ReplaceAll arg ":" " ") = []) := by
  unfold doCat
  by_cases hl : e.Path.length < 2
  · rw [if_pos hl]
    constructor
    · intro h; simp at h
    · rintro ⟨h2, _⟩; omega
  · rw [if_neg hl]
    dsimp only
    cases hb : getBook e (e.Path.getD 0 "") (e.Path.getD 1 "") with
    | none => simp
    | some book =>
      simp only [Option.isSome_some, true_and]
      by_cases h2 : e.Path.length = 2
      · by_cases ha : arg = ""
        · simp [ha, h2]
        · rw [if_neg (by simp [ha]), if_neg (by simp [ha]), if_pos h2]
          cases hf : Fields (ReplaceAll arg ":" " ") with
          | nil => simp [h2, ha]
          | cons tok rest =>
            simp only [List.get?_cons_zero]
            have := catChapter_isSome (e.Path.getD 1 "") book tok
              (if (tok :: rest).length > 1 then (tok :: rest).getD 1 "" else "")
            constructor
            · intro h; rw [h] at this; simp at this
            · rintro ⟨_, _, h⟩; simp at h
      · rw [if_neg (by simp [h2]), if_neg h2]
        have := catChapter_isSome (e.Path.getD 1 "") book (e.Path.getD 2 "") arg
        split_ifs
        · simp [h2]
        · constructor
          · intro h; rw [h] at this; simp at this
          · rintro ⟨h, _⟩; exact absurd h h2

/-! ## Decimal strings and the fuel of the range loop -/

theorem digitsValue_append (l1 l2 : List Char) (acc : Nat) :
    digitsValue (l1 ++ l2) acc = (digitsValue l1 acc).bind (digitsValue l2) := by
  induction l1 generalizing acc with
  | nil => rfl
  | cons c cs ih =>
    simp only [List.cons_append, digitsValue]
    split_ifs
    · exact ih _
    · rfl

theorem digitChar_toNat (d : Nat) (h : d < 10) : (Nat.digitChar d).toNat = 48 + d := by
  interval_cases d <;> rfl

theorem toDigitsCore_spec (fuel n : Nat) (ds : List Char) (h : n < fuel) :
    ∃ l, Nat.toDigitsCore 10 fuel n ds = l ++ ds ∧ l ≠ [] ∧
      (∀ c ∈ l, 48 ≤ c.toNat ∧ c.toNat ≤ 57) ∧
      ∀ acc, digitsValue l acc = some (acc * 10 ^ l.length + n) := by
  induction fuel generalizing n ds with
  | zero => omega
  | succ fuel ih =>
    have hd : n % 10 < 10 := Nat.mod_lt _ (by norm_num)
    have hc := digitChar_toNat (n % 10) hd
    unfold Nat.toDigitsCore
    simp only
    split_ifs with h0
    · refine ⟨[Nat.digitChar (n % 10)], rfl, by simp, ?_, ?_⟩
      · intro c hcm
        simp only [List.mem_singleton] at hcm
        subst hcm
        omega
      · intro acc
        simp only [digitsValue, hc, List.length_singleton, pow_one]
        rw [if_pos (by omega)]
        congr 1
        omega
    · have hlt : n / 10 < fuel := by omega
      obtain ⟨l, hl, hne, hdig, hval⟩ := ih (n / 10) (Nat.digitChar (n % 10) :: ds) hlt
      refine ⟨l ++ [Nat.digitChar (n % 10)], by rw [hl]; simp, by simp, ?_, ?_⟩
      · intro c hcm
        rcases List.mem_append.1 hcm with hcm | hcm
        · exact hdig c hcm
        · simp only [List.mem_singleton] at hcm
          subst hcm
          omega
      · intro acc
        rw [digitsValue_append, hval]
        simp only [Option.some_bind, digitsValue, hc, List.length_append,
          List.length_singleton]
        rw [if_pos (by omega)]
        congr 1
        have e1 : acc * 10 ^ (l.length + 1) = 10 * (acc * 10 ^ l.length) := by ring
        rw [e1]
        generalize acc * 10 ^ l.length = x
        omega

theorem repr_data (n : Nat) : (Nat.repr n).data = Nat.toDigitsCore 10 (n + 1) n [] := rfl

/-- `Atoi` reads back what `Itoa` writes, for every value of a 64-bit `int`. -/
theorem Atoi_Itoa (i : Int) (h1 : -(2 ^ 63) ≤ i) (h2 : i < 2 ^ 63) : Atoi (Itoa i) = some i := by
  cases i with
  | ofNat n =>
    obtain ⟨l, hl, hne, hdig, hval⟩ := toDigitsCore_spec (n + 1) n [] (by omega)
    have hn : n < 2 ^ 63 := by
      simp only [Int.ofNat_eq_coe] at h2
      omega
    unfold Atoi Itoa
    simp only [repr_data, hl, List.append_nil]
    cases l with
    | nil => exact absurd rfl hne
    | cons c cs =>
      have hc := hdig c (List.mem_cons_self _ _)
      have hm : c ≠ '-' := by rintro rfl; revert hc; decide
      have hp : c ≠ '+' := by rintro rfl; revert hc; decide
      simp only [hm, hp, if_false, hval, zero_mul, zero_add, Option.some_bind]
      rw [if_pos hn]
      rfl
  | negSucc n =>
    obtain ⟨l, hl, hne, hdig, hval⟩ := toDigitsCore_spec (n + 1 + 1) (n + 1) [] (by omega)
    have hn : n + 1 ≤ 2 ^ 63 := by
      rw [Int.negSucc_eq] at h1
      omega
    unfold Atoi Itoa
    simp only [String.data_append, repr_data, hl, List.append_nil]
    simp only [List.singleton_append, if_true]
    have hemp : l.isEmpty = false := by cases l <;> simp_all
    simp only [hemp, Bool.false_eq_true, if_false, hval, zero_mul, zero_add,
      Option.some_bind]
    rw [if_pos hn, Int.negSucc_eq]
    simp

theorem incIter_formula (k : Nat) (i : Int) (h1 : -(2 ^ 63) ≤ i) (h2 : i < 2 ^ 63) :
    incIter k i = (i + 2 ^ 63 + k) % 2 ^ 64 - 2 ^ 63 := by
  induction k with
  | zero =>
    simp only [incIter, Nat.cast_zero, add_zero]
    omega
  | succ k ih =>
    simp only [incIter, ih, incInt, Nat.cast_succ]
    split_ifs <;> omega

theorem incIter_range (k : Nat) (i : Int) (h1 : -(2 ^ 63) ≤ i) (h2 : i < 2 ^ 63) :
    -(2 ^ 63) ≤ incIter k i ∧ incIter k i < 2 ^ 63 := by
  rw [incIter_formula k i h1 h2]
  omega

theorem incIter_injOn (i : Int) (h1 : -(2 ^ 63) ≤ i) (h2 : i < 2 ^ 63) (a b : Nat)
    (ha : a < 2 ^ 64) (hb : b < 2 ^ 64) (h : incIter a i = incIter b i) : a = b := by
  rw [incIter_formula a i h1 h2, incIter_formula b i h1 h2] at h
  omega

/-- The keys that the range loop finds on its first `k` passes are `k` different keys
of the chapter, so `k` is at most the size of the chapter. -/
theorem rangeLoop_passes_le (chapter : Chapter) (start : Int) (h1 : -(2 ^ 63) ≤ start)
    (h2 : start < 2 ^ 63) (k : Nat) (hk : k ≤ 2 ^ 64)
    (hfound : ∀ j, j < k → (mapGet chapter (Itoa (incIter j start))).isSome = true) :
    k ≤ chapter.length := by
  have hnodup : ((List.range k).map fun j => Itoa (incIter j start)).Nodup := by
    refine (List.nodup_range k).map_on ?_
    intro a ha b hb hab
    have ha2 := List.mem_range.1 ha
    have hb2 := List.mem_range.1 hb
    have ra := incIter_range a start h1 h2
    have rb := incIter_range b start h1 h2
    have e1 := Atoi_Itoa _ ra.1 ra.2
    have e2 := Atoi_Itoa _ rb.1 rb.2
    rw [hab, e2] at e1
    exact incIter_injOn start h1 h2 a b (by omega) (by omega) (Option.some.inj e1).symm
  have hsub : ((List.range k).map fun j => Itoa (incIter j start)) ⊆ chapter.map Prod.fst := by
    intro key hkey
    obtain ⟨j, hj, rfl⟩ := List.mem_map.1 hkey
    exact (mapGet_isSome_iff chapter _).1 (hfound j (List.mem_range.1 hj))
  have := (List.subperm_of_subset hnodup hsub).length_le
  simpa using this

theorem rangeLoop_fuel_aux (chapter : Chapter) (hlen : chapter.length < 2 ^ 64)
    (start stop : Int) (h1 : -(2 ^ 63) ≤ start) (h2 : start < 2 ^ 63) (fuel extra k : Nat)
    (hfound : ∀ j, j < k → (mapGet chapter (Itoa (incIter j start))).isSome = true)
    (hk : chapter.length + 1 ≤ k + fuel) :
    rangeLoop chapter (fuel + extra) (incIter k start) stop
      = rangeLoop chapter fuel (incIter k start) stop := by
  induction fuel generalizing k with
  | zero =>
    exfalso
    have hfound2 : ∀ j, j < chapter.length + 1 →
        (mapGet chapter (Itoa (incIter j start))).isSome = true :=
      fun j hj => hfound j (by omega)
    have := rangeLoop_passes_le chapter start h1 h2 (chapter.length + 1) (by omega) hfound2
    omega
  | succ fuel ih =>
    rw [show fuel + 1 + extra = (fuel + extra) + 1 by omega]
    unfold rangeLoop
    split_ifs with hle
    · cases hget : mapGet chapter (Itoa (incIter k start)) with
      | none => rfl
      | some text =>
        simp only
        have := ih (k + 1) (by
          intro j hj
          rcases Nat.lt_succ_iff_lt_or_eq.1 hj with hj | rfl
          · exact hfound j hj
          · rw [hget]; rfl) (by omega)
        simp only [incIter] at this
        rw [this]
    · rfl

/-- The fuel of the range loop is enough: more fuel gives the same output, for every
start in the range of `int` and every chapter of fewer than 2^64 verses. -/
theorem rangeLoop_fuel (chapter : Chapter) (hlen : chapter.length < 2 ^ 64)
    (start stop : Int) (h1 : -(2 ^ 63) ≤ start) (h2 : start < 2 ^ 63) (extra : Nat) :
    rangeLoop chapter (chapter.length + 1 + extra) start stop
      = rangeLoop chapter (chapter.length + 1) start stop :=
  rangeLoop_fuel_aux chapter hlen start stop h1 h2 (chapter.length + 1) extra 0
    (fun j hj => absurd hj (Nat.not_lt_zero j)) (by omega)

/-- What `Atoi` returns lies in the range of a 64-bit `int`. -/
theorem Atoi_range (s : String) (i : Int) (h : Atoi s = some i) :
    -(2 ^ 63) ≤ i ∧ i < 2 ^ 63 := by
  unfold Atoi at h
  split at h
  · exact Option.noConfusion h
  · split_ifs at h
    all_goals first
      | exact Option.noConfusion h
      | (obtain ⟨n, _, hn⟩ := Option.bind_eq_some.1 h
         split_ifs at hn with hb
         cases hn
         omega)

/-! ## Steps into a child and bare `cd` tokens -/

theorem tryLocalStep_child (e : Engine) (t : String) (h : (tryLocalStep e t).2 = true) :
    ∃ k, (tryLocalStep e t).1.Path = e.Path ++ [k] ∧ childKey e t k := by
  unfold tryLocalStep at h ⊢
  unfold childKey
  rcases hp : e.Path with _ | ⟨a, _ | ⟨b, _ | ⟨c, l⟩⟩⟩
  · rw [hp] at h
    simp only [List.length_nil] at h ⊢
    unfold enterTestament at h ⊢
    dsimp only at h ⊢
    split_ifs at h ⊢ with h1 h2
    · exact ⟨"OT", by simp [hp], Or.inl ⟨rfl, h1⟩⟩
    · exact ⟨"NT", by simp [hp], Or.inr ⟨rfl, h2⟩⟩
  · rw [hp] at h
    simp only [List.length_singleton] at h ⊢
    unfold enterBook at h ⊢
    dsimp only at h ⊢
    rw [hp] at h ⊢
    simp only [List.getD_cons_zero] at h ⊢
    cases hfind : List.find? (fun kv : String × Book =>
        EqualFold (ReplaceAll kv.1 " " "") (ToLower (ReplaceAll t " " "")))
        (if a = "OT" then e.DB.OT else e.DB.NT) with
    | none => rw [hfind] at h; simp at h
    | some kv =>
      refine ⟨kv.1, by simp, List.mem_map.2 ⟨kv, find_mem _ _ _ hfind, rfl⟩, ?_⟩
      exact List.find?_some (p := fun kv : String × Book =>
        EqualFold (ReplaceAll kv.1 " " "") (ToLower (ReplaceAll t " " ""))) hfind
  · rw [hp] at h
    simp only [List.length_cons, List.length_nil] at h ⊢
    unfold enterChapter at h ⊢
    rw [hp] at h ⊢
    simp only [List.getD_cons_zero, List.getD_cons_succ] at h ⊢
    cases hbook : getBook e a b with
    | none => rw [hbook] at h; simp at h
    | some book =>
      rw [hbook] at h
      simp only at h ⊢
      split_ifs at h ⊢ with hc
      exact ⟨t, by simp, rfl, book, rfl, (mapGet_isSome_iff book t).1 hc⟩
  · rw [hp] at h
    simp at h

theorem doCD_bare (e : Engine) (arg : String) (h1 : arg ≠ "") (h3 : arg ≠ "-")
    (h4 : arg ≠ "..") (h5 : HasPrefix arg "/" = false) :
    doCD e arg =
      match tryLocalStep (saveHistory e) arg with
      | (e2, true) => (e2, [])
      | (e2, false) =>
        match tryTeleport e2 arg with
        | (e3, true) => (e3, [])
        | (e3, false) => (e3, [Out.pathNotFound arg]) := by
  have h2 : arg ≠ "/" := by rintro rfl; revert h5; decide
  unfold doCD
  rw [if_neg (by simp [h1, h2]), if_neg h3, if_neg h4]
  dsimp only
  rw [if_neg (by rw [h5]; exact Bool.false_ne_true)]

theorem tryLocalStep_of_child (e : Engine) (t k : String) (h : childKey e t k) :
    (tryLocalStep e t).2 = true := by
  unfold childKey at h
  unfold tryLocalStep
  rcases hp : e.Path with _ | ⟨a, _ | ⟨b, _ | ⟨c, l⟩⟩⟩
  · rw [hp] at h
    simp only [List.length_nil]
    unfold enterTestament
    dsimp only
    rcases h with ⟨_, h⟩ | ⟨_, h⟩
    · rw [if_pos h]
    · split_ifs <;> rfl
  · rw [hp] at h
    simp only at h
    simp only [List.length_singleton]
    unfold enterBook
    dsimp only
    rw [hp]
    simp only [List.getD_cons_zero]
    obtain ⟨hmem, heq⟩ := h
    obtain ⟨kv, hkv, rfl⟩ := List.mem_map.1 hmem
    cases hfind : List.find? (fun kv : String × Book =>
        EqualFold (ReplaceAll kv.1 " " "") (ToLower (ReplaceAll t " " "")))
        (if a = "OT" then e.DB.OT else e.DB.NT) with
    | none =>
      have := List.find?_eq_none.1 hfind kv hkv
      simp [heq] at this
    | some kv2 => rfl
  · rw [hp] at h
    simp only at h
    simp only [List.length_cons, List.length_nil]
    unfold enterChapter
    rw [hp]
    simp only [List.getD_cons_zero, List.getD_cons_succ]
    obtain ⟨rfl, book, hbook, hmem⟩ := h
    rw [hbook]
    simp only
    rw [if_pos ((mapGet_isSome_iff book k).2 hmem)]
  · rw [hp] at h
    exact absurd h (by simp)

/-! ## The hard-coded keys of the index -/

theorem mapGet_ite_mapSet_keep (c : Prop) [Decidable c] (m : List (String × String))
    (key fp k v : String) (h : mapGet m k = some v) (hc : c → key ≠ k) :
    mapGet (if c then mapSet m key fp else m) k = some v := by
  split_ifs with h1
  · rw [mapGet_mapSet_ne _ _ _ _ (hc h1)]; exact h
  · exact h

/-- A key with an entry keeps it through a book that does not override it. -/
theorem indexBook_keep (tName name : String) (idx : List (String × String)) (k v : String)
    (h : mapGet idx k = some v)
    (hal : ∀ kw ∈ aliasTable, kw.1 = k → normName name ≠ kw.2) :
    mapGet (indexBook tName idx name) k = some v := by
  have h0 : mapGet (claimPrefixes ("/" ++ tName ++ "/" ++ name)
      (ReplaceAll (ToLower name) " " "") idx) k = some v := by
    rw [mapGet_claimPrefixes]
    simp [h]
  have side : ∀ key w : String, (key, w) ∈ aliasTable →
      ReplaceAll (ToLower name) " " "" = w → key ≠ k :=
    fun key w hm hc hk => hal (key, w) hm hk hc
  unfold indexBook
  dsimp only
  apply mapGet_ite_mapSet_keep _ _ _ _ _ _ _ (side "php" "philippians" (by decide))
  apply mapGet_ite_mapSet_keep _ _ _ _ _ _ _ (side "jn" "john" (by decide))
  apply mapGet_ite_mapSet_keep _ _ _ _ _ _ _ (side "lk" "luke" (by decide))
  apply mapGet_ite_mapSet_keep _ _ _ _ _ _ _ (side "mk" "mark" (by decide))
  apply mapGet_ite_mapSet_keep _ _ _ _ _ _ _ (side "mt" "matthew" (by decide))
  exact h0

theorem foldl_indexBook_keep (tName : String) (names : List String)
    (idx : List (String × String)) (k v : String) (h : mapGet idx k = some v)
    (hal : ∀ n ∈ names, ∀ kw ∈ aliasTable, kw.1 = k → normName n ≠ kw.2) :
    mapGet (names.foldl (indexBook tName) idx) k = some v := by
  induction names generalizing idx with
  | nil => simpa using h
  | cons n ns ih =>
    simp only [List.foldl_cons]
    apply ih
    · exact indexBook_keep tName n idx k v h (hal n (List.mem_cons_self _ _))
    · exact fun m hm => hal m (List.mem_cons_of_mem _ hm)

/-- A book whose normalized name has an alias sets the alias key to its own path. -/
theorem indexBook_alias (tName name : String) (idx : List (String × String)) (k w : String)
    (hkw : (k, w) ∈ aliasTable) (hn : normName name = w) :
    mapGet (indexBook tName idx name) k = some ("/" ++ tName ++ "/" ++ name) := by
  have hn2 : ReplaceAll (ToLower name) " " "" = w := hn
  unfold indexBook
  dsimp only
  rw [hn2]
  simp only [aliasTable, List.mem_cons, Prod.mk.injEq, List.mem_singleton,
    List.not_mem_nil, or_false] at hkw
  rcases hkw with ⟨rfl, rfl⟩ | ⟨rfl, rfl⟩ | ⟨rfl, rfl⟩ | ⟨rfl, rfl⟩ | ⟨rfl, rfl⟩
  all_goals simp [mapGet_mapSet]

theorem aliasTable_functional : ∀ kw ∈ aliasTable, ∀ kw2 ∈ aliasTable,
    kw.1 = kw2.1 → kw.2 = kw2.2 := by
  decide

/-- In a list of names of which exactly one, `B`, has the normalized name `w`, the
alias key of `w` ends up on `B`. -/
theorem foldl_indexBook_alias (tName : String) (names : List String)
    (idx : List (String × String)) (k w B : String) (hkw : (k, w) ∈ aliasTable)
    (hf : (names.filter fun n => normName n = w) = [B]) :
    mapGet (names.foldl (indexBook tName) idx) k = some ("/" ++ tName ++ "/" ++ B) := by
  obtain ⟨pre, post, rfl, _, hB, hpost⟩ := List.filter_eq_cons_iff.1 hf
  rw [List.foldl_append, List.foldl_cons]
  apply foldl_indexBook_keep
  · exact indexBook_alias tName B _ k w hkw (by simpa using hB)
  · intro n hn kw hm hk
    have hw : kw.2 = w := aliasTable_functional kw hm (k, w) hkw hk
    rw [hw]
    have := List.filter_eq_nil_iff.1 hpost n hn
    simpa using this

theorem sorted_filter_eq {V : Type} (m : List (String × V)) (p : String → Bool)
    (l : List String) (h : (m.map Prod.fst).filter p = l) (hl : l.length ≤ 1) :
    (GetSortedKeys m).filter p = l := by
  have hperm : ((GetSortedKeys m).filter p).Perm l := by
    rw [← h]
    exact (sortSlice_perm keyLess _).filter p
  match l, hl with
  | [], _ => exact hperm.eq_nil
  | [a], _ => exact List.perm_singleton.1 hperm

/-! ## Bookmarks: what the commands leave alone -/

theorem doCD_bookmarks (e : Engine) (arg : String) :
    (doCD e arg).1.Bookmarks = e.Bookmarks := by
  unfold doCD
  split_ifs
  · rfl
  · rfl
  · rfl
  · rfl
  · rfl
  · exact (walkParts_frame _ _).2.2.2
  · dsimp only
    have hl := tryLocalStep_frame (saveHistory e) arg
    split
    next e2 heq => rw [heq] at hl; exact hl.2.2.2
    next e2 heq =>
      rw [heq] at hl
      have ht := tryTeleport_frame e2 arg
      split
      next e3 heq2 => rw [heq2] at ht; simp only at hl ht ⊢; rw [ht.2.2.2, hl.2.2.2]; rfl
      next e3 heq2 => rw [heq2] at ht; simp only at hl ht ⊢; rw [ht.2.2.2, hl.2.2.2]; rfl

theorem handleSmartCat_bookmarks (e : Engine) (args : String) :
    (handleSmartCat e args).1.Bookmarks = e.Bookmarks := by
  unfold handleSmartCat
  dsimp only
  split_ifs <;> rfl

theorem catLoop_bookmarks (segs : List String) (e : Engine) :
    (catLoop e segs).1.Bookmarks = e.Bookmarks := by
  induction segs generalizing e with
  | nil => rfl
  | cons seg rest ih =>
    unfold catLoop
    dsimp only
    split_ifs
    · exact ih e
    · have h1 := handleSmartCat_bookmarks e (TrimSpace seg)
      split
      next e1 heq => rw [heq] at h1; exact h1
      next e1 o1 heq =>
        rw [heq] at h1
        have h2 := ih e1
        split
        next e2 heq2 => rw [heq2] at h2; simp only at h1 h2 ⊢; rw [h2, h1]
        next e2 o2 heq2 => rw [heq2] at h2; simp only at h1 h2 ⊢; rw [h2, h1]

theorem goToBookmark_bookmarks (e : Engine) (name : String) :
    (goToBookmark e name).1.Bookmarks = e.Bookmarks := by
  unfold goToBookmark
  split
  · dsimp only
    split_ifs <;> rfl
  · rfl

theorem saveBookmark_keep (e : Engine) (a n : String) (h : a ≠ n) :
    mapGet (saveBookmark e a).1.Bookmarks n = mapGet e.Bookmarks n := by
  unfold saveBookmark
  by_cases hnil : e.BookmarksNil = true
  · rw [if_pos hnil]
  · rw [if_neg hnil]
    exact mapGet_mapSet_ne _ _ _ _ h

/-- A command that is not a `mark` of `n` leaves the bookmark `n` as it is. -/
theorem RunCommand_bookmark_keep (e : Engine) (input n : String)
    (h : ¬ marksName input n) :
    mapGet (RunCommand e input).1.Bookmarks n = mapGet e.Bookmarks n := by
  unfold marksName at h
  unfold RunCommand
  by_cases hi : input = ""
  · rw [if_pos hi]
  · rw [if_neg hi]
    dsimp only
    cases hf : Fields input with
    | nil => rfl
    | cons p0 restParts =>
      rw [hf] at h
      simp only [not_and] at h
      dsimp only
      have hargs : (if (p0 :: restParts).length > 1 then Join restParts " " else "")
          = Join restParts " " := by
        cases restParts with
        | nil => rfl
        | cons a b => simp
      rw [hargs]
      generalize Join restParts " " = args at h
      split_ifs with c1 c2 c3 c4 c5 c6 c7 c8 c9 c10 c11 c12
      · rfl
      · rfl
      · exact congrArg (fun b => mapGet b n) (doCD_bookmarks e args)
      · rfl
      · exact congrArg (fun b => mapGet b n) (catLoop_bookmarks _ e)
      · rfl
      · rfl
      · rfl
      · exact saveBookmark_keep e args n (h c8)
      · exact congrArg (fun b => mapGet b n) (goToBookmark_bookmarks e args)
      · rfl
      · exact congrArg (fun b => mapGet b n) (handleSmartCat_bookmarks e input)
      · rfl

theorem saveBookmark_nil (e : Engine) (n : String) (h : e.BookmarksNil = true) :
    saveBookmark e n = (e, none) := by
  unfold saveBookmark
  rw [if_pos h]

theorem saveBookmark_ok (e : Engine) (n : String) (h : e.BookmarksNil = false) :
    saveBookmark e n
      = ({ e with Bookmarks := mapSet e.Bookmarks n ("/" ++ Join e.Path "/") },
          some [Out.marked n ("/" ++ Join e.Path "/")]) := by
  unfold saveBookmark
  rw [if_neg (by rw [h]; exact Bool.false_ne_true)]

theorem runAll_bookmark_keep (cmds : List String) (e : Engine) (n : String)
    (h : ∀ c ∈ cmds, ¬ marksName c n) :
    mapGet (runAll e cmds).1.Bookmarks n = mapGet e.Bookmarks n := by
  induction cmds generalizing e with
  | nil => rfl
  | cons c cs ih =>
    unfold runAll
    have h1 := RunCommand_bookmark_keep e c n (h c (List.mem_cons_self _ _))
    split
    next e1 heq => rw [heq] at h1; exact h1
    next e1 o heq =>
      rw [heq] at h1
      rw [ih e1 (fun d hd => h d (List.mem_cons_of_mem _ hd))]
      exact h1

/-- What a `mark` command with a name does. -/
theorem RunCommand_mark (e : Engine) (input n : String) (h : marksName input n)
    (hn : n ≠ "") : RunCommand e input = saveBookmark e n := by
  unfold marksName at h
  unfold RunCommand
  have hi : input ≠ "" := by
    rintro rfl
    rw [show Fields "" = [] by decide] at h
    exact h
  rw [if_neg hi]
  dsimp only
  cases hf : Fields input with
  | nil => rw [hf] at h; exact absurd h (by simp)
  | cons p0 restParts =>
    rw [hf] at h
    obtain ⟨hc, ha⟩ := h
    dsimp only
    have hargs : (if (p0 :: restParts).length > 1 then Join restParts " " else "")
        = Join restParts " " := by
      cases restParts with
      | nil => rfl
      | cons a b => simp
    rw [hargs, hc, ha]
    simp [hn]

/-- What a `goto` or `jump` command does. -/
theorem RunCommand_goto (e : Engine) (input n : String) (h : jumpsTo input n) :
    RunCommand e input = ((goToBookmark e n).1, some (goToBookmark e n).2) := by
  unfold jumpsTo at h
  unfold RunCommand
  have hi : input ≠ "" := by
    rintro rfl
    rw [show Fields "" = [] by decide] at h
    exact h
  rw [if_neg hi]
  dsimp only
  cases hf : Fields input with
  | nil => rw [hf] at h; exact absurd h (by simp)
  | cons p0 restParts =>
    rw [hf] at h
    obtain ⟨hc, ha⟩ := h
    dsimp only
    have hargs : (if (p0 :: restParts).length > 1 then Join restParts " " else "")
        = Join restParts " " := by
      cases restParts with
      | nil => rfl
      | cons a b => simp
    rw [hargs, ha]
    rcases hc with hc | hc <;> rw [hc] <;> simp

/-- A jump to a bookmark that holds the path string of `L` lands on `L`. -/
theorem goToBookmark_pathString (e : Engine) (n : String) (L : List String)
    (hslash : ∀ s ∈ L, noSlash s) (hne : L ≠ [""])
    (hb : mapGet e.Bookmarks n = some ("/" ++ Join L "/")) :
    (goToBookmark e n).1.Path = L ∧ (goToBookmark e n).1.PrevPath = e.Path ∧
    (goToBookmark e n).2 = [] := by
  unfold goToBookmark
  rw [hb]
  dsimp only
  rw [TrimPrefix_slash]
  cases L with
  | nil => simp [Join, saveHistory]
  | cons t rest =>
    have hj : Join (t :: rest) "/" ≠ "" := by
      cases rest with
      | nil =>
        simp only [Join]
        intro ht
        exact hne (by rw [ht])
      | cons b rest =>
        intro hj
        have := congrArg String.data hj
        simp [Join, String.data_append] at this
    rw [if_neg hj]
    exact ⟨Split_Join _ (by simp) hslash, rfl, rfl⟩

/-! ## Substrings, replacing and splitting -/

theorem containsAux_infix_iff (p l : List Char) : containsAux p l = true ↔ p <:+: l := by
  induction l with
  | nil =>
    cases p with
    | nil => simp [containsAux]
    | cons a p => simp [containsAux]
  | cons c cs ih =>
    rw [containsAux, Bool.or_eq_true, ih, List.infix_cons_iff, List.isPrefixOf_iff_prefix]

theorem containsAux_false_iff (p l : List Char) : containsAux p l = false ↔ ¬ p <:+: l := by
  rw [← containsAux_infix_iff]
  simp

theorem replaceAux_skip (old new : List Char) (x b : List Char) :
    replaceAux old new x.length (x ++ b) = replaceAux old new 0 b := by
  induction x with
  | nil => rfl
  | cons c x ih =>
    simp only [List.length_cons, List.cons_append]
    rw [replaceAux]
    exact ih

theorem replaceAux_cons (old new : List Char) (c : Char) (cs : List Char) :
    replaceAux old new 0 (c :: cs)
      = if old.isPrefixOf (c :: cs) then new ++ replaceAux old new (old.length - 1) cs
        else c :: replaceAux old new 0 cs := by
  rw [replaceAux]

/-- Without an occurrence of `old` nothing is replaced. -/
theorem replaceAux_none (old new l : List Char) (h : containsAux old l = false) :
    replaceAux old new 0 l = l := by
  induction l with
  | nil => rfl
  | cons c cs ih =>
    rw [containsAux, Bool.or_eq_false_iff] at h
    rw [replaceAux_cons, h.1]
    simp only [Bool.false_eq_true, if_false]
    rw [ih h.2]

theorem isPrefixOf_of_append (old x rest : List Char) (c : Char)
    (h : old.isPrefixOf (c :: (x ++ old ++ rest)) = true) :
    old.isPrefixOf (c :: (x ++ old.dropLast)) = true := by
  rw [List.isPrefixOf_iff_prefix] at h ⊢
  cases hold : old with
  | nil => exact List.nil_prefix
  | cons o os =>
    have hne : old ≠ [] := by rw [hold]; simp
    have hsplit : old = old.dropLast ++ [old.getLast hne] :=
      (List.dropLast_append_getLast hne).symm
    rw [← hold]
    have h2 : c :: (x ++ old.dropLast) <+: c :: (x ++ old ++ rest) := by
      refine ⟨[old.getLast hne] ++ rest, ?_⟩
      conv_rhs => rw [hsplit]
      simp
    refine List.prefix_of_prefix_length_le h h2 ?_
    have hlen : old.dropLast.length = old.length - 1 := List.length_dropLast _
    have hpos : 0 < old.length := List.length_pos.2 hne
    simp only [List.length_cons, List.length_append]
    omega

/-- The first occurrence of `old` is replaced and the scan goes on after it. -/
theorem replaceAux_first (old new a b : List Char) (hne : old ≠ [])
    (h : containsAux old (a ++ old.dropLast) = false) :
    replaceAux old new 0 (a ++ old ++ b) = a ++ new ++ replaceAux old new 0 b := by
  induction a with
  | nil =>
    cases hold : old with
    | nil => exact absurd hold hne
    | cons o os =>
      simp only [List.nil_append, List.cons_append]
      rw [replaceAux_cons]
      have : (o :: os).isPrefixOf (o :: (os ++ b)) = true := by
        rw [List.isPrefixOf_iff_prefix]
        exact ⟨b, rfl⟩
      rw [this, if_pos rfl]
      simp only [List.length_cons, Nat.add_sub_cancel]
      rw [replaceAux_skip]
  | cons c a ih =>
    simp only [List.cons_append] at h ⊢
    rw [containsAux, Bool.or_eq_false_iff] at h
    have hpre : old.isPrefixOf (c :: (a ++ old ++ b)) = false := by
      by_contra hc
      rw [Bool.not_eq_false] at hc
      have := isPrefixOf_of_append old a b c hc
      rw [h.1] at this
      exact Bool.false_ne_true this
    rw [replaceAux_cons]
    simp only [List.append_assoc] at hpre ⊢
    rw [hpre]
    simp only [Bool.false_eq_true, if_false]
    have := ih h.2
    simp only [List.append_assoc] at this
    rw [this]

theorem splitAux_skip (sep : List Char) (x b cur : List Char) :
    splitAux sep x.length (x ++ b) cur = splitAux sep 0 b cur := by
  induction x with
  | nil => rfl
  | cons c x ih =>
    simp only [List.length_cons, List.cons_append]
    rw [splitAux]
    exact ih

/-- Without an occurrence of the separator the string is one piece. -/
theorem splitAux_none (sep l cur : List Char) (h : containsAux sep l = false) :
    splitAux sep 0 l cur = [⟨cur.reverse ++ l⟩] := by
  induction l generalizing cur with
  | nil => simp [splitAux]
  | cons c cs ih =>
    rw [containsAux, Bool.or_eq_false_iff] at h
    rw [splitAux_cons, h.1]
    simp only [Bool.false_eq_true, if_false]
    rw [ih _ h.2]
    simp

/-- The string is cut at the first occurrence of the separator. -/
theorem splitAux_first (sep a b cur : List Char) (hne : sep ≠ [])
    (h : containsAux sep (a ++ sep.dropLast) = false) :
    splitAux sep 0 (a ++ sep ++ b) cur = ⟨cur.reverse ++ a⟩ :: splitAux sep 0 b [] := by
  induction a generalizing cur with
  | nil =>
    cases hsep : sep with
    | nil => exact absurd hsep hne
    | cons o os =>
      simp only [List.nil_append, List.cons_append]
      rw [splitAux_cons]
      have : (o :: os).isPrefixOf (o :: (os ++ b)) = true := by
        rw [List.isPrefixOf_iff_prefix]
        exact ⟨b, rfl⟩
      rw [this, if_pos rfl]
      simp only [List.length_cons, Nat.add_sub_cancel, List.append_nil]
      rw [splitAux_skip]
  | cons c a ih =>
    simp only [List.cons_append] at h ⊢
    rw [containsAux, Bool.or_eq_false_iff] at h
    have hpre : sep.isPrefixOf (c :: (a ++ sep ++ b)) = false := by
      by_contra hc
      rw [Bool.not_eq_false] at hc
      have := isPrefixOf_of_append sep a b c hc
      rw [h.1] at this
      exact Bool.false_ne_true this
    rw [splitAux_cons]
    simp only [List.append_assoc] at hpre ⊢
    rw [hpre]
    simp only [Bool.false_eq_true, if_false]
    have := ih (c :: cur) h.2
    simp only [List.append_assoc] at this
    rw [this]
    simp

/-! ## Fields and tokens -/

theorem fieldsAux_nil (cur : List Char) :
    fieldsAux [] cur = if cur.isEmpty then [] else [⟨cur.reverse⟩] := by
  rw [fieldsAux]

theorem fieldsAux_cons (c : Char) (cs cur : List Char) :
    fieldsAux (c :: cs) cur
      = if isSpace c then
          (if cur.isEmpty then fieldsAux cs [] else ⟨cur.reverse⟩ :: fieldsAux cs [])
        else fieldsAux cs (c :: cur) := by
  rw [fieldsAux]

theorem fieldsAux_append_space (x y cur : List Char) (c : Char) (hc : isSpace c = true) :
    fieldsAux (x ++ c :: y) cur = fieldsAux x cur ++ fieldsAux y [] := by
  induction x generalizing cur with
  | nil =>
    simp only [List.nil_append]
    rw [fieldsAux_cons, if_pos hc, fieldsAux_nil]
    split_ifs <;> simp
  | cons d x ih =>
    simp only [List.cons_append]
    rw [fieldsAux_cons, fieldsAux_cons]
    split_ifs
    · exact ih []
    · simp only [List.cons_append]
      rw [ih []]
    · exact ih _

/-- A field is a piece of the input. -/
theorem fieldsAux_piece (l cur : List Char) (t : String) (h : t ∈ fieldsAux l cur) :
    t.data <:+: cur.reverse ++ l := by
  induction l generalizing cur with
  | nil =>
    rw [fieldsAux] at h
    split_ifs at h
    · simp at h
    · simp only [List.mem_singleton] at h
      rw [h]
      simp
  | cons c cs ih =>
    rw [fieldsAux] at h
    split_ifs at h with h1 h2
    · have := ih [] h
      simp only [List.reverse_nil, List.nil_append] at this
      exact this.trans ((List.suffix_cons c cs).isInfix.trans (List.suffix_append _ _).isInfix)
    · rcases List.mem_cons.1 h with h | h
      · rw [h]
        exact (List.prefix_append _ _).isInfix
      · have := ih [] h
        simp only [List.reverse_nil, List.nil_append] at this
        exact this.trans ((List.suffix_cons c cs).isInfix.trans (List.suffix_append _ _).isInfix)
    · have := ih (c :: cur) h
      simpa using this

/-- A field is not empty and holds no white space. -/
theorem fieldsAux_token (l cur : List Char) (t : String) (h : t ∈ fieldsAux l cur)
    (hcur : ∀ c ∈ cur, isSpace c = false) :
    t.data ≠ [] ∧ ∀ c ∈ t.data, isSpace c = false := by
  induction l generalizing cur with
  | nil =>
    rw [fieldsAux] at h
    split_ifs at h with h1
    · simp at h
    · simp only [List.mem_singleton] at h
      rw [h]
      constructor
      · intro h0
        apply h1
        simp only [List.reverse_eq_nil_iff] at h0
        rw [h0]
        rfl
      · intro c hc
        exact hcur c (List.mem_reverse.1 hc)
  | cons c cs ih =>
    rw [fieldsAux] at h
    split_ifs at h with h1 h2
    · exact ih [] h (by simp)
    · rcases List.mem_cons.1 h with h | h
      · rw [h]
        constructor
        · intro h0
          apply h2
          simp only [List.reverse_eq_nil_iff] at h0
          rw [h0]
          rfl
        · intro d hd
          exact hcur d (List.mem_reverse.1 hd)
      · exact ih [] h (by simp)
    · refine ih (c :: cur) h ?_
      intro d hd
      rcases List.mem_cons.1 hd with hd | hd
      · rw [hd]
        simpa using h1
      · exact hcur d hd

theorem Fields_token (s t : String) (h : t ∈ Fields s) :
    t.data ≠ [] ∧ (∀ c ∈ t.data, isSpace c = false) ∧ t.data <:+: s.data := by
  have h1 := fieldsAux_token s.data [] t h (by simp)
  have h2 := fieldsAux_piece s.data [] t h
  exact ⟨h1.1, h1.2, by simpa using h2⟩

theorem Join_cons_cons (a b : String) (rest : List String) (sep : String) :
    Join (a :: b :: rest) sep = a ++ sep ++ Join (b :: rest) sep := rfl

theorem Join_append (ts1 ts2 : List String) (sep : String) (h1 : ts1 ≠ []) (h2 : ts2 ≠ []) :
    Join (ts1 ++ ts2) sep = Join ts1 sep ++ sep ++ Join ts2 sep := by
  induction ts1 with
  | nil => exact absurd rfl h1
  | cons a rest ih =>
    cases rest with
    | nil =>
      cases ts2 with
      | nil => exact absurd rfl h2
      | cons b r => rfl
    | cons b r =>
      simp only [List.cons_append] at ih ⊢
      rw [Join_cons_cons, Join_cons_cons, ih (by simp)]
      simp only [String.append_assoc]

theorem Join_data_cons_cons (a b : String) (rest : List String) :
    (Join (a :: b :: rest) " ").data = a.data ++ ' ' :: (Join (b :: rest) " ").data := by
  rw [Join_cons_cons]
  simp [String.data_append]

/-- An occurrence of a pattern that lacks the character `c` does not go across a `c`. -/
theorem infix_append_cons (p X Y : List Char) (c : Char) (hc : c ∉ p)
    (h : p <:+: X ++ c :: Y) : p <:+: X ∨ p <:+: Y := by
  obtain ⟨s, u, he⟩ := h
  rcases List.append_eq_append_iff.1 he with ⟨a1, h1, _⟩ | ⟨c1, h1, h2⟩
  · exact Or.inl ⟨s, a1, h1.symm⟩
  · cases c1 with
    | nil =>
      simp only [List.append_nil] at h1
      exact Or.inl ⟨s, [], by simp [h1]⟩
    | cons d c2 =>
      simp only [List.cons_append, List.cons.injEq] at h2
      obtain ⟨hd, hY⟩ := h2
      subst hd
      rcases List.append_eq_append_iff.1 h1 with ⟨a1, _, h4⟩ | ⟨e1, _, h4⟩
      · exact absurd (by rw [h4]; simp) hc
      · cases e1 with
        | nil =>
          simp only [List.nil_append] at h4
          exact absurd (by rw [← h4]; simp) hc
        | cons f e2 =>
          simp only [List.cons_append, List.cons.injEq] at h4
          exact Or.inr ⟨e2, u, by rw [hY, h4.2]⟩

/-- An occurrence of a pattern without blank in the joined tokens lies inside one
token. -/
theorem infix_Join_inside (p : List Char) (hp : ' ' ∉ p) (hne : p ≠ []) (ts : List String)
    (h : p <:+: (Join ts " ").data) : ∃ t ∈ ts, p <:+: t.data := by
  induction ts with
  | nil =>
    simp only [Join] at h
    exact absurd (List.eq_nil_of_infix_nil h) hne
  | cons t rest ih =>
    cases rest with
    | nil => exact ⟨t, List.mem_cons_self _ _, h⟩
    | cons t2 r =>
      rw [Join_data_cons_cons] at h
      rcases infix_append_cons p _ _ ' ' hp h with h | h
      · exact ⟨t, List.mem_cons_self _ _, h⟩
      · obtain ⟨t3, ht3, h3⟩ := ih h
        exact ⟨t3, List.mem_cons_of_mem _ ht3, h3⟩

theorem first_blank_unique (X1 X2 Y1 Y2 : List Char) (h1 : ' ' ∉ X1) (h2 : ' ' ∉ X2)
    (h : X1 ++ ' ' :: Y1 = X2 ++ ' ' :: Y2) : X1 = X2 ∧ Y1 = Y2 := by
  induction X1 generalizing X2 with
  | nil =>
    cases X2 with
    | nil => simpa using h
    | cons b X2 =>
      simp only [List.nil_append, List.cons_append, List.cons.injEq] at h
      exact absurd (by rw [← h.1]; simp) h2
  | cons a X1 ih =>
    cases X2 with
    | nil =>
      simp only [List.nil_append, List.cons_append, List.cons.injEq] at h
      exact absurd (by rw [h.1]; simp) h1
    | cons b X2 =>
      simp only [List.cons_append, List.cons.injEq] at h
      obtain ⟨hab, ht⟩ := h
      obtain ⟨e1, e2⟩ := ih X2 (fun hm => h1 (List.mem_cons_of_mem _ hm))
        (fun hm => h2 (List.mem_cons_of_mem _ hm)) ht
      exact ⟨by rw [hab, e1], e2⟩

theorem first_blank_split (s : List Char) :
    ' ' ∉ s ∨ ∃ s1 s2, s = s1 ++ ' ' :: s2 ∧ ' ' ∉ s1 := by
  induction s with
  | nil => exact Or.inl (by simp)
  | cons c s ih =>
    by_cases hc : c = ' '
    · exact Or.inr ⟨[], s, by rw [hc]; rfl, by simp⟩
    · rcases ih with h | ⟨s1, s2, h, hs1⟩
      · left
        intro hm
        rcases List.mem_cons.1 hm with hm | hm
        · exact hc hm.symm
        · exact h hm
      · right
        refine ⟨c :: s1, s2, by rw [h]; rfl, ?_⟩
        intro hm
        rcases List.mem_cons.1 hm with hm | hm
        · exact hc hm.symm
        · exact hs1 hm

/-- An occurrence of blank, word, blank in the joined tokens is a token that is not
the last one. -/
theorem infix_Join_word (w : List Char) (hw : ' ' ∉ w) (ts : List String)
    (hts : ∀ t ∈ ts, ' ' ∉ t.data) (h : (' ' :: w ++ [' ']) <:+: (Join ts " ").data) :
    (⟨w⟩ : String) ∈ ts.dropLast := by
  induction ts with
  | nil =>
    simp only [Join] at h
    exact absurd (List.eq_nil_of_infix_nil h) (by simp)
  | cons t rest ih =>
    have ht : ' ' ∉ t.data := hts t (List.mem_cons_self _ _)
    cases rest with
    | nil =>
      exfalso
      apply ht
      exact h.subset (List.mem_cons_self _ _)
    | cons t2 r =>
      have ht2 : ' ' ∉ t2.data := hts t2 (List.mem_cons_of_mem _ (List.mem_cons_self _ _))
      have hrest : ∀ x ∈ t2 :: r, ' ' ∉ x.data := fun x hx => hts x (List.mem_cons_of_mem _ hx)
      rw [Join_data_cons_cons] at h
      obtain ⟨s, u, he⟩ := h
      rcases first_blank_split s with hs | ⟨s1, s2, hs, hs1⟩
      · have he2 : s ++ ' ' :: (w ++ ' ' :: u) = t.data ++ ' ' :: (Join (t2 :: r) " ").data := by
          rw [← he]
          simp
        obtain ⟨_, hY⟩ := first_blank_unique _ _ _ _ hs ht he2
        cases r with
        | nil =>
          exfalso
          apply ht2
          have : (Join [t2] " ").data = t2.data := rfl
          rw [this] at hY
          rw [← hY]
          simp
        | cons t3 r2 =>
          rw [Join_data_cons_cons] at hY
          obtain ⟨hw2, _⟩ := first_blank_unique _ _ _ _ hw ht2 hY
          have : (⟨w⟩ : String) = t2 := by
            rw [hw2]
          rw [this]
          simp [List.dropLast]
      · have he2 : s1 ++ ' ' :: (s2 ++ (' ' :: w ++ [' ']) ++ u)
            = t.data ++ ' ' :: (Join (t2 :: r) " ").data := by
          rw [← he, hs]
          simp
        obtain ⟨_, hY⟩ := first_blank_unique _ _ _ _ hs1 ht he2
        have := ih hrest ⟨s2, u, hY⟩
        simp only [List.dropLast_cons₂]
        exact List.mem_cons_of_mem _ this

/-- The joined tokens begin and end with a character that is not white space. -/
theorem Join_ends (ts : List String) (hne : ts ≠ [])
    (htok : ∀ t ∈ ts, t.data ≠ [] ∧ ∀ c ∈ t.data, isSpace c = false) :
    (∃ c tl, (Join ts " ").data = c :: tl ∧ isSpace c = false) ∧
    (∃ c ini, (Join ts " ").data = ini ++ [c] ∧ isSpace c = false) := by
  induction ts with
  | nil => exact absurd rfl hne
  | cons t rest ih =>
    obtain ⟨htne, htsp⟩ := htok t (List.mem_cons_self _ _)
    cases rest with
    | nil =>
      have hJ : (Join [t] " ").data = t.data := rfl
      rw [hJ]
      constructor
      · cases hd : t.data with
        | nil => exact absurd hd htne
        | cons c tl => exact ⟨c, tl, rfl, htsp c (by rw [hd]; simp)⟩
      · exact ⟨t.data.getLast htne, t.data.dropLast,
          (List.dropLast_append_getLast htne).symm, htsp _ (List.getLast_mem htne)⟩
    | cons t2 r =>
      rw [Join_data_cons_cons]
      obtain ⟨_, c, ini, hl, hc⟩ := ih (by simp) (fun x hx => htok x (List.mem_cons_of_mem _ hx))
      constructor
      · cases hd : t.data with
        | nil => exact absurd hd htne
        | cons c tl => exact ⟨c, _, rfl, htsp c (by rw [hd]; simp)⟩
      · exact ⟨c, t.data ++ ' ' :: ini, by rw [hl]; simp, hc⟩

theorem dropWhile_spaces (pre l : List Char) (h : ∀ c ∈ pre, isSpace c = true) :
    (pre ++ l).dropWhile isSpace = l.dropWhile isSpace := by
  induction pre with
  | nil => rfl
  | cons c pre ih =>
    have hc := h c (List.mem_cons_self _ _)
    simp only [List.cons_append, List.dropWhile_cons, hc, if_true]
    exact ih (fun d hd => h d (List.mem_cons_of_mem _ hd))

/-- `TrimSpace` strips white space around a core that begins and ends with other
characters. -/
theorem TrimSpace_core (pre core post : List Char) (h1 : ∀ c ∈ pre, isSpace c = true)
    (h2 : ∀ c ∈ post, isSpace c = true)
    (hh : ∃ c tl, core = c :: tl ∧ isSpace c = false)
    (hl : ∃ c ini, core = ini ++ [c] ∧ isSpace c = false) :
    TrimSpace ⟨pre ++ core ++ post⟩ = ⟨core⟩ := by
  unfold TrimSpace
  congr 1
  simp only [List.append_assoc]
  rw [dropWhile_spaces pre _ h1]
  obtain ⟨c, tl, hc, hcs⟩ := hh
  have e1 : (core ++ post).dropWhile isSpace = core ++ post := by
    rw [hc]
    simp [List.dropWhile_cons, hcs]
  rw [e1, List.reverse_append]
  rw [dropWhile_spaces post.reverse _ (fun d hd => h2 d (List.mem_reverse.1 hd))]
  obtain ⟨z, ini, hz, hzs⟩ := hl
  have e2 : core.reverse.dropWhile isSpace = core.reverse := by
    rw [hz]
    simp [List.dropWhile_cons, hzs]
  rw [e2, List.reverse_reverse]

/-! ## The multi-reference splitter -/

theorem not_blank_of_not_isSpace (t : List Char) (h : ∀ c ∈ t, isSpace c = false) :
    ' ' ∉ t := fun hm => by
  have := h ' ' hm
  revert this
  decide

/-- The tokens of a clean reference. -/
theorem cleanRef_tokens (A : String) (h : cleanRef A) :
    Fields A ≠ [] ∧
    (∀ t ∈ Fields A, t.data ≠ [] ∧ ∀ c ∈ t.data, isSpace c = false) ∧
    (∀ t ∈ Fields A, ' ' ∉ t.data) ∧
    "+" ∉ Fields A ∧ "and" ∉ Fields A ∧ "AND" ∉ Fields A ∧
    (∀ t ∈ Fields A, ¬ "|BREAK|".data <:+: t.data) := by
  obtain ⟨h1, h2, h3, h4, h5⟩ := h
  refine ⟨h1, fun t ht => ⟨(Fields_token A t ht).1, (Fields_token A t ht).2.1⟩,
    fun t ht => not_blank_of_not_isSpace _ (Fields_token A t ht).2.1, ?_, h3, h4, ?_⟩
  · intro hp
    apply h2
    exact (Fields_token A "+" hp).2.2.subset (by decide)
  · intro t ht hin
    have := (containsAux_infix_iff _ _).2 (hin.trans (Fields_token A t ht).2.2)
    unfold Contains at h5
    rw [h5] at this
    exact Bool.false_ne_true this

/-- Replacing blank, word, blank changes nothing when the word is no token. -/
theorem ReplaceAll_word_none (w old new : String) (hold : old.data = ' ' :: w.data ++ [' '])
    (hw : ' ' ∉ w.data) (T : List String) (hT : ∀ t ∈ T, ' ' ∉ t.data) (h : w ∉ T) :
    ReplaceAll (Join T " ") old new = Join T " " := by
  unfold ReplaceAll
  rw [replaceAux_none]
  rw [containsAux_false_iff, hold]
  intro hin
  exact h (List.dropLast_subset _ (infix_Join_word w.data hw T hT hin))

/-- Replacing blank, word, blank where the word is a token once, between two
non-empty runs of tokens. -/
theorem ReplaceAll_word_first (w old new : String)
    (hold : old.data = ' ' :: w.data ++ [' ']) (hw : ' ' ∉ w.data) (TA TB : List String)
    (hTA : ∀ t ∈ TA, ' ' ∉ t.data) (hTB : ∀ t ∈ TB, ' ' ∉ t.data)
    (hA : TA ≠ []) (hB : TB ≠ []) (h1 : w ∉ TA) (h2 : w ∉ TB) :
    ReplaceAll (Join (TA ++ [w] ++ TB) " ") old new = Join TA " " ++ new ++ Join TB " " := by
  unfold ReplaceAll
  have hd : (Join (TA ++ [w] ++ TB) " ").data
      = (Join TA " ").data ++ old.data ++ (Join TB " ").data := by
    rw [List.append_assoc, Join_append _ _ _ hA (by simp), Join_append _ _ _ (by simp) hB, hold]
    simp [String.data_append, Join]
  have hne : old.data ≠ [] := by rw [hold]; simp
  have hdrop : old.data.dropLast = ' ' :: w.data := by
    rw [hold]
    show ((' ' :: w.data) ++ [' ']).dropLast = ' ' :: w.data
    rw [List.dropLast_concat]
  have hcond : containsAux old.data ((Join TA " ").data ++ old.data.dropLast) = false := by
    rw [containsAux_false_iff, hdrop, hold]
    intro hin
    have hd2 : (Join TA " ").data ++ ' ' :: w.data = (Join (TA ++ [w]) " ").data := by
      rw [Join_append _ _ _ hA (by simp)]
      simp [String.data_append, Join]
    rw [hd2] at hin
    have hmem := infix_Join_word w.data hw (TA ++ [w])
      (by
        intro t ht
        rcases List.mem_append.1 ht with ht | ht
        · exact hTA t ht
        · rw [List.mem_singleton.1 ht]; exact hw) hin
    rw [List.dropLast_concat] at hmem
    exact h1 hmem
  have hrest : replaceAux old.data new.data 0 (Join TB " ").data = (Join TB " ").data := by
    rw [replaceAux_none]
    rw [containsAux_false_iff, hold]
    intro hin
    exact h2 (List.dropLast_subset _ (infix_Join_word w.data hw TB hTB hin))
  rw [hd, replaceAux_first _ _ _ _ hne hcond, hrest]
  apply String.ext
  simp [String.data_append]

/-- The three replacements of `RunCommand` on the tokens of two clean references with
a separator word between them leave one `|BREAK|` token in its place. -/
theorem normalize_pair (TA TB : List String) (sep : String)
    (hsep : sep = "+" ∨ sep = "and" ∨ sep = "AND")
    (hTA : ∀ t ∈ TA, ' ' ∉ t.data) (hTB : ∀ t ∈ TB, ' ' ∉ t.data)
    (hA : TA ≠ []) (hB : TB ≠ [])
    (pA : "+" ∉ TA) (aA : "and" ∉ TA) (cA : "AND" ∉ TA)
    (pB : "+" ∉ TB) (aB : "and" ∉ TB) (cB : "AND" ∉ TB) :
    ReplaceAll (ReplaceAll (ReplaceAll (Join (TA ++ [sep] ++ TB) " ") " + " " |BREAK| ")
      " and " " |BREAK| ") " AND " " |BREAK| "
      = Join TA " " ++ " |BREAK| " ++ Join TB " " := by
  have hV : Join TA " " ++ " |BREAK| " ++ Join TB " " = Join (TA ++ ["|BREAK|"] ++ TB) " " := by
    rw [List.append_assoc, Join_append _ _ _ hA (by simp), Join_append _ _ _ (by simp) hB]
    apply String.ext
    simp [String.data_append, Join]
  have hmid : ∀ m : String, ' ' ∉ m.data → ∀ t ∈ TA ++ [m] ++ TB, ' ' ∉ t.data := by
    intro m hm t ht
    simp only [List.mem_append, List.mem_singleton] at ht
    rcases ht with (ht | ht) | ht
    · exact hTA t ht
    · rw [ht]; exact hm
    · exact hTB t ht
  have hnot : ∀ w m : String, w ≠ m → w ∉ TA → w ∉ TB → w ∉ TA ++ [m] ++ TB := by
    intro w m hwm h1 h2 hmem
    simp only [List.mem_append, List.mem_singleton] at hmem
    rcases hmem with (hmem | hmem) | hmem
    · exact h1 hmem
    · exact hwm hmem
    · exact h2 hmem
  rcases hsep with rfl | rfl | rfl
  · rw [ReplaceAll_word_first "+" " + " " |BREAK| " rfl (by decide) TA TB hTA hTB hA hB pA pB,
      hV,
      ReplaceAll_word_none "and" " and " " |BREAK| " rfl (by decide) _
        (hmid "|BREAK|" (by decide)) (hnot _ _ (by decide) aA aB),
      ReplaceAll_word_none "AND" " AND " " |BREAK| " rfl (by decide) _
        (hmid "|BREAK|" (by decide)) (hnot _ _ (by decide) cA cB)]
  · rw [ReplaceAll_word_none "+" " + " " |BREAK| " rfl (by decide) _
        (hmid "and" (by decide)) (hnot _ _ (by decide) pA pB),
      ReplaceAll_word_first "and" " and " " |BREAK| " rfl (by decide) TA TB hTA hTB hA hB aA aB,
      hV,
      ReplaceAll_word_none "AND" " AND " " |BREAK| " rfl (by decide) _
        (hmid "|BREAK|" (by decide)) (hnot _ _ (by decide) cA cB)]
  · rw [ReplaceAll_word_none "+" " + " " |BREAK| " rfl (by decide) _
        (hmid "AND" (by decide)) (hnot _ _ (by decide) pA pB),
      ReplaceAll_word_none "and" " and " " |BREAK| " rfl (by decide) _
        (hmid "AND" (by decide)) (hnot _ _ (by decide) aA aB),
      ReplaceAll_word_first "AND" " AND " " |BREAK| " rfl (by decide) TA TB hTA hTB hA hB cA cB]

/-- The three replacements of `RunCommand` leave the tokens of a clean reference as
they are. -/
theorem normalize_single (T : List String) (hT : ∀ t ∈ T, ' ' ∉ t.data)
    (p : "+" ∉ T) (a : "and" ∉ T) (c : "AND" ∉ T) :
    ReplaceAll (ReplaceAll (ReplaceAll (Join T " ") " + " " |BREAK| ")
      " and " " |BREAK| ") " AND " " |BREAK| " = Join T " " := by
  rw [ReplaceAll_word_none "+" " + " " |BREAK| " rfl (by decide) T hT p,
    ReplaceAll_word_none "and" " and " " |BREAK| " rfl (by decide) T hT a,
    ReplaceAll_word_none "AND" " AND " " |BREAK| " rfl (by decide) T hT c]

/-- No `|BREAK|` in the joined tokens when none of them holds one. -/
theorem no_break_in_Join (T : List String)
    (h : ∀ t ∈ T, ¬ "|BREAK|".data <:+: t.data) :
    containsAux "|BREAK|".data (Join T " ").data = false := by
  rw [containsAux_false_iff]
  intro hin
  obtain ⟨t, ht, hin2⟩ := infix_Join_inside _ (by decide) (by decide) T hin
  exact h t ht hin2

theorem Split_break_single (T : List String)
    (h : ∀ t ∈ T, ¬ "|BREAK|".data <:+: t.data) :
    Split (Join T " ") "|BREAK|" = [Join T " "] := by
  unfold Split
  rw [splitAux_none _ _ _ (no_break_in_Join T h)]
  rfl

theorem Split_break_pair (TA TB : List String) (hA : TA ≠ [])
    (hTA : ∀ t ∈ TA, ¬ "|BREAK|".data <:+: t.data)
    (hTB : ∀ t ∈ TB, ¬ "|BREAK|".data <:+: t.data) :
    Split (Join TA " " ++ " |BREAK| " ++ Join TB " ") "|BREAK|"
      = [Join TA " " ++ " ", " " ++ Join TB " "] := by
  unfold Split
  have hd : (Join TA " " ++ " |BREAK| " ++ Join TB " ").data
      = ((Join TA " ").data ++ [' ']) ++ "|BREAK|".data ++ (' ' :: (Join TB " ").data) := by
    simp [String.data_append]
  have hcond : containsAux "|BREAK|".data
      (((Join TA " ").data ++ [' ']) ++ "|BREAK|".data.dropLast) = false := by
    have hd2 : ((Join TA " ").data ++ [' ']) ++ "|BREAK|".data.dropLast
        = (Join (TA ++ ["|BREAK"]) " ").data := by
      rw [Join_append _ _ _ hA (by simp)]
      simp [String.data_append, Join]
    rw [hd2]
    apply no_break_in_Join
    intro t ht
    rcases List.mem_append.1 ht with ht | ht
    · exact hTA t ht
    · rw [List.mem_singleton.1 ht, ← containsAux_false_iff]
      decide
  have hrest : containsAux "|BREAK|".data (' ' :: (Join TB " ").data) = false := by
    rw [containsAux, Bool.or_eq_false_iff]
    exact ⟨by simp [List.isPrefixOf], no_break_in_Join TB hTB⟩
  rw [hd, splitAux_first _ _ _ _ (by decide) hcond, splitAux_none _ _ _ hrest]
  simp only [List.reverse_nil, List.nil_append, List.cons.injEq, and_true]
  constructor <;> apply String.ext <;> simp [String.data_append]

theorem Join_tokens_ne_empty (T : List String) (hne : T ≠ [])
    (htok : ∀ t ∈ T, t.data ≠ [] ∧ ∀ c ∈ t.data, isSpace c = false) : Join T " " ≠ "" := by
  obtain ⟨⟨c, tl, h, _⟩, _⟩ := Join_ends T hne htok
  intro h0
  rw [h0] at h
  exact List.noConfusion h

theorem TrimSpace_Join (T : List String) (hne : T ≠ [])
    (htok : ∀ t ∈ T, t.data ≠ [] ∧ ∀ c ∈ t.data, isSpace c = false) :
    TrimSpace (Join T " ") = Join T " " ∧
    TrimSpace (Join T " " ++ " ") = Join T " " ∧
    TrimSpace (" " ++ Join T " ") = Join T " " := by
  obtain ⟨hh, hl⟩ := Join_ends T hne htok
  have h0 := TrimSpace_core [] (Join T " ").data [] (by simp) (by simp) hh hl
  have h1 := TrimSpace_core [] (Join T " ").data [' '] (by simp) (by decide) hh hl
  have h2 := TrimSpace_core [' '] (Join T " ").data [] (by decide) (by simp) hh hl
  refine ⟨?_, ?_, ?_⟩
  · exact (congrArg TrimSpace (String.ext (by simp))).trans h0
  · exact (congrArg TrimSpace (String.ext (by simp [String.data_append]))).trans h1
  · exact (congrArg TrimSpace (String.ext (by simp [String.data_append]))).trans h2

theorem catLoop_single (e : Engine) (s c : String) (ht : TrimSpace s = c) (hc : c ≠ "") :
    catLoop e [s] = handleSmartCat e c := by
  rw [catLoop, ht, if_neg hc]
  rcases handleSmartCat e c with ⟨e1, _ | o1⟩
  · rfl
  · simp [catLoop]

theorem catLoop_pair (e : Engine) (s1 s2 c1 c2 : String) (h1 : TrimSpace s1 = c1)
    (h2 : TrimSpace s2 = c2) (hc1 : c1 ≠ "") (hc2 : c2 ≠ "") :
    catLoop e [s1, s2] = seqRun (handleSmartCat e c1) (fun e1 => handleSmartCat e1 c2) := by
  rw [catLoop, h1, if_neg hc1]
  unfold seqRun
  rcases handleSmartCat e c1 with ⟨e1, _ | o1⟩
  · rfl
  · simp only
    rw [catLoop_single e1 s2 c2 h2 hc2]
    rcases handleSmartCat e1 c2 with ⟨e2, _ | o2⟩ <;> rfl

theorem Fields_cat_single (A : String) : Fields ("cat " ++ A) = "cat" :: Fields A := by
  unfold Fields
  have hd : ("cat " ++ A).data = ['c', 'a', 't'] ++ ' ' :: A.data := by
    simp [String.data_append]
  rw [hd, fieldsAux_append_space _ _ _ _ (by decide)]
  rfl

theorem Fields_cat_pair (A B sep : String)
    (hsep : sep = "+" ∨ sep = "and" ∨ sep = "AND") :
    Fields ("cat " ++ A ++ " " ++ sep ++ " " ++ B) = "cat" :: (Fields A ++ [sep] ++ Fields B) := by
  unfold Fields
  have hd : ("cat " ++ A ++ " " ++ sep ++ " " ++ B).data
      = ['c', 'a', 't'] ++ ' ' :: (A.data ++ ' ' :: (sep.data ++ ' ' :: B.data)) := by
    simp [String.data_append]
  have hs : fieldsAux sep.data [] = [sep] := by
    rcases hsep with rfl | rfl | rfl <;> rfl
  rw [hd, fieldsAux_append_space _ _ _ _ (by decide),
    fieldsAux_append_space _ _ _ _ (by decide), fieldsAux_append_space _ _ _ _ (by decide), hs]
  simp only [List.append_assoc]
  rfl

/-- A `cat` command with arguments. -/
theorem RunCommand_cat (e : Engine) (input : String) (rest : List String)
    (hf : Fields input = "cat" :: rest) (hne : Join rest " " ≠ "") :
    RunCommand e input = catLoop e (Split (ReplaceAll (ReplaceAll (ReplaceAll
      (Join rest " ") " + " " |BREAK| ") " and " " |BREAK| ") " AND " " |BREAK| ")
      "|BREAK|") := by
  unfold RunCommand
  have hi : input ≠ "" := by
    rintro rfl
    rw [show Fields "" = [] by decide] at hf
    exact List.noConfusion hf
  rw [if_neg hi]
  dsimp only
  rw [hf]
  dsimp only
  have hargs : (if ("cat" :: rest).length > 1 then Join rest " " else "") = Join rest " " := by
    cases rest with
    | nil => rfl
    | cons a b => simp
  rw [hargs, show ToLower "cat" = "cat" by decide]
  simp [hne]

/-- A read of one clean reference hands its tokens, joined, to `handleSmartCat`. -/
theorem RunCommand_cat_single (e : Engine) (A : String) (hA : cleanRef A) :
    RunCommand e ("cat " ++ A) = handleSmartCat e (Join (Fields A) " ") := by
  obtain ⟨h1, h2, h3, h4, h5, h6, h7⟩ := cleanRef_tokens A hA
  rw [RunCommand_cat e _ _ (Fields_cat_single A) (Join_tokens_ne_empty _ h1 h2),
    normalize_single _ h3 h4 h5 h6, Split_break_single _ h7]
  exact catLoop_single e _ _ (TrimSpace_Join _ h1 h2).1 (Join_tokens_ne_empty _ h1 h2)

/-- A read of two clean references with a separator between them hands the tokens of
the first and then the tokens of the second to `handleSmartCat`. -/
theorem RunCommand_cat_pair (e : Engine) (A B sep : String) (hA : cleanRef A)
    (hB : cleanRef B) (hsep : sep = "+" ∨ sep = "and" ∨ sep = "AND") :
    RunCommand e ("cat " ++ A ++ " " ++ sep ++ " " ++ B)
      = seqRun (handleSmartCat e (Join (Fields A) " "))
          (fun e1 => handleSmartCat e1 (Join (Fields B) " ")) := by
  obtain ⟨a1, a2, a3, a4, a5, a6, a7⟩ := cleanRef_tokens A hA
  obtain ⟨b1, b2, b3, b4, b5, b6, b7⟩ := cleanRef_tokens B hB
  have hsp : ' ' ∉ sep.data := by
    rcases hsep with rfl | rfl | rfl <;> decide
  have hsne : sep.data ≠ [] := by
    rcases hsep with rfl | rfl | rfl <;> decide
  have hstok : ∀ c ∈ sep.data, isSpace c = false := by
    rcases hsep with rfl | rfl | rfl <;> decide
  have hne : Join (Fields A ++ [sep] ++ Fields B) " " ≠ "" := by
    apply Join_tokens_ne_empty _ (by simp)
    intro t ht
    simp only [List.mem_append, List.mem_singleton] at ht
    rcases ht with (ht | ht) | ht
    · exact a2 t ht
    · rw [ht]; exact ⟨hsne, hstok⟩
    · exact b2 t ht
  rw [RunCommand_cat e _ _ (Fields_cat_pair A B sep hsep) hne,
    normalize_pair _ _ sep hsep a3 b3 a1 b1 a4 a5 a6 b4 b5 b6,
    Split_break_pair _ _ a1 a7 b7]
  exact catLoop_pair e _ _ _ _ (TrimSpace_Join _ a1 a2).2.1 (TrimSpace_Join _ b1 b2).2.2
    (Join_tokens_ne_empty _ a1 a2) (Join_tokens_ne_empty _ b1 b2)

/-! ## Verse selectors: segments and ranges -/

theorem containsAux_char (d : Char) (l : List Char) : containsAux [d] l = true ↔ d ∈ l := by
  induction l with
  | nil => simp [containsAux]
  | cons c cs ih =>
    rw [containsAux, Bool.or_eq_true, ih]
    simp only [List.isPrefixOf, Bool.and_true, beq_iff_eq, List.mem_cons]

theorem containsAux_char_false (d : Char) (l : List Char) (h : d ∉ l) :
    containsAux [d] l = false := by
  rw [← Bool.not_eq_true, containsAux_char]
  exact h

/-- The first two pieces of a hyphenated segment: what stands before the first hyphen
and what stands between it and the next one, or the end. -/
theorem split_dash_endpoints (x y tail : List Char) (hx : '-' ∉ x) (hy : '-' ∉ y)
    (ht : tail = [] ∨ ∃ t, tail = '-' :: t) :
    ∃ rest, splitAux ['-'] 0 (x ++ '-' :: (y ++ tail)) [] = ⟨x⟩ :: ⟨y⟩ :: rest := by
  have h1 := splitAux_first ['-'] x (y ++ tail) [] (by simp)
    (by simpa using containsAux_char_false '-' x hx)
  simp only [List.append_assoc, List.singleton_append, List.reverse_nil, List.nil_append] at h1
  rw [h1]
  rcases ht with rfl | ⟨t, rfl⟩
  · rw [List.append_nil, splitAux_none _ _ _ (containsAux_char_false '-' y hy)]
    exact ⟨[], rfl⟩
  · have h2 := splitAux_first ['-'] y t [] (by simp)
      (by simpa using containsAux_char_false '-' y hy)
    simp only [List.append_assoc, List.singleton_append, List.reverse_nil, List.nil_append] at h2
    rw [h2]
    exact ⟨_, rfl⟩

/-- A hyphenated segment whose first two pieces parse is a range. -/
theorem catSegment_range (chapter : Chapter) (rawSeg x y : String) (tail : List Char)
    (hseg : (TrimSpace rawSeg).data = x.data ++ '-' :: (y.data ++ tail))
    (hx : '-' ∉ x.data) (hy : '-' ∉ y.data) (ht : tail = [] ∨ ∃ t, tail = '-' :: t)
    (a b : Int) (ha : Atoi x = some a) (hb : Atoi y = some b) :
    catSegment chapter rawSeg = some (rangeLoop chapter (chapter.length + 1) a b) := by
  obtain ⟨rest, hsplit⟩ := split_dash_endpoints x.data y.data tail hx hy ht
  have hne : TrimSpace rawSeg ≠ "" := by
    intro h0
    rw [h0] at hseg
    exact absurd hseg.symm (by simp)
  have hc : Contains (TrimSpace rawSeg) "-" = true := by
    unfold Contains
    rw [hseg]
    exact (containsAux_char '-' _).2 (by simp)
  have hs : Split (TrimSpace rawSeg) "-" = x :: y :: rest := by
    unfold Split
    rw [hseg]
    exact hsplit
  unfold catSegment
  dsimp only
  rw [if_neg hne, if_pos hc, hs]
  simp only [List.get?_cons_zero, List.get?_cons_succ, ha, hb]

/-- A hyphenated segment with a piece that does not parse is an invalid range. -/
theorem catSegment_invalid (chapter : Chapter) (rawSeg x y : String) (tail : List Char)
    (hseg : (TrimSpace rawSeg).data = x.data ++ '-' :: (y.data ++ tail))
    (hx : '-' ∉ x.data) (hy : '-' ∉ y.data) (ht : tail = [] ∨ ∃ t, tail = '-' :: t)
    (hbad : Atoi x = none ∨ Atoi y = none) :
    catSegment chapter rawSeg = some [Out.invalidRange (TrimSpace rawSeg)] := by
  obtain ⟨rest, hsplit⟩ := split_dash_endpoints x.data y.data tail hx hy ht
  have hne : TrimSpace rawSeg ≠ "" := by
    intro h0
    rw [h0] at hseg
    exact absurd hseg.symm (by simp)
  have hc : Contains (TrimSpace rawSeg) "-" = true := by
    unfold Contains
    rw [hseg]
    exact (containsAux_char '-' _).2 (by simp)
  have hs : Split (TrimSpace rawSeg) "-" = x :: y :: rest := by
    unfold Split
    rw [hseg]
    exact hsplit
  unfold catSegment
  dsimp only
  rw [if_neg hne, if_pos hc, hs]
  simp only [List.get?_cons_zero, List.get?_cons_succ]
  rcases hbad with h | h
  · rw [h]
  · rw [h]
    cases Atoi x <;> rfl

/-- The segments are handled one after the other; the output is the outputs of the
segments in their order. -/
theorem catSegments_eq (chapter : Chapter) (segs : List String) :
    catSegments chapter segs
      = some (segs.map fun s => (catSegment chapter s).getD []).flatten := by
  induction segs with
  | nil => rfl
  | cons s rest ih =>
    rw [catSegments, ih]
    have h1 := catSegment_isSome chapter s
    cases hs : catSegment chapter s with
    | none => rw [hs] at h1; simp at h1
    | some o1 => simp [hs]

theorem incInt_eq (i : Int) (h : i + 1 < 2 ^ 63) : incInt i = i + 1 := by
  unfold incInt
  rw [if_pos h]

theorem incIter_eq_add (k : Nat) (i : Int) (h1 : -(2 ^ 63) ≤ i) (h2 : i + k < 2 ^ 63) :
    incIter k i = i + k := by
  rw [incIter_formula k i h1 (by omega)]
  omega

/-- While the verses are there, the loop prints them and goes on. -/
theorem rangeLoop_verses (chapter : Chapter) (n : Nat) (fuel : Nat) (i stop : Int)
    (hfound : ∀ j : Nat, j < n → (mapGet chapter (Itoa (i + j))).isSome = true)
    (hstop : i + n ≤ stop + 1) (hmax : i + n < 2 ^ 63) (hfuel : n ≤ fuel) :
    rangeLoop chapter fuel i stop
      = versesOut chapter i n ++ rangeLoop chapter (fuel - n) (i + n) stop := by
  induction n generalizing fuel i with
  | zero => simp [versesOut]
  | succ n ih =>
    cases fuel with
    | zero => omega
    | succ fuel =>
      have h0 := hfound 0 (by omega)
      simp only [Nat.cast_zero, add_zero] at h0
      obtain ⟨text, htext⟩ := Option.isSome_iff_exists.1 h0
      have hle : i ≤ stop := by push_cast at hstop; omega
      rw [rangeLoop, if_pos hle, htext]
      simp only [versesOut, htext, Option.getD_some, List.cons_append, List.cons.injEq, true_and]
      rw [incInt_eq i (by push_cast at hmax; omega)]
      rw [ih fuel (i + 1)
        (fun j hj => by
          have := hfound (j + 1) (by omega)
          push_cast at this
          rw [show i + 1 + (j : Int) = i + ((j : Int) + 1) by ring]
          exact this)
        (by push_cast at hstop; omega) (by push_cast at hmax; omega) (by omega)]
      simp only [Nat.succ_sub_succ_eq_sub]
      rw [show i + 1 + (n : Int) = i + ((n + 1 : Nat) : Int) by push_cast; ring]

/-- The number of verses that the loop can find in a row is at most the size of the
chapter. -/
theorem found_le_length (chapter : Chapter) (n : Nat) (i : Int) (h1 : -(2 ^ 63) ≤ i)
    (hmax : i + n ≤ 2 ^ 63)
    (hfound : ∀ j : Nat, j < n → (mapGet chapter (Itoa (i + j))).isSome = true) :
    n ≤ chapter.length := by
  rcases Nat.eq_zero_or_pos n with hn | hn
  · rw [hn]
    exact Nat.zero_le _
  apply rangeLoop_passes_le chapter i h1 (by omega) n (by omega)
  intro j hj
  rw [incIter_eq_add j i h1 (by omega)]
  exact hfound j hj

theorem rangeLoop_past (chapter : Chapter) (fuel : Nat) (i stop : Int) (h : stop < i) :
    rangeLoop chapter fuel i stop = [] := by
  cases fuel with
  | zero => rfl
  | succ fuel => rw [rangeLoop, if_neg (by omega)]

theorem rangeLoop_missing (chapter : Chapter) (fuel : Nat) (i stop : Int) (h : i ≤ stop)
    (hm : mapGet chapter (Itoa i) = none) :
    rangeLoop chapter (fuel + 1) i stop = [Out.endOfChapter] := by
  rw [rangeLoop, if_pos h, hm]

/-- Without a book match the read runs at the current location. -/
theorem handleSmartCat_no_match (e : Engine) (args : String)
    (h : ∀ j, 1 ≤ j → j ≤ (Fields args).length → ¬ matchesAt e.BookIndex (Fields args) j) :
    handleSmartCat e args = (e, doCat e args) := by
  unfold handleSmartCat
  by_cases ha : args = ""
  · rw [if_pos ha, ha]
  · rw [if_neg ha]
    dsimp only
    rw [greedyLoop_none e.BookIndex (Fields args) 0 "" ⟨"", [], 0⟩
      (fun j hj1 hj2 => by
        have := h j hj1 hj2
        unfold matchesAt at this
        rw [String.empty_append]
        simpa using this)]
    simp

/-! ## The first token of a read -/

/-- A `cd` command. -/
theorem RunCommand_cd (e : Engine) (input : String) (rest : List String)
    (hf : Fields input = "cd" :: rest) :
    RunCommand e input
      = ((doCD e (Join rest " ")).1, some (doCD e (Join rest " ")).2) := by
  unfold RunCommand
  have hi : input ≠ "" := by
    rintro rfl
    rw [show Fields "" = [] by decide] at hf
    exact List.noConfusion hf
  rw [if_neg hi]
  dsimp only
  rw [hf]
  dsimp only
  have hargs : (if ("cd" :: rest).length > 1 then Join rest " " else "") = Join rest " " := by
    cases rest with
    | nil => rfl
    | cons a b => simp
  rw [hargs, show ToLower "cd" = "cd" by decide]
  simp

/-- A string of white space has no fields. -/
theorem fieldsAux_spaces (l : List Char) (h : ∀ c ∈ l, isSpace c = true) :
    fieldsAux l [] = [] := by
  induction l with
  | nil => rfl
  | cons c cs ih =>
    rw [fieldsAux_cons, if_pos (h c (List.mem_cons_self _ _))]
    simp only [List.isEmpty_nil, if_true]
    exact ih (fun d hd => h d (List.mem_cons_of_mem _ hd))

/-- Only a string of white space has no fields. -/
theorem fieldsAux_eq_nil (l cur : List Char) (h : fieldsAux l cur = []) :
    cur = [] ∧ ∀ c ∈ l, isSpace c = true := by
  induction l generalizing cur with
  | nil =>
    rw [fieldsAux_nil] at h
    split_ifs at h with h1
    exact ⟨List.isEmpty_iff.1 h1, by simp⟩
  | cons c cs ih =>
    rw [fieldsAux_cons] at h
    split_ifs at h with h1 h2
    · refine ⟨List.isEmpty_iff.1 h2, ?_⟩
      intro d hd
      rcases List.mem_cons.1 hd with hd | hd
      · rw [hd]; exact h1
      · exact (ih [] h).2 d hd
    · exact absurd (ih (c :: cur) h).1 (by simp)

/-! ## Case mapping and the normalized name -/

theorem toLower_cases (c : Char) :
    c.toLower = c ∨ (65 ≤ c.toNat ∧ c.toNat ≤ 90 ∧ c.toLower = Char.ofNat (c.toNat + 32)) := by
  unfold Char.toLower
  dsimp only
  split_ifs with h
  · exact Or.inr ⟨h.1, h.2, rfl⟩
  · exact Or.inl rfl

theorem toLower_upper (n : Nat) (h1 : 65 ≤ n) (h2 : n ≤ 90) :
    (Char.ofNat (n + 32)).toLower = Char.ofNat (n + 32) ∧ Char.ofNat (n + 32) ≠ ' ' ∧
    Char.ofNat n ≠ ' ' := by
  interval_cases n <;> decide

theorem toLower_idem (c : Char) : c.toLower.toLower = c.toLower := by
  rcases toLower_cases c with h | ⟨h1, h2, h⟩
  · rw [h, h]
  · rw [h]
    exact (toLower_upper c.toNat h1 h2).1

theorem toLower_eq_blank (c : Char) : c.toLower = ' ' ↔ c = ' ' := by
  rcases toLower_cases c with h | ⟨h1, h2, h⟩
  · rw [h]
  · rw [h]
    have hu := toLower_upper c.toNat h1 h2
    rw [Char.ofNat_toNat] at hu
    constructor
    · intro h3; exact absurd h3 hu.2.1
    · intro h3; exact absurd h3 hu.2.2

theorem toLower_ascii (c : Char) (h : c.toNat < 128) : c.toLower.toNat < 128 := by
  rcases toLower_cases c with h1 | ⟨h1, h2, h3⟩
  · rw [h1]; exact h
  · rw [h3]
    generalize c.toNat = n at h1 h2
    interval_cases n <;> decide

theorem foldChar_ascii (c : Char) (h : c.toNat < 128) : foldChar c = c.toLower := by
  unfold foldChar
  have h1 : c ≠ Char.ofNat 0x17F := by
    rintro rfl
    revert h
    decide
  have h2 : c ≠ Char.ofNat 0x212A := by
    rintro rfl
    revert h
    decide
  rw [if_neg h1, if_neg h2]

theorem isAscii_ToLower (s : String) (h : isAscii s) : isAscii (ToLower s) := by
  intro c hc
  unfold ToLower at hc
  obtain ⟨d, hd, rfl⟩ := List.mem_map.1 hc
  exact toLower_ascii d (h d hd)

/-- On ASCII text the case folding is the comparison of the lower-case forms. -/
theorem EqualFold_ascii (s t : String) (hs : isAscii s) (ht : isAscii t) :
    EqualFold s t = true ↔ ToLower s = ToLower t := by
  unfold EqualFold ToLower
  rw [beq_iff_eq, List.map_congr_left fun c hc => foldChar_ascii c (hs c hc),
    List.map_congr_left fun c hc => foldChar_ascii c (ht c hc)]
  constructor
  · intro h; rw [h]
  · intro h; exact congrArg String.data h

theorem ToLower_idem (s : String) : ToLower (ToLower s) = ToLower s := by
  unfold ToLower
  simp only [List.map_map]
  congr 1
  apply List.map_congr_left
  intro c _
  exact toLower_idem c

theorem replaceAux_blank (l : List Char) :
    replaceAux [' '] [] 0 l = l.filter fun c => c ≠ ' ' := by
  induction l with
  | nil => rfl
  | cons c cs ih =>
    rw [replaceAux_cons]
    by_cases hc : c = ' '
    · subst hc
      simp only [List.isPrefixOf, beq_self_eq_true, Bool.and_true, if_true, List.length_singleton,
        Nat.sub_self, List.nil_append]
      rw [ih]
      simp
    · have : ([' '].isPrefixOf (c :: cs)) = false := by
        simp only [List.isPrefixOf, Bool.and_true, beq_eq_false_iff_ne]
        exact fun h => hc h.symm
      rw [this]
      simp only [Bool.false_eq_true, if_false]
      rw [ih]
      simp [hc]

/-- Lower case and removal of the spaces commute: the key that `tryTeleport` and
`enterBook` compute from a token is its normalized name. -/
theorem ToLower_strip (s : String) : ToLower (ReplaceAll s " " "") = normName s := by
  unfold normName ToLower ReplaceAll
  show (⟨(replaceAux [' '] [] 0 s.data).map Char.toLower⟩ : String)
    = ⟨replaceAux [' '] [] 0 (s.data.map Char.toLower)⟩
  congr 1
  rw [replaceAux_blank, replaceAux_blank]
  induction s.data with
  | nil => rfl
  | cons c cs ih =>
    by_cases hc : c = ' '
    · subst hc
      simpa using ih
    · have h2 : c.toLower ≠ ' ' := fun h => hc ((toLower_eq_blank c).1 h)
      simpa [hc, h2] using ih

theorem normName_lower (s : String) : ToLower (normName s) = normName s := by
  rw [← ToLower_strip, ToLower_idem]

theorem isAscii_strip (s : String) (h : isAscii s) : isAscii (ReplaceAll s " " "") := by
  intro c hc
  have hc2 : c ∈ replaceAux [' '] [] 0 s.data := hc
  rw [replaceAux_blank] at hc2
  exact h c (List.mem_filter.1 hc2).1

theorem first_occurrence {α : Type} [DecidableEq α] (l : List α) (a : α) (h : a ∈ l) :
    ∃ pre post, l = pre ++ a :: post ∧ a ∉ pre := by
  induction l with
  | nil => simp at h
  | cons b l ih =>
    by_cases hb : b = a
    · exact ⟨[], l, by rw [hb]; rfl, by simp⟩
    · rcases List.mem_cons.1 h with h | h
      · exact absurd h.symm hb
      · obtain ⟨pre, post, hl, hpre⟩ := ih h
        refine ⟨b :: pre, post, by rw [hl]; rfl, ?_⟩
        intro hm
        rcases List.mem_cons.1 hm with hm | hm
        · exact hb hm.symm
        · exact hpre hm

/-- The path string of a book splits into the testament and the book. -/
theorem bookPath_segments (T B : String) (hT : T = "OT" ∨ T = "NT") (hs : noSlash B) :
    Split (TrimPrefix ("/" ++ T ++ "/" ++ B) "/") "/" = [T, B] := by
  have hj : "/" ++ T ++ "/" ++ B = "/" ++ Join [T, B] "/" := by
    simp only [Join, String.append_assoc]
  rw [hj, TrimPrefix_slash]
  apply Split_Join _ (by simp)
  intro s hsm
  simp only [List.mem_cons, List.mem_singleton, List.not_mem_nil, or_false] at hsm
  rcases hsm with rfl | rfl
  · rcases hT with rfl | rfl <;> decide
  · exact hs

/-- The index maps the full normalized name of a book to the path of the book, when no
other book takes that name and it is none of the hard-coded keys. -/
theorem buildIndex_full_name (db : Bible) (T B : String)
    (hB : (T = "OT" ∧ B ∈ db.OT.map Prod.fst) ∨ (T = "NT" ∧ B ∈ db.NT.map Prod.fst))
    (hne : normName B ≠ "") (hk : normName B ∉ hardKeys) (hown : ownsFullName db T B) :
    mapGet (buildIndex db) (normName B) = some ("/" ++ T ++ "/" ++ B) := by
  have hp := hk
  have hot : "ot" ≠ normName B := fun h => hp (by rw [← h]; decide)
  have hnt : "nt" ≠ normName B := fun h => hp (by rw [← h]; decide)
  have hlo : ToLower "OT" = "ot" := by decide
  have hln : ToLower "NT" = "nt" := by decide
  have h0 : mapGet (mapSet ([] : List (String × String)) "ot" ("/" ++ "OT")) (normName B)
      = none := by
    rw [mapGet_mapSet_ne _ _ _ _ hot]; rfl
  have hclaim : claimsPrefix B (normName B) := ⟨hne, List.prefix_refl _⟩
  have hsortO : ∀ n, n ∈ GetSortedKeys db.OT → n ∈ db.OT.map Prod.fst :=
    fun n hn => (sortSlice_perm keyLess _).mem_iff.1 hn
  have hsortN : ∀ n, n ∈ GetSortedKeys db.NT → n ∈ db.NT.map Prod.fst :=
    fun n hn => (sortSlice_perm keyLess _).mem_iff.1 hn
  rcases hB with ⟨rfl, hB⟩ | ⟨rfl, hB⟩
  · obtain ⟨pre, post, hs, hpre⟩ := first_occurrence (GetSortedKeys db.OT) B
      ((sortSlice_perm keyLess _).mem_iff.2 hB)
    unfold buildIndex
    unfold indexTestament
    rw [hln]
    apply foldl_indexBook_stable "NT" _ hp
    rw [mapGet_mapSet_ne _ _ _ _ hnt, hlo, hs]
    apply foldl_indexBook_claim "OT" _ hp pre B post _ h0 hclaim
    intro n hn hc
    have hmem : n ∈ GetSortedKeys db.OT := by rw [hs]; exact List.mem_append_left _ hn
    have := (hown.1 n (hsortO n hmem) hc.2).2
    exact hpre (this ▸ hn)
  · obtain ⟨pre, post, hs, hpre⟩ := first_occurrence (GetSortedKeys db.NT) B
      ((sortSlice_perm keyLess _).mem_iff.2 hB)
    unfold buildIndex
    unfold indexTestament
    rw [hln, hs]
    apply foldl_indexBook_claim "NT" _ hp pre B post _ _ hclaim
    · intro n hn hc
      have hmem : n ∈ GetSortedKeys db.NT := by rw [hs]; exact List.mem_append_left _ hn
      have := (hown.2 n (hsortN n hmem) hc.2).2
      exact hpre (this ▸ hn)
    · rw [mapGet_mapSet_ne _ _ _ _ hnt, hlo]
      apply foldl_indexBook_absent "OT" _ hp _ _ h0
      intro n hn hc
      have := (hown.1 n (hsortO n hn) hc.2).1
      revert this
      decide

/-! ## The walk along the path string of a valid Location -/

theorem validLocation_nonEmpty (e : Engine) (hk : nonEmptyKeys e.DB) (p : List String)
    (h : validLocation e p) : ∀ s ∈ p, s ≠ "" := by
  have hT : ∀ t : String, t = "OT" ∨ t = "NT" → t ≠ "" := by
    rintro t (rfl | rfl) <;> decide
  have hB : ∀ t : String, ∀ bk ∈ (if t = "OT" then e.DB.OT else e.DB.NT),
      bk.1 ≠ "" ∧ ∀ ch ∈ bk.2, ch.1 ≠ "" := by
    intro t bk hbk
    split_ifs at hbk
    · exact hk.1 bk hbk
    · exact hk.2 bk hbk
  have hBk : ∀ t b : String, b ∈ (if t = "OT" then e.DB.OT else e.DB.NT).map Prod.fst →
      b ≠ "" := by
    intro t b hb
    obtain ⟨bk, hbk, rfl⟩ := List.mem_map.1 hb
    exact (hB t bk hbk).1
  match p, h with
  | [], _ => simp
  | [t], h =>
    intro s hs
    rw [List.mem_singleton.1 hs]
    exact hT t h
  | [t, b], h =>
    intro s hs
    simp only [List.mem_cons, List.mem_singleton, List.not_mem_nil, or_false] at hs
    rcases hs with rfl | rfl
    · exact hT _ h.1
    · exact hBk t _ h.2
  | [t, b, c], h =>
    intro s hs
    simp only [List.mem_cons, List.mem_singleton, List.not_mem_nil, or_false] at hs
    obtain ⟨h1, h2, book, hbook, hc⟩ := h
    rcases hs with rfl | rfl | rfl
    · exact hT _ h1
    · exact hBk t _ h2
    · unfold getBook at hbook
      dsimp only at hbook
      obtain ⟨kv, hfind, rfl⟩ := Option.map_eq_some'.1 hbook
      obtain ⟨ch, hch, rfl⟩ := List.mem_map.1 hc
      exact (hB t kv (find_mem _ _ _ hfind)).2 ch hch

/-- A `cd` to the path string of a non-empty list of segments walks the segments from
the root. -/
theorem doCD_pathString (e : Engine) (L : List String) (hne : L ≠ [])
    (hs : ∀ s ∈ L, noSlash s) (hn : ∀ s ∈ L, s ≠ "") :
    doCD e ("/" ++ Join L "/") = walkParts { saveHistory e with Path := [] } L := by
  obtain ⟨t, rest, rfl⟩ := List.exists_cons_of_ne_nil hne
  have hj : Join (t :: rest) "/" ≠ "" := Join_cons_ne_empty t rest (hn t (List.mem_cons_self _ _))
  have hdata : ("/" ++ Join (t :: rest) "/").data = '/' :: (Join (t :: rest) "/").data := by
    simp [String.data_append]
  have h1 : "/" ++ Join (t :: rest) "/" ≠ "" := by
    intro h
    have := congrArg String.data h
    rw [hdata] at this
    exact List.noConfusion this
  have h2 : "/" ++ Join (t :: rest) "/" ≠ "/" := by
    intro h
    have := congrArg String.data h
    rw [hdata] at this
    simp only [List.cons.injEq, true_and] at this
    exact hj (String.ext this)
  have h3 : "/" ++ Join (t :: rest) "/" ≠ "-" := by
    intro h
    have := congrArg String.data h
    rw [hdata] at this
    simp only [List.cons.injEq] at this
    exact absurd this.1 (by decide)
  have h4 : "/" ++ Join (t :: rest) "/" ≠ ".." := by
    intro h
    have := congrArg String.data h
    rw [hdata] at this
    simp only [List.cons.injEq] at this
    exact absurd this.1 (by decide)
  have h5 : HasPrefix ("/" ++ Join (t :: rest) "/") "/" = true := by
    unfold HasPrefix
    rw [hdata]
    simp [List.isPrefixOf]
  unfold doCD
  rw [if_neg (by simp [h1, h2]), if_neg h3, if_neg h4]
  dsimp only
  rw [if_pos h5, TrimPrefix_slash, Split_Join _ hne hs]

theorem walkParts_step (e : Engine) (part : String) (rest : List String) (hp : part ≠ "")
    (hok : (tryLocalStep e part).2 = true) :
    walkParts e (part :: rest) = walkParts (tryLocalStep e part).1 rest := by
  rw [walkParts, if_neg hp]
  split
  next e1 heq => rw [heq]
  next e1 heq => rw [heq] at hok; simp at hok

/-- In a corpus with distinct normalized names a book key names itself only. -/
theorem childKey_book (e : Engine) (t B : String) (hp : e.Path = [t])
    (hascii : asciiBookKeys e.DB)
    (hdist : distinctNormNames e.DB) (ht : t = "OT" ∨ t = "NT")
    (hB : B ∈ (if t = "OT" then e.DB.OT else e.DB.NT).map Prod.fst) :
    childKey e B B ∧ ∀ k, childKey e B k → k = B := by
  unfold childKey
  rw [hp]
  dsimp only
  have hkeys : ∀ k2 ∈ (if t = "OT" then e.DB.OT else e.DB.NT).map Prod.fst, isAscii k2 := by
    intro k2 hk2
    by_cases h : t = "OT"
    · rw [if_pos h] at hk2
      exact hascii.1 k2 hk2
    · rw [if_neg h] at hk2
      exact hascii.2 k2 hk2
  have hfold : ∀ k2 ∈ (if t = "OT" then e.DB.OT else e.DB.NT).map Prod.fst,
      (EqualFold (ReplaceAll k2 " " "") (ToLower (ReplaceAll B " " "")) = true ↔
        normName k2 = normName B) := by
    intro k2 hk2
    rw [EqualFold_ascii _ _ (isAscii_strip k2 (hkeys k2 hk2))
      (isAscii_ToLower _ (isAscii_strip B (hkeys B hB))),
      ToLower_strip, ToLower_strip, normName_lower]
  constructor
  · exact ⟨hB, (hfold B hB).2 rfl⟩
  · rintro k ⟨hk, hf⟩
    have hn := (hfold k hk).1 hf
    rcases ht with rfl | rfl
    · rw [if_pos rfl] at hB hk
      exact hdist.1 k hk B hB hn
    · rw [if_neg (by decide)] at hB hk
      exact hdist.2 k hk B hB hn

theorem childKey_testament (e : Engine) (T : String) (hp : e.Path = [])
    (hT : T = "OT" ∨ T = "NT") : childKey e T T ∧ ∀ k, childKey e T k → k = T := by
  unfold childKey
  rw [hp]
  dsimp only
  rcases hT with rfl | rfl
  · exact ⟨Or.inl ⟨rfl, by decide⟩, fun k h => h.elim (fun h => h.1)
      (fun h => absurd h.2 (by decide))⟩
  · exact ⟨Or.inr ⟨rfl, by decide⟩, fun k h => h.elim (fun h => absurd h.2 (by decide))
      (fun h => h.1)⟩

theorem childKey_chapter (e : Engine) (t b C : String) (hp : e.Path = [t, b])
    (hC : ∃ book, getBook e t b = some book ∧ C ∈ book.map Prod.fst) :
    childKey e C C ∧ ∀ k, childKey e C k → k = C := by
  unfold childKey
  rw [hp]
  dsimp only
  exact ⟨⟨rfl, hC⟩, fun k h => h.1⟩

/-- A step with a token that names exactly one child. -/
theorem tryLocalStep_to (e : Engine) (part k0 : String)
    (h : childKey e part k0 ∧ ∀ k, childKey e part k → k = k0) :
    (tryLocalStep e part).2 = true ∧ (tryLocalStep e part).1.Path = e.Path ++ [k0] ∧
    (tryLocalStep e part).1.DB = e.DB := by
  have hok := tryLocalStep_of_child e part k0 h.1
  obtain ⟨k, hpath, hk⟩ := tryLocalStep_child e part hok
  rw [h.2 k hk] at hpath
  exact ⟨hok, hpath, (tryLocalStep_frame e part).2.1⟩

/-- The walk along the segments of a valid Location, from the root, ends there. -/
theorem walkParts_valid (e : Engine) (L : List String) (hp : e.Path = [])
    (hne : nonEmptyKeys e.DB) (hascii : asciiBookKeys e.DB)
    (hdist : distinctNormNames e.DB) (hL : validLocation e L) :
    (walkParts e L).1.Path = L ∧ (walkParts e L).2 = [] := by
  have hn := validLocation_nonEmpty e hne L hL
  match L, hL with
  | [], _ => exact ⟨hp, rfl⟩
  | [T], hL =>
    obtain ⟨ok1, p1, _⟩ := tryLocalStep_to e T T (childKey_testament e T hp hL)
    rw [walkParts_step e T [] (hn T (by simp)) ok1]
    rw [hp] at p1
    exact ⟨p1, rfl⟩
  | [T, B], hL =>
    obtain ⟨ok1, p1, d1⟩ := tryLocalStep_to e T T (childKey_testament e T hp hL.1)
    rw [hp] at p1
    rw [walkParts_step e T [B] (hn T (by simp)) ok1]
    generalize (tryLocalStep e T).1 = e1 at p1 d1
    obtain ⟨ok2, p2, _⟩ := tryLocalStep_to e1 B B
      (childKey_book e1 T B p1 (by rw [d1]; exact hascii) (by rw [d1]; exact hdist) hL.1
        (by rw [d1]; exact hL.2))
    rw [walkParts_step e1 B [] (hn B (by simp)) ok2]
    rw [p1] at p2
    exact ⟨p2, rfl⟩
  | [T, B, C], hL =>
    obtain ⟨hT, hB, hC⟩ := hL
    obtain ⟨ok1, p1, d1⟩ := tryLocalStep_to e T T (childKey_testament e T hp hT)
    rw [hp] at p1
    rw [walkParts_step e T [B, C] (hn T (by simp)) ok1]
    generalize (tryLocalStep e T).1 = e1 at p1 d1
    obtain ⟨ok2, p2, d2⟩ := tryLocalStep_to e1 B B
      (childKey_book e1 T B p1 (by rw [d1]; exact hascii) (by rw [d1]; exact hdist) hT
        (by rw [d1]; exact hB))
    rw [p1] at p2
    rw [walkParts_step e1 B [C] (hn B (by simp)) ok2]
    generalize (tryLocalStep e1 B).1 = e2 at p2 d2
    have hC2 : ∃ book, getBook e2 T B = some book ∧ C ∈ book.map Prod.fst := by
      unfold getBook at hC ⊢
      rw [d2, d1]
      exact hC
    obtain ⟨ok3, p3, _⟩ := tryLocalStep_to e2 C C (childKey_chapter e2 T B C p2 hC2)
    rw [p2] at p3
    rw [walkParts_step e2 C [] (hn C (by simp)) ok3]
    exact ⟨p3, rfl⟩

/-! ## The search -/

/-- C1 (the code departs from the claim): on a fresh engine, `cd /OT/Genesis` records
the root as previous location, which has length 0, so the following `cd -` prints
`No history.` and leaves the engine where it is, for every corpus; on the corpus of
the tests that location is `/OT/Genesis`, not the root. -/
theorem C1_cd_dash_after_jump_from_root :
    (∀ (db : Bible) (bm : List (String × String)),
      doCD (doCD (New db bm) "/OT/Genesis").1 "-"
        = ((doCD (New db bm) "/OT/Genesis").1, [Out.noHistory])) ∧
    (doCD (New mockDB []) "/OT/Genesis").1.Path = ["OT", "Genesis"] ∧
    (doCD (doCD (New mockDB []) "/OT/Genesis").1 "-").1.Path = ["OT", "Genesis"] := by
  have key : ∀ (db : Bible) (bm : List (String × String)),
      doCD (doCD (New db bm) "/OT/Genesis").1 "-"
        = ((doCD (New db bm) "/OT/Genesis").1, [Out.noHistory]) := by
    intro db bm
    have hp : (doCD (New db bm) "/OT/Genesis").1.PrevPath = [] :=
      doCD_prevPath (New db bm) "/OT/Genesis" (by decide) (by decide) (by decide) (by decide)
    generalize (doCD (New db bm) "/OT/Genesis").1 = e1 at hp
    unfold doCD
    rw [if_neg (by decide), if_pos rfl, if_pos (by simp [hp])]
  have hpath : (doCD (New mockDB []) "/OT/Genesis").1.Path = ["OT", "Genesis"] := by decide
  refine ⟨key, hpath, ?_⟩
  rw [key]
  exact hpath

/-! ## C2: the read command on a reference without tokens -/

/-- C2 (the code departs from the claim): at `/NT/John` the argument `:` leaves no
token after the colon is replaced by a space, and `tokens[0]` panics, in `doCat`, in
`handleSmartCat` and in `RunCommand` alike; so does an argument of blanks.  This is the
only panic of the read: `doCat` panics exactly when, at book depth with the book found,
a non-empty argument leaves no token (the range parts are always in range). -/
theorem C2_doCat_panics_without_tokens :
    doCat { New mockDB [] with Path := ["NT", "John"] } ":" = none ∧
    (handleSmartCat { New mockDB [] with Path := ["NT", "John"] } ":").2 = none ∧
    (RunCommand { New mockDB [] with Path := ["NT", "John"] } "cat :").2 = none ∧
    (handleSmartCat { New mockDB [] with Path := ["NT", "John"] } "  ").2 = none ∧
    (∀ (e : Engine) (arg : String), doCat e arg = none ↔
      (e.Path.length = 2 ∧ (getBook e (e.Path.getD 0 "") (e.Path.getD 1 "")).isSome = true ∧
        arg ≠ "" ∧ Fields (ReplaceAll arg ":" " ") = [])) :=
  ⟨by decide, by decide, by decide, by decide, doCat_panics_iff⟩

/-! ## C3: chapter and verse selector at book depth -/

/-- C3 (the code departs from the claim): at `/NT/John`, `3:16-18, 20` is cut into the
tokens `3`, `16-18,` and `20`; the verse selector is the second token alone, so verses
16 to 18 are printed and verse 20 is not, although the chapter holds it.  One level
deeper, at `/NT/John/3`, the same selector `16-18, 20` does print verse 20.  In general,
at book depth the read of an argument with tokens `c`, `s1`, ... is the read of chapter
`c` with the selector `s1`, whatever tokens follow. -/
theorem C3_doCat_keeps_second_token_only :
    doCat { New johnDB [] with Path := ["NT", "John"] } "3:16-18, 20"
      = some [Out.reading "John" "3" "16-18,", Out.verse 16 "v16", Out.verse 17 "v17",
              Out.verse 18 "v18", Out.blank] ∧
    doCat { New johnDB [] with Path := ["NT", "John", "3"] } "16-18, 20"
      = some [Out.reading "John" "3" "16-18, 20", Out.verse 16 "v16", Out.verse 17 "v17",
              Out.verse 18 "v18", Out.verse 20 "v20", Out.blank] ∧
    (∀ (e : Engine) (arg : String) (book : Book) (c s1 : String) (rest : List String),
      e.Path.length = 2 → getBook e (e.Path.getD 0 "") (e.Path.getD 1 "") = some book →
      Fields (ReplaceAll arg ":" " ") = c :: s1 :: rest →
      doCat e arg = catChapter (e.Path.getD 1 "") book c s1) := by
  refine ⟨by decide, by decide, ?_⟩
  intro e arg book c s1 rest hl hb hf
  have ha : arg ≠ "" := by
    rintro rfl
    rw [show Fields (ReplaceAll "" ":" " ") = [] by decide] at hf
    exact List.noConfusion hf
  unfold doCat
  rw [if_neg (by omega)]
  dsimp only
  rw [hb]
  simp only
  rw [if_neg (by simp [ha]), if_neg (by simp [ha]), if_pos hl, hf]
  simp

/-! ## C4: prefix ownership in the book index -/

/-- C4 (as stated, refuted): in a corpus whose only book is Othniel (in OT), `ot` is a
non-empty prefix of the normalized name and no book was processed before, yet the index
maps `ot` to `/OT`.  Likewise `mt` is first claimed by the OT book Mtx and then handed
to Matthew by the manual override. -/
theorem C4_prefix_taken_by_hard_coded_key :
    GetSortedKeys ({ OT := [("Othniel", [])], NT := [] } : Bible).OT = ["Othniel"] ∧
    claimsPrefix "Othniel" "ot" ∧
    mapGet (buildIndex { OT := [("Othniel", [])], NT := [] }) "ot" = some "/OT" ∧
    bookPath "OT" "Othniel" ≠ "/OT" ∧
    GetSortedKeys ({ OT := [("Mtx", [])], NT := [("Matthew", [])] } : Bible).OT = ["Mtx"] ∧
    claimsPrefix "Mtx" "mt" ∧
    mapGet (buildIndex { OT := [("Mtx", [])], NT := [("Matthew", [])] }) "mt"
      = some "/NT/Matthew" := by
  decide

/-- C4 (amended): for every key `p` other than the hard-coded keys ot, nt, mt, mk, lk,
jn, php, and every book B whose normalized name has the non-empty prefix `p`: if no
book processed before B (the books of OT in sorted order, then those of NT in sorted
order) has that prefix, the index maps `p` to the absolute path of B. -/
theorem C4_prefix_ownership (db : Bible) (p : String) (hp : p ∉ hardKeys) :
    (∀ (pre : List String) (B : String) (post : List String),
      GetSortedKeys db.OT = pre ++ B :: post → claimsPrefix B p →
      (∀ n ∈ pre, ¬ claimsPrefix n p) →
      mapGet (buildIndex db) p = some ("/" ++ "OT" ++ "/" ++ B)) ∧
    (∀ (pre : List String) (B : String) (post : List String),
      GetSortedKeys db.NT = pre ++ B :: post → claimsPrefix B p →
      (∀ n ∈ GetSortedKeys db.OT, ¬ claimsPrefix n p) →
      (∀ n ∈ pre, ¬ claimsPrefix n p) →
      mapGet (buildIndex db) p = some ("/" ++ "NT" ++ "/" ++ B)) := by
  have hot : "ot" ≠ p := fun h => hp (by rw [← h]; decide)
  have hnt : "nt" ≠ p := fun h => hp (by rw [← h]; decide)
  have hlo : ToLower "OT" = "ot" := by decide
  have hln : ToLower "NT" = "nt" := by decide
  have h0 : mapGet (mapSet ([] : List (String × String)) "ot" ("/" ++ "OT")) p = none := by
    rw [mapGet_mapSet_ne _ _ _ _ hot]; rfl
  constructor
  · intro pre B post hs hB hpre
    unfold buildIndex
    unfold indexTestament
    rw [hln]
    apply foldl_indexBook_stable "NT" p hp
    rw [mapGet_mapSet_ne _ _ _ _ hnt, hlo, hs]
    exact foldl_indexBook_claim "OT" p hp pre B post _ h0 hB hpre
  · intro pre B post hs hB hold hpre
    unfold buildIndex
    unfold indexTestament
    rw [hln, hs]
    apply foldl_indexBook_claim "NT" p hp pre B post _ _ hB hpre
    rw [mapGet_mapSet_ne _ _ _ _ hnt, hlo]
    exact foldl_indexBook_absent "OT" p hp _ _ h0 hold

/-- Witness for C4: on the test corpus Exodus is processed before Genesis and does not
claim `gen`, and 1 John is processed before John and does not claim `jo`. -/
theorem C4_prefix_ownership_witness :
    mapGet (buildIndex mockDB) "gen" = some "/OT/Genesis" ∧
    mapGet (buildIndex mockDB) "jo" = some "/NT/John" :=
  ⟨(C4_prefix_ownership mockDB "gen" (by decide)).1 ["Exodus"] "Genesis" []
      (by decide) (by decide) (by decide),
   (C4_prefix_ownership mockDB "jo" (by decide)).2 ["1 John"] "John" ["Matthew"]
      (by decide) (by decide) (by decide) (by decide)⟩

/-! ## C5: relative steps and the previous location -/

/-- C5 (as stated, refuted): at `/OT/Genesis` with no previous location, the local
step `cd 1` is accepted and changes the previous location to `/OT/Genesis`. -/
theorem C5_local_step_changes_prevPath :
    (tryLocalStep { New mockDB [] with Path := ["OT", "Genesis"] } "1").2 = true ∧
    (doCD { New mockDB [] with Path := ["OT", "Genesis"] } "1").1.Path
      = ["OT", "Genesis", "1"] ∧
    (doCD { New mockDB [] with Path := ["OT", "Genesis"] } "1").1.PrevPath
      ≠ ({ New mockDB [] with Path := ["OT", "Genesis"] } : Engine).PrevPath := by
  decide

/-- C5 (amended): `cd ..` leaves the previous location as it was; every `cd` whose
argument is not empty, `/`, `-` or `..`, a local step-in included, sets the previous
location to the location held before the command. -/
theorem C5_prevPath_of_relative_steps (e : Engine) :
    (doCD e "..").1.PrevPath = e.PrevPath ∧
    ∀ arg : String, arg ≠ "" → arg ≠ "/" → arg ≠ "-" → arg ≠ ".." →
      (doCD e arg).1.PrevPath = e.Path := by
  refine ⟨?_, fun arg h1 h2 h3 h4 => doCD_prevPath e arg h1 h2 h3 h4⟩
  unfold doCD
  rw [if_neg (by decide), if_neg (by decide), if_pos rfl]
  split_ifs <;> rfl

/-- Witness for C5: the step `cd 1` at `/OT/Genesis`. -/
theorem C5_prevPath_of_relative_steps_witness :
    (doCD { New mockDB [] with Path := ["OT", "Genesis"] } "1").1.PrevPath
      = ["OT", "Genesis"] :=
  (C5_prevPath_of_relative_steps { New mockDB [] with Path := ["OT", "Genesis"] }).2 "1"
    (by decide) (by decide) (by decide) (by decide)

/-! ## C6: a failed absolute move -/

/-- C6 (as stated, refuted): at `/NT`, `cd /OT/Nope` has the component `Nope`, which
does not resolve; the command leaves the Location at `/OT`, not at `/NT`. -/
theorem C6_failed_absolute_move_not_atomic :
    (tryLocalStep { New mockDB [] with Path := ["OT"] } "Nope").2 = false ∧
    doCD { New mockDB [] with Path := ["NT"] } "/OT/Nope"
      = ({ New mockDB [] with Path := ["OT"], PrevPath := ["NT"] },
         [Out.pathElementNotFound "Nope"]) ∧
    (doCD { New mockDB [] with Path := ["NT"] } "/OT/Nope").1.Path
      ≠ ({ New mockDB [] with Path := ["NT"] } : Engine).Path := by
  decide

/-- C6 (amended): let the non-empty components of an absolute `cd` argument be
`ok ++ bad :: rest`, where the components `ok` resolve one after the other from the
root and `bad` does not resolve where they lead.  Then the command reports `bad` and
leaves the engine where `ok` leads from the root (at the root itself when `ok` is
empty), whatever the Location was before; the previous location is the Location held
before the command. -/
theorem C6_failed_absolute_move (e e1 : Engine) (arg : String)
    (ok : List String) (bad : String) (rest : List String)
    (habs : HasPrefix arg "/" = true) (hroot : arg ≠ "/")
    (hparts : ((Split (TrimPrefix arg "/") "/").filter fun c => c ≠ "") = ok ++ bad :: rest)
    (hok : stepAll { e with Path := [], PrevPath := e.Path } ok = some e1)
    (hbad : (tryLocalStep e1 bad).2 = false) :
    doCD e arg = (e1, [Out.pathElementNotFound bad]) ∧ e1.PrevPath = e.Path := by
  have hmem : ∀ c ∈ ok ++ bad :: rest, c ≠ "" := by
    intro c hc
    rw [← hparts] at hc
    simpa using (List.mem_filter.1 hc).2
  have h1 : arg ≠ "" := by rintro rfl; revert habs; decide
  have h3 : arg ≠ "-" := by rintro rfl; revert habs; decide
  have h4 : arg ≠ ".." := by rintro rfl; revert habs; decide
  have hrun : doCD e arg = (e1, [Out.pathElementNotFound bad]) := by
    unfold doCD
    rw [if_neg (by simp [h1, hroot]), if_neg h3, if_neg h4]
    simp only
    rw [if_pos habs, walkParts_filter, hparts]
    exact walkParts_stops ok bad rest _ e1
      (fun c hc => hmem c (List.mem_append_left _ hc))
      (hmem bad (List.mem_append_right _ (List.mem_cons_self _ _))) hok hbad
  refine ⟨hrun, ?_⟩
  have := doCD_prevPath e arg h1 hroot h3 h4
  rw [hrun] at this
  exact this

/-- Witness for C6: `cd /OT/Nope` at `/NT` ends at `/OT`. -/
theorem C6_failed_absolute_move_witness :
    doCD { New mockDB [] with Path := ["NT"] } "/OT/Nope"
      = ({ New mockDB [] with Path := ["OT"], PrevPath := ["NT"] },
         [Out.pathElementNotFound "Nope"]) ∧
    ({ New mockDB [] with Path := ["OT"], PrevPath := ["NT"] } : Engine).PrevPath = ["NT"] :=
  C6_failed_absolute_move { New mockDB [] with Path := ["NT"] }
    { New mockDB [] with Path := ["OT"], PrevPath := ["NT"] } "/OT/Nope" ["OT"] "Nope" []
    (by decide) (by decide) (by decide) (by decide) (by decide)

/-! ## C7: validity of the Location -/

/-- C8: `GetSortedKeys` returns a rearrangement of the keys of the map; when every key
parses as an integer the result ascends by integer value, and when no key parses as an
integer it ascends lexicographically.  For the keys 10, 1, 2, visited in any order, the
result is 1, 2, 10; for Genesis, Exodus, Lev it is Exodus, Genesis, Lev. -/
theorem C8_GetSortedKeys_homogeneous {V : Type} (m : List (String × V)) :
    (GetSortedKeys m).Perm (m.map Prod.fst) ∧
    ((∀ k ∈ m.map Prod.fst, (Atoi k).isSome) → numericAscending (GetSortedKeys m)) ∧
    ((∀ k ∈ m.map Prod.fst, Atoi k = none) → lexAscending (GetSortedKeys m)) ∧
    (m.map Prod.fst ∈ [["10", "1", "2"], ["10", "2", "1"], ["1", "10", "2"],
        ["1", "2", "10"], ["2", "10", "1"], ["2", "1", "10"]] →
      GetSortedKeys m = ["1", "2", "10"]) ∧
    (m.map Prod.fst ∈ [["Genesis", "Exodus", "Lev"], ["Genesis", "Lev", "Exodus"],
        ["Exodus", "Genesis", "Lev"], ["Exodus", "Lev", "Genesis"],
        ["Lev", "Genesis", "Exodus"], ["Lev", "Exodus", "Genesis"]] →
      GetSortedKeys m = ["Exodus", "Genesis", "Lev"]) := by
  unfold GetSortedKeys
  generalize m.map Prod.fst = keys
  refine ⟨sortSlice_perm keyLess keys, sortSlice_numeric keys, ?_, ?_, ?_⟩
  · intro h
    exact sortSlice_lex_of_agree keys fun a ha b _ => keyLess_of_left_none a b (h a ha)
  · revert keys
    decide
  · revert keys
    decide

/-- Witness for C8: the chapter keys 10, 1, 2 and the book keys of the test. -/
theorem C8_GetSortedKeys_homogeneous_witness :
    numericAscending (GetSortedKeys [("10", "Text"), ("1", "Text"), ("2", "Text")]) ∧
    lexAscending (GetSortedKeys [("Genesis", "Book"), ("Exodus", "Book"), ("Lev", "Book")]) ∧
    GetSortedKeys [("10", "Text"), ("1", "Text"), ("2", "Text")] = ["1", "2", "10"] ∧
    GetSortedKeys [("Genesis", "Book"), ("Exodus", "Book"), ("Lev", "Book")]
      = ["Exodus", "Genesis", "Lev"] :=
  ⟨(C8_GetSortedKeys_homogeneous [("10", "Text"), ("1", "Text"), ("2", "Text")]).2.1
      (by decide),
   (C8_GetSortedKeys_homogeneous
      [("Genesis", "Book"), ("Exodus", "Book"), ("Lev", "Book")]).2.2.1 (by decide),
   (C8_GetSortedKeys_homogeneous [("10", "Text"), ("1", "Text"), ("2", "Text")]).2.2.2.1
      (by decide),
   (C8_GetSortedKeys_homogeneous
      [("Genesis", "Book"), ("Exodus", "Book"), ("Lev", "Book")]).2.2.2.2 (by decide)⟩

/-! ## C9: mixed key sets -/

/-- C9 (as stated, refuted): the key set 9, 10, a is mixed; in whatever order the map
is visited the result is 9, 10, a, which is not ascending lexicographically, since the
string 10 is below the string 9. -/
theorem C9_mixed_keys_not_lexicographic :
    Atoi "9" = some 9 ∧ Atoi "10" = some 10 ∧ Atoi "a" = none ∧
    (∀ keys ∈ [["9", "10", "a"], ["9", "a", "10"], ["10", "9", "a"], ["10", "a", "9"],
        ["a", "9", "10"], ["a", "10", "9"]],
      GetSortedKeys (keys.map fun k => (k, "Text")) = ["9", "10", "a"]) ∧
    strLess "10".data "9".data = true ∧
    ¬ lexAscending ["9", "10", "a"] := by
  refine ⟨by decide, by decide, by decide, by decide, by decide, ?_⟩
  unfold lexAscending
  intro h
  have h1 := (List.pairwise_cons.1 h).1 "10" (by simp)
  revert h1
  decide

/-- C9 (amended): when any two keys that both parse as integers compare by value the
way they compare as strings (as in a mixed set with a single integer key),
`GetSortedKeys` returns the keys in ascending lexicographic order. -/
theorem C9_mixed_keys_lexicographic {V : Type} (m : List (String × V))
    (h : ∀ a ∈ m.map Prod.fst, ∀ b ∈ m.map Prod.fst, ∀ x y : Int,
      Atoi a = some x → Atoi b = some y → (x < y ↔ strLess a.data b.data = true)) :
    (GetSortedKeys m).Perm (m.map Prod.fst) ∧ lexAscending (GetSortedKeys m) := by
  unfold GetSortedKeys
  refine ⟨sortSlice_perm keyLess _, sortSlice_lex_of_agree _ ?_⟩
  intro a ha b hb
  cases hx : Atoi a with
  | none => exact keyLess_of_left_none a b hx
  | some x =>
    cases hy : Atoi b with
    | none => exact keyLess_of_right_none a b hy
    | some y =>
      rw [keyLess_of_numeric a b x y hx hy]
      have := h a ha b hb x y hx hy
      cases hs : strLess a.data b.data with
      | true => simpa using this.2 hs
      | false =>
        simp only [decide_eq_false_iff_not]
        intro hlt
        rw [this.1 hlt] at hs
        exact Bool.noConfusion hs

/-- Witness for C9: the mixed key set b, 2, a, with the single integer key 2. -/
theorem C9_mixed_keys_lexicographic_witness :
    (GetSortedKeys [("b", "Text"), ("2", "Text"), ("a", "Text")]).Perm ["b", "2", "a"] ∧
    lexAscending (GetSortedKeys [("b", "Text"), ("2", "Text"), ("a", "Text")]) :=
  C9_mixed_keys_lexicographic [("b", "Text"), ("2", "Text"), ("a", "Text")] (by
    intro a ha b hb x y hx hy
    have ha2 : a = "2" := by
      simp only [List.map_cons, List.map_nil, List.mem_cons, List.mem_singleton,
        List.not_mem_nil, or_false] at ha
      rcases ha with rfl | rfl | rfl
      · rw [show Atoi "b" = none by decide] at hx
        exact Option.noConfusion hx
      · rfl
      · rw [show Atoi "a" = none by decide] at hx
        exact Option.noConfusion hx
    have hb2 : b = "2" := by
      simp only [List.map_cons, List.map_nil, List.mem_cons, List.mem_singleton,
        List.not_mem_nil, or_false] at hb
      rcases hb with rfl | rfl | rfl
      · rw [show Atoi "b" = none by decide] at hy
        exact Option.noConfusion hy
      · rfl
      · rw [show Atoi "a" = none by decide] at hy
        exact Option.noConfusion hy
    subst ha2 hb2
    have hx2 : x = 2 := by
      have : Atoi "2" = some 2 := by decide
      rw [this] at hx
      exact (Option.some.inj hx).symm
    have hy2 : y = 2 := by
      have : Atoi "2" = some 2 := by decide
      rw [this] at hy
      exact (Option.some.inj hy).symm
    subst hx2 hy2
    decide)

/-! ## C10: the greedy longest book match -/

/-- C10: the matcher of `handleSmartCat` records the match of the largest number `k` of
leading tokens whose lowercased concatenation is a key of the index, with the tokens
after them as remainder, and records nothing when no `k` matches.  When that `k` is at
least 2, `handleSmartCat` sets the Location to the segments of the indexed path, from
every Location, and reads the remainder there.  The paths of an index made by
`buildIndex` are never empty, and `handleSmartCat` prints nothing of its own (no
ambiguity report): its output is that of `doCat`. -/
theorem C10_greedy_longest_match :
    (∀ (idx : List (String × String)) (parts : List String),
      (∀ k, 1 ≤ k → k ≤ parts.length → ¬ matchesAt idx parts k) →
      greedyLoop idx parts 0 "" ⟨"", [], 0⟩ = ⟨"", [], 0⟩) ∧
    (∀ (idx : List (String × String)) (parts : List String) (k : Nat) (p : String),
      1 ≤ k → k ≤ parts.length → mapGet idx (concatLower (parts.take k)) = some p →
      (∀ j, k < j → j ≤ parts.length → ¬ matchesAt idx parts j) →
      greedyLoop idx parts 0 "" ⟨"", [], 0⟩ = ⟨p, parts.drop k, k⟩) ∧
    (∀ (e : Engine) (args : String) (k : Nat) (p : String),
      args ≠ "" → 2 ≤ k → k ≤ (Fields args).length →
      mapGet e.BookIndex (concatLower ((Fields args).take k)) = some p → p ≠ "" →
      (∀ j, k < j → j ≤ (Fields args).length → ¬ matchesAt e.BookIndex (Fields args) j) →
      handleSmartCat e args
        = ({ e with Path := Split (TrimPrefix p "/") "/" },
           doCat { e with Path := Split (TrimPrefix p "/") "/" }
             (Join ((Fields args).drop k) " "))) ∧
    (∀ (db : Bible) (k v : String), mapGet (buildIndex db) k = some v → v ≠ "") ∧
    (∀ (e : Engine) (args : String),
      ∃ a, (handleSmartCat e args).2 = doCat (handleSmartCat e args).1 a) := by
  have none_of : ∀ (idx : List (String × String)) (parts : List String) (j : Nat),
      ¬ matchesAt idx parts j → mapGet idx ("" ++ concatLower (parts.take j)) = none := by
    intro idx parts j h
    unfold matchesAt at h
    rw [String.empty_append]
    cases hc : mapGet idx (concatLower (parts.take j)) with
    | none => rfl
    | some v => rw [hc] at h; simp at h
  have last : ∀ (idx : List (String × String)) (parts : List String) (k : Nat) (p : String),
      1 ≤ k → k ≤ parts.length → mapGet idx (concatLower (parts.take k)) = some p →
      (∀ j, k < j → j ≤ parts.length → ¬ matchesAt idx parts j) →
      greedyLoop idx parts 0 "" ⟨"", [], 0⟩ = ⟨p, parts.drop k, k⟩ := by
    intro idx parts k p h1 h2 hk hl
    have := greedyLoop_last idx parts 0 "" ⟨"", [], 0⟩ k p h1 h2
      (by rw [String.empty_append]; exact hk)
      (fun j hj1 hj2 => none_of idx parts j (hl j hj1 hj2))
    simpa using this
  refine ⟨?_, last, ?_, ?_, ?_⟩
  · intro idx parts h
    exact greedyLoop_none idx parts 0 "" _ (fun j hj1 hj2 => none_of idx parts j (h j hj1 hj2))
  · intro e args k p ha hk2 hkl hk hp hl
    unfold handleSmartCat
    rw [if_neg ha]
    simp only
    rw [last e.BookIndex (Fields args) k p (by omega) hkl hk hl]
    simp only
    rw [if_pos ⟨hp, Or.inl (by omega)⟩]
    split_ifs with hlen
    · rfl
    · have hnil : (Fields args).drop k = [] := by
        apply List.eq_nil_of_length_eq_zero
        omega
      rw [hnil]
      rfl
  · intro db k v h
    exact indexValue_ne_empty db v (buildIndex_values db k v h)
  · intro e args
    unfold handleSmartCat
    simp only
    split_ifs <;> exact ⟨_, rfl⟩

/-- Witness for C10: at `/OT`, the tokens of `1 john 1:1` match the index with one
token (`1`) and with two (`1john`); the longer match wins and the Location becomes
`/NT/1 John`. -/
theorem C10_greedy_longest_match_witness :
    greedyLoop (buildIndex mockDB) ["1", "john", "1:1"] 0 "" ⟨"", [], 0⟩
      = ⟨"/NT/1 John", ["1:1"], 2⟩ ∧
    (handleSmartCat { New mockDB [] with Path := ["OT"] } "1 john 1:1").1.Path
      = ["NT", "1 John"] := by
  have hl : ∀ j, 2 < j → j ≤ 3 → ¬ matchesAt (buildIndex mockDB) ["1", "john", "1:1"] j := by
    intro j h1 h2
    obtain rfl : j = 3 := by omega
    unfold matchesAt
    decide
  refine ⟨C10_greedy_longest_match.2.1 (buildIndex mockDB) ["1", "john", "1:1"] 2
      "/NT/1 John" (by decide) (by decide) (by decide) hl, ?_⟩
  have hf : Fields "1 john 1:1" = ["1", "john", "1:1"] := by decide
  have := C10_greedy_longest_match.2.2.1 { New mockDB [] with Path := ["OT"] }
    "1 john 1:1" 2 "/NT/1 John" (by decide) (by decide) (by decide) (by decide)
    (by decide) (by rw [hf]; exact hl)
  rw [this]
  decide

/-! ## C11: local-chapter precedence -/

/-- C12: for clean references A and B (not blank, no `+`, no word `and` or `AND`, no
`|BREAK|`) and each of the separators `+`, `and`, `AND`, the command `cat A sep B`
gives the same final state and the same output as `cat A` followed by `cat B`. -/
theorem C12_multi_reference_decomposes (e : Engine) (A B sep : String)
    (hA : cleanRef A) (hB : cleanRef B) (hsep : sep = "+" ∨ sep = "and" ∨ sep = "AND") :
    RunCommand e ("cat " ++ A ++ " " ++ sep ++ " " ++ B)
      = runTwo e ("cat " ++ A) ("cat " ++ B) := by
  rw [RunCommand_cat_pair e A B sep hA hB hsep]
  unfold runTwo
  rw [RunCommand_cat_single e A hA]
  congr 1
  funext e1
  rw [RunCommand_cat_single e1 B hB]

/-- Witness for C12: from the root of the test corpus, `cat Genesis 1:1 + John 3:16`
is `cat Genesis 1:1` followed by `cat John 3:16`; it prints both verses and ends at
`/NT/John`. -/
theorem C12_multi_reference_decomposes_witness :
    RunCommand (New mockDB []) "cat Genesis 1:1 + John 3:16"
      = runTwo (New mockDB []) "cat Genesis 1:1" "cat John 3:16" ∧
    (RunCommand (New mockDB []) "cat Genesis 1:1 + John 3:16").1.Path = ["NT", "John"] ∧
    (RunCommand (New mockDB []) "cat Genesis 1:1 + John 3:16").2
      = some [Out.reading "Genesis" "1" "1", Out.verse 1 "In the beginning...", Out.blank,
          Out.reading "John" "3" "16", Out.verse 16 "For God so loved...", Out.blank] :=
  ⟨C12_multi_reference_decomposes (New mockDB []) "Genesis 1:1" "John 3:16" "+"
    (by decide) (by decide) (Or.inl rfl), by decide, by decide⟩

/-! ## C13: range rendering -/

/-- C13 (as stated, refuted): in a chapter that holds the verse 9223372036854775807,
the range from that verse to itself has no missing verse, yet after the verse the
counter wraps around and the read prints an end-of-chapter marker; and the range from
-1 to 3, written `-1-3`, is reported as an invalid range. -/
theorem C13_range_wraps_and_signed_endpoint :
    catSegment [("9223372036854775807", "x")] "9223372036854775807-9223372036854775807"
      = some [Out.verse 9223372036854775807 "x", Out.endOfChapter] ∧
    doCat { New { OT := [("B", [("1", [("9223372036854775807", "x")])])], NT := [] } []
              with Path := ["OT", "B", "1"] } "9223372036854775807-9223372036854775807"
      = some [Out.reading "B" "1" "9223372036854775807-9223372036854775807",
          Out.verse 9223372036854775807 "x", Out.endOfChapter, Out.blank] ∧
    Atoi "-1" = some (-1) ∧ Atoi "3" = some 3 ∧
    catSegment [("1", "a"), ("2", "b"), ("3", "c")] "-1-3" = some [Out.invalidRange "-1-3"] := by
  decide

/-- C13 (amended): for a segment that is, trimmed, `sa-sb` with both endpoints parsing
as integers `a` and `b` and written without a hyphen: if `m` is the least integer in
`[a, b]` whose decimal string is no verse key, the segment prints the verses `a` to
`m - 1` in ascending order and then one end-of-chapter marker; if every integer of
`[a, b]` is a verse key and `b` is below the largest `int`, it prints the verses `a`
to `b` and no marker; if `a > b` it prints nothing.  No error is reported. -/
theorem C13_range_rendering (chapter : Chapter) (rawSeg sa sb : String) (a b : Int)
    (hseg : TrimSpace rawSeg = sa ++ "-" ++ sb)
    (ha : Atoi sa = some a) (hb : Atoi sb = some b)
    (hsa : '-' ∉ sa.data) (hsb : '-' ∉ sb.data) :
    (∀ m : Int, a ≤ m → m ≤ b → mapGet chapter (Itoa m) = none →
      (∀ i : Int, a ≤ i → i < m → (mapGet chapter (Itoa i)).isSome = true) →
      catSegment chapter rawSeg
        = some (versesOut chapter a (m - a).toNat ++ [Out.endOfChapter])) ∧
    (b < 2 ^ 63 - 1 →
      (∀ i : Int, a ≤ i → i ≤ b → (mapGet chapter (Itoa i)).isSome = true) →
      catSegment chapter rawSeg = some (versesOut chapter a (b + 1 - a).toNat)) ∧
    (b < a → catSegment chapter rawSeg = some []) := by
  have hrange := catSegment_range chapter rawSeg sa sb []
    (by rw [hseg]; simp [String.data_append]) hsa hsb (Or.inl rfl) a b ha hb
  obtain ⟨ra1, ra2⟩ := Atoi_range sa a ha
  obtain ⟨rb1, rb2⟩ := Atoi_range sb b hb
  rw [hrange]
  refine ⟨?_, ?_, ?_⟩
  · intro m ham hmb hmiss hfound
    have hn : ((m - a).toNat : Int) = m - a := Int.toNat_of_nonneg (by omega)
    have hf : ∀ j : Nat, j < (m - a).toNat →
        (mapGet chapter (Itoa (a + j))).isSome = true :=
      fun j hj => hfound (a + j) (by omega) (by omega)
    have hlen := found_le_length chapter (m - a).toNat a ra1 (by omega) hf
    rw [rangeLoop_verses chapter (m - a).toNat (chapter.length + 1) a b hf (by omega)
      (by omega) (by omega)]
    rw [show chapter.length + 1 - (m - a).toNat = (chapter.length - (m - a).toNat) + 1 by omega,
      show a + ((m - a).toNat : Int) = m by omega, rangeLoop_missing chapter _ m b hmb hmiss]
  · intro hmax hfound
    by_cases hab : a ≤ b + 1
    · have hn : ((b + 1 - a).toNat : Int) = b + 1 - a := Int.toNat_of_nonneg (by omega)
      have hf : ∀ j : Nat, j < (b + 1 - a).toNat →
          (mapGet chapter (Itoa (a + j))).isSome = true :=
        fun j hj => hfound (a + j) (by omega) (by omega)
      have hlen := found_le_length chapter (b + 1 - a).toNat a ra1 (by omega) hf
      rw [rangeLoop_verses chapter (b + 1 - a).toNat (chapter.length + 1) a b hf (by omega)
        (by omega) (by omega)]
      rw [show a + ((b + 1 - a).toNat : Int) = b + 1 by omega,
        rangeLoop_past chapter _ (b + 1) b (by omega), List.append_nil]
    · have hn : (b + 1 - a).toNat = 0 := Int.toNat_eq_zero.2 (by omega)
      rw [hn, rangeLoop_past chapter _ a b (by omega)]
      rfl
  · intro hba
    rw [rangeLoop_past chapter _ a b hba]

/-- Witness for C13: verses 16 and 17, request `16-18`: verse 16, verse 17, then the
end-of-chapter marker. -/
theorem C13_range_rendering_witness :
    catSegment [("16", "For God so loved"), ("17", "...")] "16-18"
      = some [Out.verse 16 "For God so loved", Out.verse 17 "...", Out.endOfChapter] :=
  (C13_range_rendering [("16", "For God so loved"), ("17", "...")] "16-18" "16" "18" 16 18
    (by decide) (by decide) (by decide) (by decide) (by decide)).1 18 (by decide) (by decide)
    (by decide)
    (fun i h1 h2 => by
      have h : i = 16 ∨ i = 17 := by omega
      rcases h with rfl | rfl <;> decide)

/-! ## C14: per-segment error recovery -/

/-- C14 (as stated, refuted): in the hyphenated segment `1-2-bad` the last endpoint
does not parse as an integer, yet the segment prints the verses 1 and 2 and reports no
invalid range: the code reads the first two pieces between hyphens and ignores the
rest.  The segment `1-bad-2`, whose second piece does not parse, is reported. -/
theorem C14_trailing_piece_ignored :
    Atoi "bad" = none ∧
    catSegment [("1", "a"), ("2", "b")] "1-2-bad"
      = some [Out.verse 1 "a", Out.verse 2 "b"] ∧
    catSegment [("1", "a"), ("2", "b")] "1-bad-2" = some [Out.invalidRange "1-bad-2"] := by
  decide

/-- C14 (amended): the segments of a comma-separated verse selector are handled one
after the other and each always gives an output, so the output of the selector is the
outputs of its segments in their order between the header and the closing blank line,
and the segments after a failing one are still handled; a hyphenated segment in which
the piece before the first hyphen, or the piece between the first hyphen and the next
one (or the end of the segment), does not parse as an integer gives an invalid-range
report for that segment; a segment without hyphen that is no verse key
gives a verse-not-found report; and a read without a book match leaves the engine, and
so the Location, as it was. -/
theorem C14_segment_error_recovery (chapter : Chapter) :
    (∀ segs : List String,
      catSegments chapter segs
        = some (segs.map fun s => (catSegment chapter s).getD []).flatten) ∧
    (∀ s : String, (catSegment chapter s).isSome = true) ∧
    (∀ (bName chapNum verseArgs : String) (book : Book),
      mapGet book chapNum = some chapter → verseArgs ≠ "" →
      catChapter bName book chapNum verseArgs
        = some (Out.reading bName chapNum verseArgs ::
            ((Split verseArgs ",").map fun s => (catSegment chapter s).getD []).flatten
              ++ [Out.blank])) ∧
    (∀ rawSeg x y tail : String, TrimSpace rawSeg = x ++ "-" ++ y ++ tail →
      '-' ∉ x.data → '-' ∉ y.data → (tail = "" ∨ HasPrefix tail "-" = true) →
      (Atoi x = none ∨ Atoi y = none) →
      catSegment chapter rawSeg = some [Out.invalidRange (TrimSpace rawSeg)]) ∧
    (∀ rawSeg : String, TrimSpace rawSeg ≠ "" → Contains (TrimSpace rawSeg) "-" = false →
      mapGet chapter (TrimSpace rawSeg) = none →
      catSegment chapter rawSeg = some [Out.verseNotFound (TrimSpace rawSeg)]) ∧
    (∀ (e : Engine) (args : String),
      (∀ j, 1 ≤ j → j ≤ (Fields args).length → ¬ matchesAt e.BookIndex (Fields args) j) →
      (handleSmartCat e args).1 = e) := by
  refine ⟨catSegments_eq chapter, catSegment_isSome chapter, ?_, ?_, ?_, ?_⟩
  · intro bName chapNum verseArgs book hch hv
    unfold catChapter
    rw [hch]
    simp only
    rw [if_neg hv, catSegments_eq]
  · intro rawSeg x y tail hseg hx hy ht hbad
    refine catSegment_invalid chapter rawSeg x y tail.data ?_ hx hy ?_ hbad
    · rw [hseg]
      simp [String.data_append]
    · rcases ht with rfl | ht
      · exact Or.inl rfl
      · right
        unfold HasPrefix at ht
        cases hd : tail.data with
        | nil => rw [hd] at ht; simp [List.isPrefixOf] at ht
        | cons c t =>
          rw [hd] at ht
          simp only [List.isPrefixOf, Bool.and_true, beq_iff_eq] at ht
          exact ⟨t, by rw [ht]⟩
  · intro rawSeg hne hc hmiss
    unfold catSegment
    dsimp only
    rw [if_neg hne, hc, hmiss]
    simp
  · intro e args h
    rw [handleSmartCat_no_match e args h]

/-- Witness for C14: at `/NT/John`, `3:16-bad,99,16` reports the invalid range, then
the missing verse, then prints verse 16, and the Location stays `/NT/John`. -/
theorem C14_segment_error_recovery_witness :
    catSegment [("16", "For God so loved...")] "16-bad" = some [Out.invalidRange "16-bad"] ∧
    catSegment [("16", "For God so loved...")] "99" = some [Out.verseNotFound "99"] ∧
    handleSmartCat { New mockDB [] with Path := ["NT", "John"] } "3:16-bad,99,16"
      = ({ New mockDB [] with Path := ["NT", "John"] },
          some [Out.reading "John" "3" "16-bad,99,16", Out.invalidRange "16-bad",
            Out.verseNotFound "99", Out.verse 16 "For God so loved...", Out.blank]) :=
  ⟨(C14_segment_error_recovery [("16", "For God so loved...")]).2.2.2.1
      "16-bad" "16" "bad" "" (by decide) (by decide) (by decide) (Or.inl rfl)
      (Or.inr (by decide)),
   (C14_segment_error_recovery [("16", "For God so loved...")]).2.2.2.2.1
      "99" (by decide) (by decide) (by decide),
   by decide⟩

/-! ## C15: the bookmark round trip -/

/-- C15 (the code departs from the claim): when the bookmark file holds the JSON value
`null`, the map of bookmarks is nil and a `mark` with a name panics on the assignment
to the map, in every such state; in a session on the test corpus started that way,
`mark n` at `/OT/Genesis` panics and stores nothing, so a `goto n` finds no bookmark.
When the map is not nil the round trip holds: a bookmark saved at a location whose
segments hold no `/` and not saved again under the same name brings `goto` or `jump`
back to that location, whatever was done in between, and the location held just before
the jump becomes the snapshot. -/
theorem C15_mark_panics_on_nil_map :
    (∀ (e : Engine) (n markCmd : String), e.BookmarksNil = true → n ≠ "" →
      marksName markCmd n → RunCommand e markCmd = (e, none)) ∧
    runAll (NewNil mockDB) ["cd /OT/Genesis", "mark n"]
      = ({ NewNil mockDB with Path := ["OT", "Genesis"] }, false) ∧
    RunCommand { NewNil mockDB with Path := ["OT", "Genesis"] } "mark n"
      = ({ NewNil mockDB with Path := ["OT", "Genesis"] }, none) ∧
    RunCommand { NewNil mockDB with Path := ["OT", "Genesis"] } "goto n"
      = ({ NewNil mockDB with Path := ["OT", "Genesis"] }, some [Out.bookmarkNotFound "n"]) ∧
    (RunCommand (runAll (RunCommand
        { New mockDB [] with Path := ["OT", "Genesis"] } "mark testgen").1
        ["cd /NT", "mark other"]).1 "goto testgen").1.Path = ["OT", "Genesis"] ∧
    (∀ (e : Engine) (n markCmd gotoCmd : String) (cmds : List String),
      e.BookmarksNil = false → (∀ s ∈ e.Path, noSlash s) → e.Path ≠ [""] → n ≠ "" →
      marksName markCmd n → (∀ c ∈ cmds, ¬ marksName c n) → jumpsTo gotoCmd n →
      (RunCommand e markCmd).2 = some [Out.marked n ("/" ++ Join e.Path "/")] ∧
      (RunCommand e markCmd).1.Path = e.Path ∧
      (RunCommand (runAll (RunCommand e markCmd).1 cmds).1 gotoCmd).1.Path = e.Path ∧
      (RunCommand (runAll (RunCommand e markCmd).1 cmds).1 gotoCmd).1.PrevPath
        = (runAll (RunCommand e markCmd).1 cmds).1.Path ∧
      (RunCommand (runAll (RunCommand e markCmd).1 cmds).1 gotoCmd).2 = some []) := by
  have hround : ∀ (e : Engine) (n markCmd gotoCmd : String) (cmds : List String),
      e.BookmarksNil = false → (∀ s ∈ e.Path, noSlash s) → e.Path ≠ [""] → n ≠ "" →
      marksName markCmd n → (∀ c ∈ cmds, ¬ marksName c n) → jumpsTo gotoCmd n →
      (RunCommand e markCmd).2 = some [Out.marked n ("/" ++ Join e.Path "/")] ∧
      (RunCommand e markCmd).1.Path = e.Path ∧
      (RunCommand (runAll (RunCommand e markCmd).1 cmds).1 gotoCmd).1.Path = e.Path ∧
      (RunCommand (runAll (RunCommand e markCmd).1 cmds).1 gotoCmd).1.PrevPath
        = (runAll (RunCommand e markCmd).1 cmds).1.Path ∧
      (RunCommand (runAll (RunCommand e markCmd).1 cmds).1 gotoCmd).2 = some [] := by
    intro e n markCmd gotoCmd cmds hnil hslash hne hn hmark hcmds hgoto
    rw [RunCommand_mark e markCmd n hmark hn, saveBookmark_ok e n hnil]
    have hb : mapGet (runAll
        { e with Bookmarks := mapSet e.Bookmarks n ("/" ++ Join e.Path "/") }
        cmds).1.Bookmarks n = some ("/" ++ Join e.Path "/") := by
      rw [runAll_bookmark_keep cmds _ n hcmds]
      exact (mapGet_mapSet _ _ _ _).trans (if_pos rfl)
    rw [RunCommand_goto _ gotoCmd n hgoto]
    obtain ⟨h1, h2, h3⟩ := goToBookmark_pathString _ n e.Path hslash hne hb
    exact ⟨rfl, rfl, h1, h2, by rw [h3]⟩
  refine ⟨?_, by decide, by decide, by decide, ?_, hround⟩
  · intro e n markCmd hnil hn hmark
    rw [RunCommand_mark e markCmd n hmark hn, saveBookmark_nil e n hnil]
  · exact (hround { New mockDB [] with Path := ["OT", "Genesis"] } "testgen"
      "mark testgen" "goto testgen" ["cd /NT", "mark other"]
      rfl (by decide) (by decide) (by decide) (by decide) (by decide) (by decide)).2.2.1

/-! ## C16: the contract of `cd -` -/

/-- C16: `cd -` with an empty previous location (none was ever recorded) reports
no-history and leaves the engine as it is; with a non-root previous location it sets
the Location to the old previous location and the previous location to the old
Location. -/
theorem C16_cd_dash_contract (e : Engine) :
    (e.PrevPath = [] → doCD e "-" = (e, [Out.noHistory])) ∧
    (e.PrevPath ≠ [] →
      doCD e "-" = ({ e with Path := e.PrevPath, PrevPath := e.Path }, [])) := by
  constructor
  · intro h
    unfold doCD
    rw [if_neg (by decide), if_pos rfl, if_pos (by simp [h])]
  · intro h
    unfold doCD
    rw [if_neg (by decide), if_pos rfl, if_neg (by simpa using h)]

/-- Witness for C16: a fresh engine has no history; after `cd /OT/Genesis` from `/NT`
the previous location is `/NT`, and `cd -` swaps the two. -/
theorem C16_cd_dash_contract_witness :
    doCD (New mockDB []) "-" = (New mockDB [], [Out.noHistory]) ∧
    doCD { New mockDB [] with Path := ["OT", "Genesis"], PrevPath := ["NT"] } "-"
      = ({ New mockDB [] with Path := ["NT"], PrevPath := ["OT", "Genesis"] }, []) :=
  ⟨(C16_cd_dash_contract (New mockDB [])).1 rfl,
   (C16_cd_dash_contract
      { New mockDB [] with Path := ["OT", "Genesis"], PrevPath := ["NT"] }).2 (by decide)⟩

/-! ## C17: the snapshot before a jump -/

/-- C17 (the code departs from the claim): `cd /` is an absolute move, yet `doCD`
returns from the branch of the empty argument and `/` before `saveHistory` is called,
so in every state the previous location stays what it was.  At `/OT/Genesis` in a
session without previous location, `cd /` followed by `cd -` prints `No history.` and
stays at the root; and after `cd /NT`, `cd /OT/Genesis`, `cd /`, the previous location
is still `/NT`, so `cd -` leads to `/NT` and not back to `/OT/Genesis`.  Every other
jump takes the snapshot: a `cd` whose argument begins with `/` and is not `/` alone, a
`cd` of a bare token (a local step or a teleport), and a `goto` of an existing
bookmark set the previous location to the Location held before the command. -/
theorem C17_cd_root_takes_no_snapshot :
    (∀ e : Engine, doCD e "/" = ({ e with Path := [] }, []) ∧
      (doCD e "/").1.PrevPath = e.PrevPath) ∧
    RunCommand { New mockDB [] with Path := ["OT", "Genesis"] } "cd /"
      = ({ New mockDB [] with Path := [] }, some []) ∧
    RunCommand { New mockDB [] with Path := [] } "cd -"
      = ({ New mockDB [] with Path := [] }, some [Out.noHistory]) ∧
    (runAll (New mockDB []) ["cd /NT", "cd /OT/Genesis", "cd /"]).1
      = { New mockDB [] with Path := [], PrevPath := ["NT"] } ∧
    (runAll (New mockDB []) ["cd /NT", "cd /OT/Genesis", "cd /", "cd -"]).1.Path = ["NT"] ∧
    (∀ (e : Engine) (arg : String), HasPrefix arg "/" = true → arg ≠ "/" →
      (doCD e arg).1.PrevPath = e.Path) ∧
    (∀ (e : Engine) (arg : String), arg ≠ "" → arg ≠ "-" → arg ≠ ".." →
      HasPrefix arg "/" = false → (doCD e arg).1.PrevPath = e.Path) ∧
    (∀ (e : Engine) (name target : String), mapGet e.Bookmarks name = some target →
      (goToBookmark e name).1.PrevPath = e.Path) := by
  refine ⟨?_, by decide, by decide, by decide, by decide, ?_, ?_, ?_⟩
  · intro e
    have h : doCD e "/" = ({ e with Path := [] }, []) := by
      unfold doCD
      rw [if_pos (Or.inr rfl)]
    rw [h]
    exact ⟨rfl, rfl⟩
  · intro e arg habs hroot
    have h1 : arg ≠ "" := by rintro rfl; revert habs; decide
    have h3 : arg ≠ "-" := by rintro rfl; revert habs; decide
    have h4 : arg ≠ ".." := by rintro rfl; revert habs; decide
    exact doCD_prevPath e arg h1 hroot h3 h4
  · intro e arg h1 h3 h4 h5
    have h2 : arg ≠ "/" := by rintro rfl; revert h5; decide
    exact doCD_prevPath e arg h1 h2 h3 h4
  · intro e name target h
    unfold goToBookmark
    rw [h]
    dsimp only
    split_ifs <;> rfl

/-! ## C18: resolution of a bare `cd` token -/

/-- C18: for a bare `cd` token (not empty, not `..`, not `-`, not starting with `/`):
when the token names a child of the current Location, the new Location is the old one
extended by such a child key, whatever the index holds; otherwise, when the token,
lowercased and without spaces, is a key of the index, the new Location is the segments
of the indexed path; otherwise the Location is unchanged and the path is reported as
not found. -/
theorem C18_bare_token_resolution (e : Engine) (arg : String) (h1 : arg ≠ "")
    (h3 : arg ≠ "-") (h4 : arg ≠ "..") (h5 : HasPrefix arg "/" = false) :
    ((∃ k, childKey e arg k) →
      ∃ k, childKey e arg k ∧ (doCD e arg).1.Path = e.Path ++ [k] ∧ (doCD e arg).2 = []) ∧
    ((¬ ∃ k, childKey e arg k) → ∀ p : String,
      mapGet e.BookIndex (ToLower (ReplaceAll arg " " "")) = some p →
      (doCD e arg).1.Path = Split (TrimPrefix p "/") "/" ∧ (doCD e arg).2 = []) ∧
    ((¬ ∃ k, childKey e arg k) →
      mapGet e.BookIndex (ToLower (ReplaceAll arg " " "")) = none →
      (doCD e arg).1.Path = e.Path ∧ (doCD e arg).2 = [Out.pathNotFound arg]) := by
  have hcd := doCD_bare e arg h1 h3 h4 h5
  refine ⟨?_, ?_, ?_⟩
  · rintro ⟨k, hk⟩
    have hacc : (tryLocalStep (saveHistory e) arg).2 = true :=
      tryLocalStep_of_child (saveHistory e) arg k hk
    obtain ⟨k2, hpath, hchild⟩ := tryLocalStep_child (saveHistory e) arg hacc
    refine ⟨k2, hchild, ?_⟩
    rw [hcd]
    split
    next e2 heq => rw [heq] at hpath; exact ⟨hpath, rfl⟩
    next e2 heq => rw [heq] at hacc; simp at hacc
  · intro hno p hp
    have hrej : (tryLocalStep (saveHistory e) arg).2 = false := by
      cases hb : (tryLocalStep (saveHistory e) arg).2 with
      | false => rfl
      | true =>
        obtain ⟨k, _, hk⟩ := tryLocalStep_child (saveHistory e) arg hb
        exact absurd ⟨k, hk⟩ hno
    have hsame := tryLocalStep_fail (saveHistory e) arg hrej
    rw [hcd]
    split
    next e2 heq => rw [heq] at hrej; simp at hrej
    next e2 heq =>
      rw [heq] at hsame
      simp only at hsame
      subst hsame
      unfold tryTeleport
      dsimp only
      rw [show (saveHistory e).BookIndex = e.BookIndex from rfl, hp]
      exact ⟨rfl, rfl⟩
  · intro hno hp
    have hrej : (tryLocalStep (saveHistory e) arg).2 = false := by
      cases hb : (tryLocalStep (saveHistory e) arg).2 with
      | false => rfl
      | true =>
        obtain ⟨k, _, hk⟩ := tryLocalStep_child (saveHistory e) arg hb
        exact absurd ⟨k, hk⟩ hno
    have hsame := tryLocalStep_fail (saveHistory e) arg hrej
    rw [hcd]
    split
    next e2 heq => rw [heq] at hrej; simp at hrej
    next e2 heq =>
      rw [heq] at hsame
      simp only at hsame
      subst hsame
      unfold tryTeleport
      dsimp only
      rw [show (saveHistory e).BookIndex = e.BookIndex from rfl, hp]
      exact ⟨rfl, rfl⟩

/-- Witness for C18: at `/OT/Genesis`, `cd 1` steps into chapter 1 although the index
maps `1` to `/NT/1 John`; at `/OT`, `cd john` names no book of OT and teleports to
`/NT/John`; `cd fakebook` at `/OT` stays at `/OT`. -/
theorem C18_bare_token_resolution_witness :
    mapGet (buildIndex mockDB) "1" = some "/NT/1 John" ∧
    (∃ k, childKey { New mockDB [] with Path := ["OT", "Genesis"] } "1" k ∧
      (doCD { New mockDB [] with Path := ["OT", "Genesis"] } "1").1.Path
        = ["OT", "Genesis"] ++ [k] ∧
      (doCD { New mockDB [] with Path := ["OT", "Genesis"] } "1").2 = []) ∧
    ((doCD { New mockDB [] with Path := ["OT"] } "john").1.Path
        = Split (TrimPrefix "/NT/John" "/") "/" ∧
      (doCD { New mockDB [] with Path := ["OT"] } "john").2 = []) ∧
    ((doCD { New mockDB [] with Path := ["OT"] } "fakebook").1.Path = ["OT"] ∧
      (doCD { New mockDB [] with Path := ["OT"] } "fakebook").2
        = [Out.pathNotFound "fakebook"]) := by
  have hno : ∀ tok : String, (tryLocalStep { New mockDB [] with Path := ["OT"] } tok).2 = false →
      ¬ ∃ k, childKey { New mockDB [] with Path := ["OT"] } tok k := by
    rintro tok hf ⟨k, hk⟩
    rw [tryLocalStep_of_child _ tok k hk] at hf
    exact Bool.noConfusion hf
  refine ⟨by decide, ?_, ?_, ?_⟩
  · exact (C18_bare_token_resolution { New mockDB [] with Path := ["OT", "Genesis"] } "1"
      (by decide) (by decide) (by decide) (by decide)).1
      ⟨"1", rfl, [("1", [("1", "In the beginning...")])], by decide, by decide⟩
  · exact (C18_bare_token_resolution { New mockDB [] with Path := ["OT"] } "john"
      (by decide) (by decide) (by decide) (by decide)).2.1 (hno "john" (by decide))
      "/NT/John" (by decide)
  · exact (C18_bare_token_resolution { New mockDB [] with Path := ["OT"] } "fakebook"
      (by decide) (by decide) (by decide) (by decide)).2.2 (hno "fakebook" (by decide))
      (by decide)

/-! ## C19: the hard-coded keys -/

/-- C19: the index maps `ot` to `/OT` and `nt` to `/NT`, and for each alias pair (mt,
matthew), (mk, mark), (lk, luke), (jn, john), (php, philippians): when exactly one book
of the corpus has the normalized name, the alias key is mapped to the absolute path of
that book, whatever the other books are called. -/
theorem C19_hard_coded_keys (db : Bible) :
    mapGet (buildIndex db) "ot" = some "/OT" ∧
    mapGet (buildIndex db) "nt" = some "/NT" ∧
    ∀ k w : String, (k, w) ∈ aliasTable → ∀ T B : String, booksNamed db w = [(T, B)] →
      mapGet (buildIndex db) k = some ("/" ++ T ++ "/" ++ B) := by
  have hlo : ToLower "OT" = "ot" := by decide
  have hln : ToLower "NT" = "nt" := by decide
  have noAlias : ∀ key : String, key = "ot" ∨ key = "nt" →
      ∀ n : String, ∀ kw ∈ aliasTable, kw.1 = key → normName n ≠ kw.2 := by
    intro key hkey n kw hm hk
    exfalso
    rcases hkey with rfl | rfl
    · revert kw; decide
    · revert kw; decide
  refine ⟨?_, ?_, ?_⟩
  · unfold buildIndex indexTestament
    rw [hlo, hln]
    apply foldl_indexBook_keep _ _ _ _ _ _ (fun n _ => noAlias "ot" (Or.inl rfl) n)
    rw [mapGet_mapSet_ne _ _ _ _ (by decide)]
    apply foldl_indexBook_keep _ _ _ _ _ _ (fun n _ => noAlias "ot" (Or.inl rfl) n)
    rw [mapGet_mapSet, if_pos rfl]
    rfl
  · unfold buildIndex indexTestament
    rw [hlo, hln]
    apply foldl_indexBook_keep _ _ _ _ _ _ (fun n _ => noAlias "nt" (Or.inr rfl) n)
    rw [mapGet_mapSet, if_pos rfl]
    rfl
  · intro k w hkw T B hone
    have hknt : "nt" ≠ k := by
      have hall : ∀ kw ∈ aliasTable, kw.1 ≠ "nt" := by decide
      exact fun h => hall (k, w) hkw h.symm
    unfold booksNamed at hone
    have keepOther : ∀ names : List String,
        (names.filter fun n => normName n = w) = [] →
        ∀ n ∈ names, ∀ kw ∈ aliasTable, kw.1 = k → normName n ≠ kw.2 := by
      intro names hnil n hn kw hm hk
      rw [aliasTable_functional kw hm (k, w) hkw hk]
      have := List.filter_eq_nil_iff.1 hnil n hn
      simpa using this
    cases hot : (db.OT.map Prod.fst).filter fun n => normName n = w with
    | nil =>
      rw [hot] at hone
      simp only [List.map_nil, List.nil_append] at hone
      cases hnt : (db.NT.map Prod.fst).filter fun n => normName n = w with
      | nil => rw [hnt] at hone; simp at hone
      | cons b rest =>
        rw [hnt] at hone
        simp only [List.map_cons, List.cons.injEq, Prod.mk.injEq, List.map_eq_nil_iff] at hone
        obtain ⟨⟨rfl, rfl⟩, rfl⟩ := hone
        have hs := sorted_filter_eq db.NT (fun n => normName n = w) [b] hnt (by simp)
        unfold buildIndex indexTestament
        exact foldl_indexBook_alias "NT" _ _ k w b hkw hs
    | cons b rest =>
      rw [hot] at hone
      simp only [List.map_cons, List.cons_append, List.cons.injEq, Prod.mk.injEq,
        List.append_eq_nil, List.map_eq_nil_iff] at hone
      obtain ⟨⟨rfl, rfl⟩, rfl, hnt⟩ := hone
      have hs := sorted_filter_eq db.OT (fun n => normName n = w) [b] hot (by simp)
      have hs2 := sorted_filter_eq db.NT (fun n => normName n = w) [] hnt (by simp)
      unfold buildIndex indexTestament
      apply foldl_indexBook_keep _ _ _ _ _ _ (keepOther _ hs2)
      rw [hln, mapGet_mapSet_ne _ _ _ _ hknt]
      exact foldl_indexBook_alias "OT" _ _ k w b hkw hs

/-- Witness for C19: on the test corpus Matthew and John are the only books of their
names, so `mt` and `jn` lead to them. -/
theorem C19_hard_coded_keys_witness :
    mapGet (buildIndex mockDB) "mt" = some "/NT/Matthew" ∧
    mapGet (buildIndex mockDB) "jn" = some "/NT/John" :=
  ⟨(C19_hard_coded_keys mockDB).2.2 "mt" "matthew" (by decide) "NT" "Matthew" (by decide),
   (C19_hard_coded_keys mockDB).2.2 "jn" "john" (by decide) "NT" "John" (by decide)⟩

/-! ## C20: teleport is location-independent and idempotent -/

/-- C20: whether `tryTeleport` accepts a token, and where it lands, depends on the
index alone, not on the starting Location; a second teleport with the same token lands
where the first did. -/
theorem C20_teleport_independent_idempotent (e1 e2 : Engine) (token : String)
    (hidx : e1.BookIndex = e2.BookIndex) :
    (tryTeleport e1 token).2 = (tryTeleport e2 token).2 ∧
    ((tryTeleport e1 token).2 = true →
      (tryTeleport e1 token).1.Path = (tryTeleport e2 token).1.Path) ∧
    ((tryTeleport e1 token).2 = true →
      (tryTeleport (tryTeleport e1 token).1 token).2 = true ∧
      (tryTeleport (tryTeleport e1 token).1 token).1.Path = (tryTeleport e1 token).1.Path) ∧
    ((tryTeleport e1 token).2 = false → (tryTeleport e1 token).1 = e1) := by
  unfold tryTeleport
  dsimp only
  rw [hidx]
  cases h : mapGet e2.BookIndex (ToLower (ReplaceAll token " " "")) with
  | none => simp
  | some p => simp [h]

/-- Witness for C20: the token `john` teleports to `/NT/John` from the root and from
`/OT/Genesis/1` alike, and a second time from `/NT/John`. -/
theorem C20_teleport_independent_idempotent_witness :
    (tryTeleport (New mockDB []) "john").1.Path
      = (tryTeleport { New mockDB [] with Path := ["OT", "Genesis", "1"] } "john").1.Path ∧
    (tryTeleport (tryTeleport (New mockDB []) "john").1 "john").1.Path
      = (tryTeleport (New mockDB []) "john").1.Path :=
  ⟨(C20_teleport_independent_idempotent (New mockDB [])
      { New mockDB [] with Path := ["OT", "Genesis", "1"] } "john" rfl).2.1 (by decide),
   ((C20_teleport_independent_idempotent (New mockDB []) (New mockDB []) "john" rfl).2.2.1
      (by decide)).2⟩

/-! ## C21: the scope and the count of the search -/

/-- C22: for a book `B` of testament `T` whose name holds no `/` and whose normalized
name is not empty, is none of the hard-coded keys and is taken by no other book: the
index maps the normalized name to `/T/B`; a teleport with a token of the same
normalized name (the name of `B` in any letter case and spacing) sets the Location to
`[T, B]` from every state; and so does `cd` with such a token wherever the token names
no child of the current Location. -/
theorem C22_book_reachable_by_full_name (db : Bible) (T B : String)
    (hB : (T = "OT" ∧ B ∈ db.OT.map Prod.fst) ∨ (T = "NT" ∧ B ∈ db.NT.map Prod.fst))
    (hs : noSlash B) (hne : normName B ≠ "") (hk : normName B ∉ hardKeys)
    (hown : ownsFullName db T B) :
    mapGet (buildIndex db) (normName B) = some ("/" ++ T ++ "/" ++ B) ∧
    (∀ (e : Engine) (token : String), e.BookIndex = buildIndex db →
      normName token = normName B →
      tryTeleport e token = ({ e with Path := [T, B] }, true)) ∧
    (∀ (e : Engine) (token : String), e.BookIndex = buildIndex db →
      normName token = normName B →
      token ≠ "" → token ≠ "-" → token ≠ ".." → HasPrefix token "/" = false →
      (¬ ∃ k, childKey e token k) →
      (doCD e token).1.Path = [T, B] ∧ (doCD e token).2 = []) := by
  have hidx := buildIndex_full_name db T B hB hne hk hown
  have hT : T = "OT" ∨ T = "NT" := hB.elim (fun h => Or.inl h.1) (fun h => Or.inr h.1)
  have htel : ∀ (e : Engine) (token : String), e.BookIndex = buildIndex db →
      normName token = normName B →
      tryTeleport e token = ({ e with Path := [T, B] }, true) := by
    intro e token he ht
    unfold tryTeleport
    dsimp only
    rw [ToLower_strip, ht, he, hidx]
    simp only
    rw [bookPath_segments T B hT hs]
  refine ⟨hidx, htel, ?_⟩
  intro e token he ht h1 h3 h4 h5 hno
  have hrej : (tryLocalStep (saveHistory e) token).2 = false := by
    cases hb : (tryLocalStep (saveHistory e) token).2 with
    | false => rfl
    | true =>
      obtain ⟨k, _, hk2⟩ := tryLocalStep_child (saveHistory e) token hb
      exact absurd ⟨k, hk2⟩ hno
  have hsame := tryLocalStep_fail (saveHistory e) token hrej
  have ht2 := htel (saveHistory e) token he ht
  rw [doCD_bare e token h1 h3 h4 h5]
  split
  next e2 heq => rw [heq] at hrej; simp at hrej
  next e2 heq =>
    rw [heq] at hsame
    simp only at hsame
    rw [hsame, ht2]
    exact ⟨rfl, rfl⟩

/-- Witness for C22: on the test corpus `1john` is the full normalized name of
`1 John`, and `cd 1john` from the root and `cd john` from `/OT` lead to the books. -/
theorem C22_book_reachable_by_full_name_witness :
    mapGet (buildIndex mockDB) "1john" = some "/NT/1 John" ∧
    (doCD (New mockDB []) "1john").1.Path = ["NT", "1 John"] ∧
    (doCD { New mockDB [] with Path := ["OT"] } "john").1.Path = ["NT", "John"] :=
  ⟨(C22_book_reachable_by_full_name mockDB "NT" "1 John" (Or.inr ⟨rfl, by decide⟩)
      (by decide) (by decide) (by decide) (by decide)).1,
   by decide, by decide⟩

/-! ## C23: step-out -/

/-- C23: `cd ..` removes the last segment of the Location and changes nothing else, in
`doCD` and through `RunCommand`; a Location `init ++ [s]` becomes `init`, and at the
root the engine stays as it is.  Nothing is printed. -/
theorem C23_step_out (e : Engine) :
    doCD e ".." = ({ e with Path := e.Path.dropLast }, []) ∧
    RunCommand e "cd .." = ({ e with Path := e.Path.dropLast }, some []) ∧
    (∀ (init : List String) (s : String), e.Path = init ++ [s] →
      (doCD e "..").1.Path = init) ∧
    (e.Path = [] → (doCD e "..").1 = e) := by
  have h1 : doCD e ".." = ({ e with Path := e.Path.dropLast }, []) := by
    unfold doCD
    rw [if_neg (by decide), if_neg (by decide), if_pos rfl]
    by_cases hp : e.Path.length > 0
    · rw [if_pos hp, List.dropLast_eq_take]
    · rw [if_neg hp]
      have : e.Path = [] := List.length_eq_zero.1 (by omega)
      rw [this]
      cases e
      simp_all
  refine ⟨h1, ?_, ?_, ?_⟩
  · rw [RunCommand_cd e "cd .." [".."] (by decide)]
    have : Join [".."] " " = ".." := rfl
    rw [this, h1]
  · intro init s hp
    rw [h1, hp]
    simp
  · intro hp
    rw [h1, hp]
    cases e
    simp_all

/-- Witness for C23: from `/OT/Genesis/1` the step-out leads to `/OT/Genesis`, and from
the root to the root. -/
theorem C23_step_out_witness :
    (doCD { New mockDB [] with Path := ["OT", "Genesis", "1"] } "..").1.Path
      = ["OT", "Genesis"] ∧
    (doCD (New mockDB []) "..").1 = New mockDB [] :=
  ⟨(C23_step_out { New mockDB [] with Path := ["OT", "Genesis", "1"] }).2.2.1
      ["OT", "Genesis"] "1" rfl,
   (C23_step_out (New mockDB [])).2.2.2 rfl⟩

/-! ## C24: the prompt string and the absolute `cd` -/

/-- C24 (as stated, refuted): a corpus whose NT holds the books `s` and long s (U+017F)
has keys that are not empty and hold no `/`, and the two normalized names are distinct,
since the lower-case form of the long s is the long s itself; the Location of the book
long s is valid and its path string is `/NT/` followed by the long s; yet the `cd` to
that path string ends in the book `s`, because `enterBook` compares under case folding,
which equates the two names, and stops at `s` when the map is visited with `s` first.
When the map is visited with the long s first, the `cd` to `/NT/s` ends in the book
long s: in either order one of the two books is not reached by its path string. -/
theorem C24_long_s_lands_on_other_book :
    slashFreeKeys longSDB ∧ nonEmptyKeys longSDB ∧ distinctNormNames longSDB ∧
    validLocation (New longSDB []) ["NT", "\u017F"] ∧
    GetPathString { New longSDB [] with Path := ["NT", "\u017F"] } = "/NT/\u017F" ∧
    (doCD (New longSDB []) "/NT/\u017F").1.Path = ["NT", "s"] ∧
    distinctNormNames longSRevDB ∧
    validLocation (New longSRevDB []) ["NT", "s"] ∧
    (doCD (New longSRevDB []) "/NT/s").1.Path = ["NT", "\u017F"] :=
  ⟨by unfold slashFreeKeys; decide, by unfold nonEmptyKeys; decide,
   by unfold distinctNormNames; decide, ⟨Or.inr rfl, by decide⟩, by decide, by decide,
   by unfold distinctNormNames; decide, ⟨Or.inr rfl, by decide⟩, by decide⟩

/-- C24 (amended): the path string of the root is `/` and that of a Location is `/`
followed by its segments joined with `/`; and in a corpus whose book and chapter keys
are not empty and hold no `/`, whose book keys are ASCII text, and whose books have
pairwise distinct normalized names within each testament, a `cd` to the path string of
a valid Location `L` ends at `L` and prints nothing, from every state. -/
theorem C24_prompt_round_trip (e : Engine) (L : List String)
    (hslash : slashFreeKeys e.DB) (hne : nonEmptyKeys e.DB) (hascii : asciiBookKeys e.DB)
    (hdist : distinctNormNames e.DB) (hL : validLocation e L) :
    GetPathString { e with Path := [] } = "/" ∧
    GetPathString { e with Path := L } = "/" ++ Join L "/" ∧
    (doCD e (GetPathString { e with Path := L })).1.Path = L ∧
    (doCD e (GetPathString { e with Path := L })).2 = [] := by
  refine ⟨rfl, rfl, ?_⟩
  show (doCD e ("/" ++ Join L "/")).1.Path = L ∧ (doCD e ("/" ++ Join L "/")).2 = []
  by_cases hnil : L = []
  · subst hnil
    have : doCD e ("/" ++ Join [] "/") = ({ e with Path := [] }, []) := by
      rw [show ("/" ++ Join [] "/" : String) = "/" from rfl]
      unfold doCD
      rw [if_pos]
      exact Or.inr rfl
    rw [this]
    exact ⟨rfl, rfl⟩
  · rw [doCD_pathString e L hnil (validLocation_noSlash e hslash L hL)
      (validLocation_nonEmpty e hne L hL)]
    exact walkParts_valid _ L rfl hne hascii hdist
      ((validLocation_congr e { saveHistory e with Path := [] } rfl L).2 hL)

/-- Witness for C24: on the test corpus, `cd /NT/1 John/1` from `/OT/Genesis` ends at
`/NT/1 John/1`. -/
theorem C24_prompt_round_trip_witness :
    (doCD { New mockDB [] with Path := ["OT", "Genesis"] } "/NT/1 John/1").1.Path
      = ["NT", "1 John", "1"] :=
  (C24_prompt_round_trip { New mockDB [] with Path := ["OT", "Genesis"] }
    ["NT", "1 John", "1"] (by unfold slashFreeKeys; decide) (by unfold nonEmptyKeys; decide)
    (by unfold asciiBookKeys; decide) (by unfold distinctNormNames; decide)
    ⟨Or.inr rfl, by decide, _, rfl, by decide⟩).2.2.1

/-! ## C25: totality of the command dispatch -/

/-- C25 (the code departs from the claim): an input has no fields exactly when it
consists of white space only; on such an input that is not empty, `RunCommand` panics
on `parts[0]`, in every state; the input of one blank is such an input.  On an input
with a field the access is in range, but the command can still panic: the random verse
does when the testament that is drawn holds no book. -/
theorem C25_blank_input_panics :
    (∀ input : String, Fields input = [] ↔ ∀ c ∈ input.data, isSpace c = true) ∧
    (∀ (e : Engine) (input : String), input ≠ "" → Fields input = [] →
      RunCommand e input = (e, none)) ∧
    (∀ e : Engine, RunCommand e " " = (e, none)) ∧
    (∀ (e : Engine) (r0 r1 r2 r3 : Nat),
      (if r0 % 2 = 0 then e.DB.OT else e.DB.NT) = [] → doRandom e r0 r1 r2 r3 = none) := by
  have hblank : ∀ (e : Engine) (input : String), input ≠ "" → Fields input = [] →
      RunCommand e input = (e, none) := by
    intro e input hne hf
    unfold RunCommand
    rw [if_neg hne]
    dsimp only
    rw [hf]
  refine ⟨fun input => ⟨fun h => (fieldsAux_eq_nil input.data [] h).2,
    fieldsAux_spaces input.data⟩, hblank, fun e => hblank e " " (by decide) (by decide), ?_⟩
  intro e r0 r1 r2 r3 hempty
  unfold doRandom
  dsimp only
  rcases Nat.mod_two_eq_zero_or_one r0 with h | h
  · rw [h] at hempty ⊢
    rw [if_pos rfl] at hempty
    simp only [List.getD_cons_zero, if_true, hempty]
    rfl
  · rw [h] at hempty ⊢
    rw [if_neg (by decide)] at hempty
    simp only [List.getD_cons_succ, List.getD_cons_zero, hempty]
    rfl

end BibleCli
